import Mathlib

/-!
# Trip analyzer: a shallow embedding of `analyzer.cpp`

The development follows the C++ source function by function.

* Bytes are `Fin 256` (the unsigned value of a `char`).
* A byte range `[start, end)` is a `List Byte`; pointers into it are offsets.
* The bucket array `int* table` is a function from bucket index to `Int`
  together with the explicit capacity `tableSize`; the sentinel is `-1`.
* Every access the C++ code performs without a check (a bucket outside the
  table, an entry outside `entries`, a counter outside its vector, an `int`
  that would overflow) makes the embedded operation return `none`, and so
  does a probe loop that never ends.
* The 64-bit counters are unbounded integers: reaching `2^63` events is out
  of reach of any input, and the source does not defend against it.
-/

namespace TripModel

/-- One byte of input, as its unsigned value. -/
abbrev Byte := Fin 256

/-! ## Result structures (`analyzer.h`) -/

/-- The record `struct ZoneCount`. -/
structure ZoneCount where
  zone : List Byte
  count : Int
deriving DecidableEq, Repr

/-- The record `struct SlotCount`. -/
structure SlotCount where
  zone : List Byte
  hour : Int
  count : Int
deriving DecidableEq, Repr

/-- The record `struct ZoneEntry`: an interned name, its id and the hash it
was interned with. -/
structure ZoneEntry where
  name : List Byte
  id : Nat
  storedHash : Nat
deriving DecidableEq, Repr

/-- The fields of `class FastZoneMap`. -/
structure FastZoneMap where
  table : Nat → Int
  tableSize : Nat
  tableMask : Nat
  threshold : Nat
  entries : List ZoneEntry

namespace FastZoneMap

/-- The constructor `FastZoneMap::FastZoneMap()`: `2^21` buckets, all `-1`.
The product `tableSize * 0.5` is exact in `double`, so the threshold is
`tableSize / 2`. -/
def init : FastZoneMap :=
  { table := fun _ => -1
    tableSize := 2097152
    tableMask := 2097152 - 1
    threshold := 2097152 / 2
    entries := [] }

/-- The inner `while (newTable[idx] != -1) idx = (idx + 1) & newMask;` of
`resize`, started at `idx`; it yields the first empty bucket. The fuel is the
number of buckets that may still be visited. -/
def findSlot (newSize newMask : Nat) (t : Nat → Int) : Nat → Nat → Option Nat
  | 0, _ => none
  | fuel + 1, idx =>
    if idx < newSize then
      if t idx ≠ -1 then findSlot newSize newMask t fuel ((idx + 1) &&& newMask)
      else some idx
    else none

/-- The loop `for (const auto& entry : entries)` of `resize`: every entry is
put back, in order, at the first empty bucket from `storedHash & newMask`. -/
def reinsert (newSize newMask : Nat) : List ZoneEntry → (Nat → Int) → Option (Nat → Int)
  | [], t => some t
  | entry :: rest, t =>
    match findSlot newSize newMask t newSize (entry.storedHash &&& newMask) with
    | none => none
    | some idx => reinsert newSize newMask rest (Function.update t idx (entry.id : Int))

/-- The method `FastZoneMap::resize`. -/
def resize (m : FastZoneMap) : Option FastZoneMap :=
  let newSize := m.tableSize * 2
  if newSize > 0x7FFFFFFF then some m
  else
    let newMask := newSize - 1
    match reinsert newSize newMask m.entries (fun _ => -1) with
    | none => none
    | some newTable =>
      some { table := newTable
             tableSize := newSize
             tableMask := newMask
             threshold := newSize / 2
             entries := m.entries }

/-- How the probe loop of `getId` ends: at a stored entry equal to the key
(`found`, with that entry's id) or at an empty bucket (`vacant`). -/
inductive Probe where
  | found (id : Nat)
  | vacant (idx : Nat)
deriving DecidableEq, Repr

/-- The loop `while (table[idx] != -1)` of `getId`, started at `idx`. The
three-part test is: same hash, same length, `memcmp` equal on that length. -/
def probe (m : FastZoneMap) (str : List Byte) (hash : Nat) : Nat → Nat → Option Probe
  | 0, _ => none
  | fuel + 1, idx =>
    if idx < m.tableSize then
      let entryIdx := m.table idx
      if entryIdx = -1 then some (Probe.vacant idx)
      else if entryIdx < 0 then none
      else
        match m.entries[entryIdx.toNat]? with
        | none => none
        | some entry =>
          if entry.storedHash = hash ∧ entry.name.length = str.length ∧
              entry.name.take str.length = str.take str.length then
            some (Probe.found entry.id)
          else probe m str hash fuel ((idx + 1) &&& m.tableMask)
    else none

/-- The method `FastZoneMap::getId`; the result is the new table state and the
id returned. As many probe steps as there are buckets are allowed: a probe that
has not ended by then has seen every bucket and never ends. -/
def getId (m : FastZoneMap) (str : List Byte) (hash : Nat) : Option (FastZoneMap × Nat) :=
  match (if m.entries.length ≥ m.threshold then resize m else some m) with
  | none => none
  | some m1 =>
    match probe m1 str hash m1.tableSize (hash &&& m1.tableMask) with
    | none => none
    | some (Probe.found id) => some (m1, id)
    | some (Probe.vacant idx) =>
      let newId := m1.entries.length
      some ({ m1 with
              entries := m1.entries ++ [{ name := str, id := newId, storedHash := hash }]
              table := Function.update m1.table idx (newId : Int) }, newId)

/-- The method `FastZoneMap::getName`. -/
def getName (m : FastZoneMap) (id : Nat) : Option (List Byte) :=
  (m.entries[id]?).map ZoneEntry.name

/-- The method `FastZoneMap::size`. -/
def size (m : FastZoneMap) : Nat :=
  m.entries.length

/-- The buckets of a table of `size` buckets are consistent with the entries
`es`: every bucket is empty or holds an index into `es`, no index sits in two
buckets, and every entry is found by probing from its hash over occupied
buckets only. -/
structure TableOK (size : Nat) (t : Nat → Int) (es : List ZoneEntry) : Prop where
  valid : ∀ b, b < size → t b = -1 ∨ (0 ≤ t b ∧ (t b).toNat < es.length)
  inj : ∀ a b, a < size → b < size → t a ≠ -1 → t a = t b → a = b
  chain : ∀ (i : Nat) (e : ZoneEntry), es[i]? = some e →
    ∃ d, d < size ∧ t ((e.storedHash + d) % size) = (i : Int) ∧
      ∀ s, s < d → t ((e.storedHash + s) % size) ≠ -1

/-- The representation invariant of `FastZoneMap`. -/
structure WF (m : FastZoneMap) : Prop where
  pow : ∃ k, k ≤ 30 ∧ m.tableSize = 2 ^ k
  mask : m.tableMask = m.tableSize - 1
  thr : m.threshold = m.tableSize / 2
  ids : ∀ (i : Nat) (e : ZoneEntry), m.entries[i]? = some e → e.id = i
  tab : TableOK m.tableSize m.table m.entries
  distinct : ∀ (i j : Nat) (e e' : ZoneEntry), m.entries[i]? = some e → m.entries[j]? = some e' →
    e.storedHash = e'.storedHash → e.name = e'.name → i = j
  load : m.entries.length ≤ m.threshold ∨ m.tableSize = 2 ^ 30

/-- The entries hold exactly the keys (bytes and hash) of the calls `done`. -/
structure Holds (m : FastZoneMap) (done : List (List Byte × Nat)) : Prop where
  src : ∀ (i : Nat) (e : ZoneEntry), m.entries[i]? = some e → (e.name, e.storedHash) ∈ done
  all : ∀ c, c ∈ done → ∃ (i : Nat) (e : ZoneEntry),
    m.entries[i]? = some e ∧ (e.name, e.storedHash) = c

/-- A run of `getId` calls from a given table: the final table and the ids
returned, in call order. -/
def getIds : FastZoneMap → List (List Byte × Nat) → Option (FastZoneMap × List Nat)
  | m, [] => some (m, [])
  | m, (str, hash) :: calls =>
    match getId m str hash with
    | none => none
    | some (m1, id) =>
      match getIds m1 calls with
      | none => none
      | some (m2, ids) => some (m2, id :: ids)

end FastZoneMap


/-! ## The analyzer -/

/-- The fields of `class TripAnalyzer`; `expectedCommas = -1` means that no
header has been seen yet. -/
structure TripAnalyzer where
  zoneMap : FastZoneMap
  zoneCountsInternal : List Int
  slotCountsInternal : List Int
  expectedCommas : Int

/-- The 64-bit FNV-1a offset basis, `14695981039346656037ULL`. -/
def FNV_OFFSET : Nat := 14695981039346656037

/-- The 64-bit FNV-1a multiplier `FNV_PRIME`. -/
def FNV_PRIME : Nat := 1099511628211

/-- The local variables of the scanning loop of `processRawLine`; the four
pointers are offsets from `start`, `none` for `nullptr`. -/
structure Scan where
  commaCount : Nat
  c1 : Option Nat
  c2 : Option Nat
  spacePos : Option Nat
  colonPos : Option Nat
  zoneHash : Nat
deriving DecidableEq, Repr

/-- The values of the locals before the scanning loop. -/
def Scan.start : Scan :=
  { commaCount := 0, c1 := none, c2 := none, spacePos := none, colonPos := none,
    zoneHash := FNV_OFFSET }

/-- One iteration of `for (const char* p = start; p < end; ++p)`, at offset
`p` holding the byte `c`. The product is taken modulo `2^64`. -/
def scanStep (s : Scan) (p : Nat) (c : Byte) : Scan :=
  if c = 44 then
    let n := s.commaCount + 1
    if n = 1 then { s with commaCount := n, c1 := some p }
    else if n = 2 then { s with commaCount := n, c2 := some p }
    else { s with commaCount := n }
  else if s.commaCount = 1 then
    { s with zoneHash := ((s.zoneHash ^^^ c.val) * FNV_PRIME) % 2 ^ 64 }
  else if c = 32 then
    if s.commaCount ≥ 2 ∧ s.spacePos = none then { s with spacePos := some p } else s
  else if c = 58 then
    if s.spacePos ≠ none ∧ s.colonPos = none then { s with colonPos := some p } else s
  else s

/-- The scanning loop from offset `p` over the bytes that remain. -/
def scanFrom : Scan → Nat → List Byte → Scan
  | s, _, [] => s
  | s, p, c :: cs => scanFrom (scanStep s p c) (p + 1) cs

/-- The digit test of the hour parser: `(unsigned char)(b - '0')`. -/
def digitOf (b : Byte) : Nat :=
  (b.val + 256 - 48) % 256

/-- The block "Fast hour parsing": the value of `hour` after it, for the hour
field that starts at offset `hStart` and has `hLen` bytes. Both reads are below
`colonPos`, so inside the line. -/
def parseHour (line : List Byte) (hStart hLen : Nat) : Int :=
  if hLen = 2 then
    let d1 := digitOf (line.getD hStart 0)
    let d2 := digitOf (line.getD (hStart + 1) 0)
    if d1 ≤ 9 ∧ d2 ≤ 9 then ((d1 * 10 + d2 : Nat) : Int) else -1
  else if hLen = 1 then
    let d1 := digitOf (line.getD hStart 0)
    if d1 ≤ 9 then (d1 : Int) else -1
  else -1

/-- The statement `v[i]++` on a vector of counters. -/
def bump (v : List Int) (i : Nat) : Option (List Int) :=
  match v[i]? with
  | none => none
  | some c => some (v.set i (c + 1))

/-- The block "Aggregation" of `processRawLine`, after `getId` has returned
`zId` and the table `zm`. The index `zId * 24 + hour` is an `int`. -/
def recordEvent (a : TripAnalyzer) (zm : FastZoneMap) (zId : Nat) (hour : Nat) :
    Option TripAnalyzer :=
  let grown := decide (zId ≥ a.zoneCountsInternal.length)
  let zc := if grown then a.zoneCountsInternal ++ [0] else a.zoneCountsInternal
  let sc := if grown then a.slotCountsInternal ++ List.replicate 24 0
            else a.slotCountsInternal
  if zId * 24 + hour > 0x7FFFFFFF then none
  else
    match bump zc zId, bump sc (zId * 24 + hour) with
    | some zc1, some sc1 =>
      some { a with zoneMap := zm, zoneCountsInternal := zc1, slotCountsInternal := sc1 }
    | _, _ => none

/-- The method `TripAnalyzer::processRawLine` on the byte range `line`. -/
def processRawLine (a : TripAnalyzer) (line : List Byte) : Option TripAnalyzer :=
  if line.length = 0 then some a
  else
    let s := scanFrom Scan.start 0 line
    if a.expectedCommas = -1 then some { a with expectedCommas := (s.commaCount : Int) }
    else if (s.commaCount : Int) ≠ a.expectedCommas then some a
    else
      match s.c1, s.c2, s.spacePos, s.colonPos with
      | some c1, some c2, some spacePos, some colonPos =>
        let zoneLen := c2 - (c1 + 1)
        if zoneLen = 0 then some a
        else
          let hStart := spacePos + 1
          let hLen := colonPos - hStart
          let hour := parseHour line hStart hLen
          if hour < 0 ∨ hour > 23 then some a
          else
            match a.zoneMap.getId ((line.drop (c1 + 1)).take zoneLen) s.zoneHash with
            | none => none
            | some (zm, zId) => recordEvent a zm zId hour.toNat
      | _, _, _, _ => some a

/-- A run of `processRawLine` over a sequence of byte ranges. -/
def processLines : TripAnalyzer → List (List Byte) → Option TripAnalyzer
  | a, [] => some a
  | a, line :: rest =>
    match processRawLine a line with
    | none => none
    | some a1 => processLines a1 rest

/-- The default-constructed analyzer. -/
def TripAnalyzer.init : TripAnalyzer :=
  { zoneMap := FastZoneMap.init
    zoneCountsInternal := []
    slotCountsInternal := []
    expectedCommas := -1 }

/-! ## The ingest loop

The loop is written over an arbitrary per-line action `f`, so that the same
definition gives both `ingestFile` (with `processRawLine`) and the sequence of
byte ranges handed over (with an action that records them). -/

/-- Strip one trailing carriage return: `if (end > start && *(end - 1) == '\r')`. -/
def stripCR (l : List Byte) : List Byte :=
  if l.getLast? = some 13 then l.dropLast else l

/-- The call site of `processRawLine`: the byte range, once its carriage
return is stripped, is handed over unless it is empty. -/
def emit {σ : Type} (f : σ → List Byte → Option σ) (s : σ) (l : List Byte) : Option σ :=
  let l1 := stripCR l
  if l1.length > 0 then f s l1 else some s

/-- The loop `while (p < bufEnd)` over one filled buffer: `cur` holds the bytes
from `lineStart` up to `p`, the list argument those from `p` to `bufEnd`. The
result carries the bytes left after the last line feed. -/
def scanBuffer {σ : Type} (f : σ → List Byte → Option σ) :
    σ → List Byte → List Byte → Option (σ × List Byte)
  | s, cur, [] => some (s, cur)
  | s, cur, b :: bs =>
    if b = 10 then
      match emit f s cur with
      | none => none
      | some s1 => scanBuffer f s1 [] bs
    else scanBuffer f s (cur ++ [b]) bs

/-- The loop `while (file)`: `carry` holds the `offset` bytes kept at the front
of the buffer, `file` the bytes not yet read. A read that returns fewer bytes
than asked for leaves the stream in a failed state, which ends the loop. -/
def readLoop {σ : Type} (bufSize : Nat) (f : σ → List Byte → Option σ) :
    Nat → σ → List Byte → List Byte → Option (σ × List Byte)
  | 0, _, _, _ => none
  | fuel + 1, s, carry, file =>
    let want := bufSize - carry.length
    let chunk := file.take want
    if chunk.length = 0 then some (s, carry)
    else
      match scanBuffer f s [] (carry ++ chunk) with
      | none => none
      | some (s1, remaining) =>
        if chunk.length < want then some (s1, remaining)
        else readLoop bufSize f fuel s1 remaining (file.drop want)

/-- The body of `ingestFile` once the file is open, for a buffer of `bufSize`
bytes: the read loop, then the last line when the file does not end with a line
feed. Every pass of the read loop consumes a byte, so `content.length + 1`
passes are enough. -/
def ingestWith {σ : Type} (bufSize : Nat) (f : σ → List Byte → Option σ) (s : σ)
    (content : List Byte) : Option σ :=
  match readLoop bufSize f (content.length + 1) s [] content with
  | none => none
  | some (s1, carry) => if carry.length > 0 then emit f s1 carry else some s1

/-- The constant `BUFFER_SIZE`. -/
def BUFFER_SIZE : Nat := 4 * 1024 * 1024

/-- The method `TripAnalyzer::ingestFile`; `file` is the content found at the
path, `none` when the file cannot be opened. -/
def ingestFile (a : TripAnalyzer) (file : Option (List Byte)) : Option TripAnalyzer :=
  let a1 := { a with expectedCommas := -1 }
  match file with
  | none => some a1
  | some content => ingestWith BUFFER_SIZE processRawLine a1 content

/-- The byte ranges that `ingestFile` hands to `processRawLine`, in order, for
a buffer of `bufSize` bytes. -/
def chunkLines (bufSize : Nat) (content : List Byte) : List (List Byte) :=
  (ingestWith bufSize (fun (acc : List (List Byte)) l => some (acc ++ [l])) [] content).getD []

/-- The byte ranges handed over at one call site: the range without its
carriage return, unless that is empty. -/
def emitted (l : List Byte) : List (List Byte) :=
  if (stripCR l).length > 0 then [stripCR l] else []

/-- The byte ranges handed over while one buffer is scanned, and the bytes
left after its last line feed. -/
def bufferLines : List Byte → List Byte → List (List Byte) × List Byte
  | cur, [] => ([], cur)
  | cur, b :: bs =>
    if b = 10 then (emitted cur ++ (bufferLines [] bs).1, (bufferLines [] bs).2)
    else bufferLines (cur ++ [b]) bs

/-- The byte ranges handed over by the read loop, and the bytes it leaves in
the buffer. -/
def loopLines (bufSize : Nat) : Nat → List Byte → List Byte →
    Option (List (List Byte) × List Byte)
  | 0, _, _ => none
  | fuel + 1, carry, file =>
    let want := bufSize - carry.length
    let chunk := file.take want
    if chunk.length = 0 then some ([], carry)
    else
      let r := bufferLines [] (carry ++ chunk)
      if chunk.length < want then some r
      else
        match loopLines bufSize fuel r.2 (file.drop want) with
        | none => none
        | some (ls, c) => some (r.1 ++ ls, c)

/-- Splitting at line feeds: `cur` holds the bytes of the piece being read.
The bytes after the last line feed form the last piece, which may be empty. -/
def splitFrom : List Byte → List Byte → List (List Byte)
  | cur, [] => [cur]
  | cur, b :: bs => if b = 10 then cur :: splitFrom [] bs else splitFrom (cur ++ [b]) bs

/-- The lines of a whole content: its pieces between line feeds, each without
one trailing carriage return, the empty ones left out. -/
def wholeLines (content : List Byte) : List (List Byte) :=
  (splitFrom [] content).flatMap emitted

/-- The content of a file made of the given lines, each followed by the line
terminator `eol`: a line feed, or a carriage return and a line feed. -/
def joinLines (eol : List Byte) (lines : List (List Byte)) : List Byte :=
  lines.flatMap (fun l => l ++ eol)

/-! ## Reports -/

/-- The comparison `operator<` of `std::string`: bytes compared as unsigned
values, a proper prefix first. -/
def strLt : List Byte → List Byte → Bool
  | [], [] => false
  | [], _ :: _ => true
  | _ :: _, [] => false
  | a :: as, b :: bs => if a < b then true else if b < a then false else strLt as bs

/-- The comparator of `topZones`. -/
def zoneBefore (a b : ZoneCount) : Bool :=
  if a.count ≠ b.count then decide (a.count > b.count) else strLt a.zone b.zone

/-- The comparator of `topBusySlots`. -/
def slotBefore (a b : SlotCount) : Bool :=
  if a.count ≠ b.count then decide (a.count > b.count)
  else if a.zone ≠ b.zone then strLt a.zone b.zone
  else decide (a.hour < b.hour)

/-- The call `std::sort(first, last, comp)`. Both comparators used here are
strict total orders on the records (`zoneBefore_strict`, `slotBefore_strict`),
so the sorted arrangement does not depend on the algorithm (`stdSort_unique`);
it is computed by insertion. -/
def stdSort {α : Type} (comp : α → α → Bool) (l : List α) : List α :=
  l.insertionSort (fun a b => comp b a = false)

/-- A comparator that is a strict total order: what `std::sort` needs for its
result to be determined by the records alone. -/
structure StrictOrd {α : Type} (comp : α → α → Bool) : Prop where
  asymm : ∀ a b, comp a b = true → comp b a = false
  trans : ∀ a b c, comp a b = true → comp b c = true → comp a c = true
  connex : ∀ a b, a ≠ b → comp a b = true ∨ comp b a = true

/-- The tail of both reports: `if (k > 0 && results.size() > (size_t)k)
results.resize(k);`. -/
def truncate {α : Type} (k : Int) (results : List α) : List α :=
  if k > 0 ∧ results.length > k.toNat then results.take k.toNat else results

/-- The collecting loop of `topZones` over the ids listed. -/
def zoneRows (a : TripAnalyzer) : List Nat → Option (List ZoneCount)
  | [] => some []
  | i :: rest =>
    match a.zoneCountsInternal[i]?, a.zoneMap.getName i, zoneRows a rest with
    | some c, some n, some rows =>
      some (if c > 0 then { zone := n, count := c } :: rows else rows)
    | _, _, _ => none

/-- The method `TripAnalyzer::topZones`. -/
def topZones (a : TripAnalyzer) (k : Int) : Option (List ZoneCount) :=
  match zoneRows a (List.range a.zoneMap.size) with
  | none => none
  | some rows => some (truncate k (stdSort zoneBefore rows))

/-- One pass of the inner loop of `topBusySlots`, for zone `z` and hour `h`. -/
def slotRow (a : TripAnalyzer) (z h : Nat) : Option SlotCount :=
  match a.slotCountsInternal[z * 24 + h]?, a.zoneMap.getName z with
  | some c, some n => if c > 0 then some { zone := n, hour := (h : Int), count := c } else none
  | _, _ => none

/-- The collecting loops of `topBusySlots`. -/
def slotRows (a : TripAnalyzer) : List SlotCount :=
  (List.range a.zoneMap.size).flatMap (fun z => (List.range 24).filterMap (slotRow a z))

/-- The method `TripAnalyzer::topBusySlots`. -/
def topBusySlots (a : TripAnalyzer) (k : Int) : List SlotCount :=
  truncate k (stdSort slotBefore (slotRows a))


/-! ## The input format, stated on the bytes of a line

These definitions do not come from the scanning loop: they say what the line
format is, and the theorems below relate `processRawLine` to them. -/

/-- The bytes after the first occurrence of `c` (none when `c` is absent). -/
def afterFirst (c : Byte) (l : List Byte) : List Byte :=
  (l.dropWhile (fun b => b ≠ c)).drop 1

/-- The bytes before the first occurrence of `c` (all when `c` is absent). -/
def beforeFirst (c : Byte) (l : List Byte) : List Byte :=
  l.takeWhile (fun b => b ≠ c)

/-- The number of delimiters of a line. -/
def commaCount (line : List Byte) : Nat :=
  line.count 44

/-- The zone field: the bytes strictly between the 1st and the 2nd comma. -/
def zoneField (line : List Byte) : List Byte :=
  beforeFirst 44 (afterFirst 44 line)

/-- The bytes after the 2nd comma. -/
def afterZone (line : List Byte) : List Byte :=
  afterFirst 44 (afterFirst 44 line)

/-- The hour field: the bytes between the first space after the 2nd comma and
the first colon after that space; `none` when that space or that colon is
missing. -/
def hourField (line : List Byte) : Option (List Byte) :=
  if 32 ∈ afterZone line then
    if 58 ∈ afterFirst 32 (afterZone line) then
      some (beforeFirst 58 (afterFirst 32 (afterZone line)))
    else none
  else none

/-- An ASCII digit. -/
def isDigit (b : Byte) : Prop :=
  48 ≤ b.val ∧ b.val ≤ 57

instance (b : Byte) : Decidable (isDigit b) := by
  unfold isDigit; infer_instance

/-- The decimal value of a field made of one or two ASCII digits. -/
def hourValue : List Byte → Option Nat
  | [d] => if isDigit d then some (d.val - 48) else none
  | [d1, d2] =>
    if isDigit d1 ∧ isDigit d2 then some ((d1.val - 48) * 10 + (d2.val - 48)) else none
  | _ => none

/-- The rejection rules of the tokenizer for a data line, given the delimiter
count of the header: a different delimiter count; fewer than two commas or an
empty zone field; no space after the 2nd comma or no colon after that space;
an hour field that is not one or two digits or whose value is above 23. -/
def Rejected (expected : Int) (line : List Byte) : Prop :=
  (commaCount line : Int) ≠ expected ∨
  (commaCount line < 2 ∨ zoneField line = []) ∨
  hourField line = none ∨
  (∃ f, hourField line = some f ∧ (hourValue f = none ∨ ∃ v, hourValue f = some v ∧ 23 < v))

/-- The event a well-formed line stands for: its zone and its hour. -/
def lineEvent (line : List Byte) : Option (List Byte × Nat) :=
  if commaCount line < 2 ∨ zoneField line = [] then none
  else
    match hourField line with
    | none => none
    | some f =>
      match hourValue f with
      | none => none
      | some v => if v ≤ 23 then some (zoneField line, v) else none

/-- The hash FNV-1a, 64 bits wide, of a byte string. -/
def fnv1a (bytes : List Byte) : Nat :=
  bytes.foldl (fun h b => ((h ^^^ b.val) * FNV_PRIME) % 2 ^ 64) FNV_OFFSET

/-- The values of the locals of `processRawLine` after the scanning loop,
stated on the fields of the line. -/
def scanSpec (line : List Byte) : Scan :=
  { commaCount := commaCount line
    c1 := if 44 ∈ line then some (beforeFirst 44 line).length else none
    c2 := if 44 ∈ afterFirst 44 line then
        some ((beforeFirst 44 line).length + 1 + (zoneField line).length)
      else none
    spacePos := if 32 ∈ afterZone line then
        some ((beforeFirst 44 line).length + 1 + (zoneField line).length + 1 +
          (beforeFirst 32 (afterZone line)).length)
      else none
    colonPos := if 58 ∈ afterFirst 32 (afterZone line) then
        some ((beforeFirst 44 line).length + 1 + (zoneField line).length + 1 +
          (beforeFirst 32 (afterZone line)).length + 1 +
          (beforeFirst 58 (afterFirst 32 (afterZone line))).length)
      else none
    zoneHash := fnv1a (zoneField line) }

/-- The part of `processRawLine` that follows a successful parse, for the zone
bytes `z` and the hour `h`: intern the zone under its hash, then count. -/
def applyEvent (a : TripAnalyzer) (z : List Byte) (h : Nat) : Option TripAnalyzer :=
  match a.zoneMap.getId z (fnv1a z) with
  | none => none
  | some (zm, zId) => recordEvent a zm zId h

/-! ## What a state stands for

An analyzer state is described by the list of events (zone, hour) it has
counted. -/

/-- The number of events of a zone. -/
def zoneEvents (evs : List (List Byte × Nat)) (z : List Byte) : Nat :=
  evs.countP (fun ev => decide (ev.1 = z))

/-- The number of events of a zone at an hour. -/
def slotEvents (evs : List (List Byte × Nat)) (z : List Byte) (h : Nat) : Nat :=
  evs.countP (fun ev => decide (ev.1 = z ∧ ev.2 = h))

/-- The state `a` has counted exactly the events `evs`: its interner is
well-formed and holds the zones of these events, each under its FNV-1a hash,
and its two vectors hold, for every interned zone, the number of events of the
zone and of each of its 24 slots. The bound on the number of zones is the one
the `int` index `zId * 24 + hour` imposes. -/
structure Tracks (a : TripAnalyzer) (evs : List (List Byte × Nat)) : Prop where
  wf : FastZoneMap.WF a.zoneMap
  hashed : ∀ (i : Nat) (e : ZoneEntry), a.zoneMap.entries[i]? = some e →
    e.storedHash = fnv1a e.name
  small : a.zoneMap.entries.length ≤ 89478486
  sound : ∀ (i : Nat) (e : ZoneEntry), a.zoneMap.entries[i]? = some e →
    ∃ ev, ev ∈ evs ∧ ev.1 = e.name
  complete : ∀ ev, ev ∈ evs → ∃ (i : Nat) (e : ZoneEntry),
    a.zoneMap.entries[i]? = some e ∧ e.name = ev.1
  zlen : a.zoneCountsInternal.length = a.zoneMap.entries.length
  slen : a.slotCountsInternal.length = 24 * a.zoneMap.entries.length
  zcount : ∀ (i : Nat) (e : ZoneEntry), a.zoneMap.entries[i]? = some e →
    a.zoneCountsInternal[i]? = some (zoneEvents evs e.name : Int)
  scount : ∀ (i : Nat) (e : ZoneEntry) (h : Nat), a.zoneMap.entries[i]? = some e → h < 24 →
    a.slotCountsInternal[i * 24 + h]? = some (slotEvents evs e.name h : Int)

/-- The number of distinct zones among events. -/
def distinctZones (evs : List (List Byte × Nat)) : Nat :=
  ((evs.map Prod.fst).dedup).length

/-- The events of data lines under a header with `expected` commas: each line
with that comma count stands for its event, if it has one. -/
def dataEvents (expected : Nat) (ls : List (List Byte)) : List (List Byte × Nat) :=
  ls.filterMap (fun l => if commaCount l = expected then lineEvent l else none)

/-- The events of a sequence of byte ranges handed over by one `ingestFile`
call: the first one is the header; each later one whose comma count is the
header's stands for its event, if it has one. -/
def fileEvents : List (List Byte) → List (List Byte × Nat)
  | [] => []
  | header :: rest => dataEvents (commaCount header) rest

/-- The count that `topZones(0)` reports for a zone name: the sum of the counts
of its entries of that name (there is at most one), `0` when there is none. -/
def zoneCountOf (a : TripAnalyzer) (name : List Byte) : Int :=
  match topZones a 0 with
  | none => 0
  | some report =>
    ((report.filter (fun r => decide (r.zone = name))).map ZoneCount.count).sum

/-- The count that `topBusySlots(0)` reports for a zone name and an hour. -/
def slotCountOf (a : TripAnalyzer) (name : List Byte) (hour : Nat) : Int :=
  (((topBusySlots a 0).filter
    (fun r => decide (r.zone = name ∧ r.hour = (hour : Int)))).map SlotCount.count).sum

/-- The analyzer states a program can reach: the fresh one, and those that
`ingestFile` calls return. -/
inductive Reachable : TripAnalyzer → Prop where
  | init : Reachable TripAnalyzer.init
  | ingest (a a' : TripAnalyzer) (file : Option (List Byte)) :
      Reachable a → ingestFile a file = some a' → Reachable a'

/-- The example file of the specification: the header `id,zone,time` and the
data lines `1,A,08:15`, `2,B,08:16`, `3,A,09:00`, each ended by a line feed. -/
def exampleFile : List Byte :=
  [
    105, 100, 44, 122, 111, 110, 101, 44, 116, 105, 109, 101, 10, 49, 44, 65, 44, 48, 56, 58,
    49, 53, 10, 50, 44, 66, 44, 48, 56, 58, 49, 54, 10, 51, 44, 65, 44, 48, 57, 58, 48, 48, 10]

/-- The same example with a date before each time, as in `2024-01-01 08:15`. -/
def datedExampleFile : List Byte :=
  [
    105, 100, 44, 122, 111, 110, 101, 44, 116, 105, 109, 101, 10, 49, 44, 65, 44, 50, 48, 50,
    52, 45, 48, 49, 45, 48, 49, 32, 48, 56, 58, 49, 53, 10, 50, 44, 66, 44, 50, 48, 50, 52, 45,
    48, 49, 45, 48, 49, 32, 48, 56, 58, 49, 54, 10, 51, 44, 65, 44, 50, 48, 50, 52, 45, 48, 49,
    45, 48, 49, 32, 48, 57, 58, 48, 48, 10]

/-! ## States reached line by line -/

/-- The analyzer states reached by processing byte ranges, each with the lines
it has accepted so far: the fresh analyzer; a state whose `expectedCommas` is
reset, as `ingestFile` does on entry; the state after `processRawLine` on a
byte range that is a header or that a rejection rule drops; and the state after
`processRawLine` on a byte range that no rule rejects, which is then accepted. -/
inductive Processed : TripAnalyzer → List (List Byte) → Prop where
  | init : Processed TripAnalyzer.init []
  | reset (a : TripAnalyzer) (acc : List (List Byte)) :
      Processed a acc → Processed { a with expectedCommas := -1 } acc
  | skip (a a' : TripAnalyzer) (acc : List (List Byte)) (line : List Byte) :
      Processed a acc → (a.expectedCommas = -1 ∨ Rejected a.expectedCommas line) →
      processRawLine a line = some a' → Processed a' acc
  | accept (a a' : TripAnalyzer) (acc : List (List Byte)) (line : List Byte) :
      Processed a acc → a.expectedCommas ≠ -1 → ¬ Rejected a.expectedCommas line →
      processRawLine a line = some a' → Processed a' (acc ++ [line])

/-! ## Line splitting in the words of the specification -/

/-- The lines of a content as the specification words them: split the whole
content at line-feed bytes, strip one trailing carriage return from each
piece, and skip the pieces that are then empty. -/
def specLines (content : List Byte) : List (List Byte) :=
  ((content.splitOn 10).map
    (fun piece => if piece.getLast? = some 13 then piece.dropLast else piece)).filter
    (fun piece => decide (piece ≠ []))

/-! ## Inputs that make the table grow -/

/-- The keys of `n` calls with pairwise distinct strings: the strings of
`0, 1, ..., n - 1` zero bytes, all supplied with the hash `0`. -/
def zeroKeys (n : Nat) : List (List Byte × Nat) :=
  (List.range n).map (fun i => (List.replicate i 0, 0))

/-! ## Inputs at the limits of the reader and of the counters -/

/-- The header line `id,zone,time`. -/
def headerLine : List Byte :=
  [105, 100, 44, 122, 111, 110, 101, 44, 116, 105, 109, 101]

/-- A well-formed data line that does not fit the read buffer: a trip id of
`BUFFER_SIZE` digits `1`, followed by `,A,d 05:10`. -/
def longLine : List Byte :=
  List.replicate BUFFER_SIZE 49 ++ [44, 65, 44, 100, 32, 48, 53, 58, 49, 48]

/-- The zone name number `i`: the letter `Z` followed by the decimal digits of
`i`, lowest digit first. Distinct numbers give distinct names. -/
def zoneName (i : Nat) : List Byte :=
  90 :: (Nat.digits 10 i).map (fun d => ⟨(48 + d) % 256, Nat.mod_lt _ (by decide)⟩)

/-- The data line `1,<zone>,d 08:00` for the zone bytes `z`. -/
def zoneLine (z : List Byte) : List Byte :=
  [49, 44] ++ z ++ [44, 100, 32, 48, 56, 58, 48, 48]

/-- The data lines `1,<zone>,d 08:00` for the first `n` zone names. -/
def zoneLines (n : Nat) : List (List Byte) :=
  (List.range n).map (fun i => zoneLine (zoneName i))

/-! # Theorems -/

/-! ## Probing arithmetic and empty buckets -/

namespace FastZoneMap

theorem step_mask (k h s : Nat) :
    ((h + s) % 2 ^ k + 1) &&& (2 ^ k - 1) = (h + (s + 1)) % 2 ^ k := by
  rw [Nat.and_pow_two_sub_one_eq_mod]
  simp [Nat.add_assoc]

theorem start_mask (k h : Nat) : h &&& (2 ^ k - 1) = (h + 0) % 2 ^ k := by
  rw [Nat.and_pow_two_sub_one_eq_mod]; rfl

theorem findSlot_spec (k : Nat) (t : Nat → Int) (h d : Nat) :
    ∀ fuel s, s ≤ d → d - s < fuel →
      (∀ u, s ≤ u → u < d → t ((h + u) % 2 ^ k) ≠ -1) →
      t ((h + d) % 2 ^ k) = -1 →
      findSlot (2 ^ k) (2 ^ k - 1) t fuel ((h + s) % 2 ^ k) = some ((h + d) % 2 ^ k) := by
  intro fuel
  induction fuel with
  | zero => intro s _ hf; omega
  | succ fuel ih =>
    intro s hsd hf hocc hemp
    have hlt : (h + s) % 2 ^ k < 2 ^ k := Nat.mod_lt _ (Nat.pos_pow_of_pos _ (by decide))
    rcases Nat.eq_or_lt_of_le hsd with heq | hlt'
    · subst heq
      simp [findSlot, hlt, hemp]
    · have hne := hocc s (Nat.le_refl _) hlt'
      simp only [findSlot, hlt, if_true, hne, ne_eq, not_false_eq_true]
      rw [step_mask]
      exact ih (s + 1) hlt' (by omega) (fun u hu hud => hocc u (by omega) hud) hemp

/-- Every bucket is reached from every start within `size` steps. -/
theorem reach_bucket (size h b : Nat) (hb : b < size) :
    ∃ d, d < size ∧ (h + d) % size = b := by
  refine ⟨(b + size - h % size) % size, Nat.mod_lt _ (by omega), ?_⟩
  have h1 : h % size < size := Nat.mod_lt _ (by omega)
  have : h % size + (b + size - h % size) = b + size := by omega
  rw [Nat.add_mod_mod, ← Nat.mod_add_mod, this, Nat.add_mod_right, Nat.mod_eq_of_lt hb]

/-- A table with fewer entries than buckets has an empty bucket. -/
theorem exists_empty (size : Nat) (t : Nat → Int) (es : List ZoneEntry)
    (ok : TableOK size t es) (hlt : es.length < size) :
    ∃ b, b < size ∧ t b = -1 := by
  by_contra hcon
  push_neg at hcon
  have hcard : (Finset.range size).card ≤ (Finset.range es.length).card := by
    apply Finset.card_le_card_of_injOn (fun b => (t b).toNat)
    · intro b hb
      have hb' : b < size := by simpa using hb
      rcases ok.valid b hb' with h | h
      · exact absurd h (hcon b hb')
      · simpa using h.2
    · intro a ha b hb hab
      have ha' : a < size := by simpa using ha
      have hb' : b < size := by simpa using hb
      have hna := hcon a ha'
      have hnb := hcon b hb'
      have va := (ok.valid a ha').resolve_left hna
      have vb := (ok.valid b hb').resolve_left hnb
      apply ok.inj a b ha' hb' hna
      have : (t a).toNat = (t b).toNat := hab
      omega
  simp at hcard
  omega

/-- From any start the probe sequence meets a first empty bucket. -/
theorem first_empty (size : Nat) (t : Nat → Int) (es : List ZoneEntry)
    (ok : TableOK size t es) (hlt : es.length < size) (h : Nat) :
    ∃ d, d < size ∧ t ((h + d) % size) = -1 ∧ ∀ s, s < d → t ((h + s) % size) ≠ -1 := by
  obtain ⟨b, hb, hemp⟩ := exists_empty size t es ok hlt
  obtain ⟨d0, hd0, hd0b⟩ := reach_bucket size h b hb
  have hex : ∃ d, d < size ∧ t ((h + d) % size) = -1 := ⟨d0, hd0, by rw [hd0b]; exact hemp⟩
  classical
  refine ⟨Nat.find hex, (Nat.find_spec hex).1, (Nat.find_spec hex).2, ?_⟩
  intro s hs hcon
  exact Nat.find_min hex hs ⟨lt_trans hs (Nat.find_spec hex).1, hcon⟩

end FastZoneMap

/-! ## Insertion and growth keep the table consistent -/

namespace FastZoneMap

theorem tableOK_empty (size : Nat) : TableOK size (fun _ => -1) [] where
  valid := fun _ _ => Or.inl rfl
  inj := fun _ _ _ _ h => absurd rfl h
  chain := fun i e h => by simp at h

/-- Putting the next index at the first empty bucket of the probe sequence of
its hash keeps the table consistent. -/
theorem tableOK_insert (size : Nat) (t : Nat → Int) (es : List ZoneEntry) (e : ZoneEntry)
    (ok : TableOK size t es) (d : Nat) (hd : d < size)
    (hemp : t ((e.storedHash + d) % size) = -1)
    (hocc : ∀ s, s < d → t ((e.storedHash + s) % size) ≠ -1) :
    TableOK size (Function.update t ((e.storedHash + d) % size) (es.length : Int))
      (es ++ [e]) := by
  have hpos : (e.storedHash + d) % size < size := Nat.mod_lt _ (by omega)
  refine ⟨?_, ?_, ?_⟩
  · intro b hb
    by_cases hbe : b = (e.storedHash + d) % size
    · subst hbe
      right
      simp
    · rw [Function.update_noteq hbe]
      rcases ok.valid b hb with h | h
      · exact Or.inl h
      · right
        simp only [List.length_append, List.length_singleton]
        omega
  · intro a b ha hb hna hab
    by_cases hae : a = (e.storedHash + d) % size
    · by_cases hbe : b = (e.storedHash + d) % size
      · rw [hae, hbe]
      · exfalso
        rw [hae, Function.update_same, Function.update_noteq hbe] at hab
        rcases ok.valid b hb with h | h
        · rw [h] at hab; omega
        · omega
    · by_cases hbe : b = (e.storedHash + d) % size
      · exfalso
        rw [hbe, Function.update_same, Function.update_noteq hae] at hab
        rcases ok.valid a ha with h | h
        · rw [h] at hab; omega
        · omega
      · rw [Function.update_noteq hae] at hna hab
        rw [Function.update_noteq hbe] at hab
        exact ok.inj a b ha hb hna hab
  · intro i x hix
    have hupd : ∀ b, t b ≠ -1 →
        Function.update t ((e.storedHash + d) % size) (es.length : Int) b ≠ -1 := by
      intro b hb
      by_cases hbe : b = (e.storedHash + d) % size
      · subst hbe; simp
      · rw [Function.update_noteq hbe]; exact hb
    by_cases hi : i < es.length
    · rw [List.getElem?_append_left hi] at hix
      obtain ⟨d', hd', hval, hbefore⟩ := ok.chain i x hix
      refine ⟨d', hd', ?_, fun s hs => hupd _ (hbefore s hs)⟩
      have hne : (x.storedHash + d') % size ≠ (e.storedHash + d) % size := by
        intro hcon
        rw [hcon, hemp] at hval
        omega
      rw [Function.update_noteq hne]
      exact hval
    · have hlen : i < (es ++ [e]).length := by
        by_contra hcon
        rw [List.getElem?_eq_none (by omega)] at hix
        exact Option.noConfusion hix
      simp only [List.length_append, List.length_singleton] at hlen
      have hieq : i = es.length := by omega
      subst hieq
      simp at hix
      subst hix
      exact ⟨d, hd, by simp, fun s hs => hupd _ (hocc s hs)⟩

theorem reinsert_spec (k : Nat) :
    ∀ (pending done : List ZoneEntry) (t : Nat → Int),
      TableOK (2 ^ k) t done →
      (∀ (i : Nat) (e : ZoneEntry), (done ++ pending)[i]? = some e → e.id = i) →
      (done ++ pending).length < 2 ^ k →
      ∃ t', reinsert (2 ^ k) (2 ^ k - 1) pending t = some t' ∧ TableOK (2 ^ k) t' (done ++ pending) := by
  intro pending
  induction pending with
  | nil =>
    intro done t ok _ _
    exact ⟨t, rfl, by simpa using ok⟩
  | cons e rest ih =>
    intro done t ok hids hlen
    have hlt : done.length < 2 ^ k := by
      simp only [List.length_append, List.length_cons] at hlen
      omega
    obtain ⟨d, hd, hemp, hocc⟩ := first_empty (2 ^ k) t done ok hlt e.storedHash
    have hfind := findSlot_spec k t e.storedHash d (2 ^ k) 0 (Nat.zero_le _) (by omega)
      (fun u _ hu => hocc u hu) hemp
    have hid : e.id = done.length :=
      hids done.length e (by rw [List.getElem?_append_right (le_refl _)]; simp)
    have ok' := tableOK_insert (2 ^ k) t done e ok d hd hemp hocc
    have happ : done ++ e :: rest = (done ++ [e]) ++ rest := by simp
    rw [happ] at hids hlen ⊢
    obtain ⟨t', ht', okt'⟩ := ih (done ++ [e]) _ ok' hids hlen
    refine ⟨t', ?_, okt'⟩
    simp only [reinsert]
    rw [start_mask, hfind, hid]
    exact ht'

/-- On a well-formed table `resize` returns, keeps the entries, and gives a
well-formed table: twice as large below the cap, the same table at the cap. -/
theorem resize_spec (m : FastZoneMap) (wf : WF m) :
    ∃ m', resize m = some m' ∧ WF m' ∧ m'.entries = m.entries ∧
      (m.tableSize < 2 ^ 30 → m'.tableSize = 2 * m.tableSize ∧
        m'.entries.length ≤ m'.threshold) ∧
      (m.tableSize = 2 ^ 30 → m' = m) := by
  obtain ⟨k, hk, hsize⟩ := wf.pow
  by_cases hcap : m.tableSize * 2 > 0x7FFFFFFF
  · have hk30 : k = 30 := by
      by_contra hne
      have hk29 : k ≤ 29 := by omega
      have : 2 ^ k ≤ 2 ^ 29 := Nat.pow_le_pow_right (by decide) hk29
      rw [hsize] at hcap
      norm_num at hcap
      omega
    refine ⟨m, by simp [resize, hcap], wf, rfl, ?_, fun _ => rfl⟩
    intro hlt
    rw [hsize, hk30] at hlt
    omega
  · have hk29 : k ≤ 29 := by
      by_contra hne
      have hk30 : k = 30 := by omega
      rw [hsize, hk30] at hcap
      norm_num at hcap
    have hnot : m.tableSize ≠ 2 ^ 30 := by
      rw [hsize]
      intro h
      have := Nat.pow_right_injective (le_refl 2) h
      omega
    have hload : m.entries.length ≤ m.tableSize / 2 := by
      rcases wf.load with h | h
      · rw [← wf.thr]; exact h
      · exact absurd h hnot
    have hpos : 0 < 2 ^ k := Nat.pos_pow_of_pos _ (by decide)
    have hnew : m.tableSize * 2 = 2 ^ (k + 1) := by rw [hsize, pow_succ]
    have hlen : ([] ++ m.entries).length < 2 ^ (k + 1) := by
      rw [← hnew, hsize]
      simp only [List.nil_append]
      rw [hsize] at hload
      omega
    obtain ⟨t', ht', okt'⟩ := reinsert_spec (k + 1) m.entries [] (fun _ => -1)
      (tableOK_empty _) (by simpa using wf.ids) hlen
    simp only [List.nil_append] at okt'
    refine ⟨{ table := t', tableSize := m.tableSize * 2, tableMask := m.tableSize * 2 - 1,
              threshold := m.tableSize * 2 / 2, entries := m.entries }, ?_, ?_, rfl, ?_, ?_⟩
    · simp only [resize, hcap, if_false]
      rw [hnew, ht']
    · refine ⟨⟨k + 1, by omega, hnew⟩, rfl, rfl, wf.ids, ?_, wf.distinct, ?_⟩
      · show TableOK (m.tableSize * 2) t' m.entries
        rw [hnew]; exact okt'
      · left
        show m.entries.length ≤ m.tableSize * 2 / 2
        omega
    · intro _
      refine ⟨by show m.tableSize * 2 = 2 * m.tableSize; omega, ?_⟩
      show m.entries.length ≤ m.tableSize * 2 / 2
      omega
    · intro h; exact absurd h hnot

end FastZoneMap

/-! ## What `getId` does -/

namespace FastZoneMap

theorem keyMatch_iff (e : ZoneEntry) (str : List Byte) (hash : Nat) :
    (e.storedHash = hash ∧ e.name.length = str.length ∧
      e.name.take str.length = str.take str.length) ↔ (e.storedHash = hash ∧ e.name = str) := by
  constructor
  · rintro ⟨h1, h2, h3⟩
    refine ⟨h1, ?_⟩
    rw [← h2, List.take_length] at h3
    rw [h3, h2, List.take_length]
  · rintro ⟨h1, h2⟩
    subst h2
    exact ⟨h1, rfl, rfl⟩

theorem probe_found (m : FastZoneMap) (wf : WF m) (str : List Byte) (hash i d : Nat)
    (e : ZoneEntry) (hie : m.entries[i]? = some e) (hname : e.name = str)
    (hhash : e.storedHash = hash)
    (hval : m.table ((hash + d) % m.tableSize) = (i : Int))
    (hocc : ∀ s, s < d → m.table ((hash + s) % m.tableSize) ≠ -1) :
    ∀ fuel s, s ≤ d → d - s < fuel →
      probe m str hash fuel ((hash + s) % m.tableSize) = some (Probe.found i) := by
  obtain ⟨k, _, hsize⟩ := wf.pow
  have hmask := wf.mask
  intro fuel
  induction fuel with
  | zero => intro s _ hf; omega
  | succ fuel ih =>
    intro s hsd hf
    have hlt : (hash + s) % m.tableSize < m.tableSize :=
      Nat.mod_lt _ (by rw [hsize]; exact Nat.pos_pow_of_pos _ (by decide))
    rcases Nat.eq_or_lt_of_le hsd with heq | hlt'
    · subst heq
      have hm : e.storedHash = hash ∧ e.name.length = str.length ∧
          e.name.take str.length = str.take str.length :=
        (keyMatch_iff e str hash).2 ⟨hhash, hname⟩
      have hid := wf.ids i e hie
      have hneg : ¬ ((i : Int) = -1) := by omega
      have hneg' : ¬ ((i : Int) < 0) := by omega
      simp only [probe, hlt, if_true, hval, hneg, hneg', if_false, Int.toNat_ofNat, hie, hm,
        and_self, hid]
    · have hne := hocc s hlt'
      rcases wf.tab.valid _ hlt with hv | ⟨hv0, hvlen⟩
      · exact absurd hv hne
      · obtain ⟨e', he'⟩ : ∃ e', m.entries[(m.table ((hash + s) % m.tableSize)).toNat]? = some e' :=
          ⟨_, List.getElem?_eq_getElem hvlen⟩
        have hneg' : ¬ (m.table ((hash + s) % m.tableSize) < 0) := by omega
        by_cases hm : e'.storedHash = hash ∧ e'.name.length = str.length ∧
            e'.name.take str.length = str.take str.length
        · have hm' := (keyMatch_iff e' str hash).1 hm
          have hji := wf.distinct _ i e' e he' hie (by rw [hm'.1, hhash]) (by rw [hm'.2, hname])
          have hid := wf.ids _ e' he'
          simp only [probe, hlt, if_true, hne, hneg', if_false, he', hm, and_self]
          rw [hid, hji]
        · simp only [probe, hlt, if_true, hne, hneg', if_false, he', hm]
          rw [hmask, hsize, step_mask, ← hsize]
          exact ih (s + 1) hlt' (by omega)

theorem probe_vacant (m : FastZoneMap) (wf : WF m) (str : List Byte) (hash d : Nat)
    (hnone : ∀ (i : Nat) (e : ZoneEntry), m.entries[i]? = some e →
      ¬ (e.storedHash = hash ∧ e.name = str))
    (hemp : m.table ((hash + d) % m.tableSize) = -1)
    (hocc : ∀ s, s < d → m.table ((hash + s) % m.tableSize) ≠ -1) :
    ∀ fuel s, s ≤ d → d - s < fuel →
      probe m str hash fuel ((hash + s) % m.tableSize) =
        some (Probe.vacant ((hash + d) % m.tableSize)) := by
  obtain ⟨k, _, hsize⟩ := wf.pow
  have hmask := wf.mask
  intro fuel
  induction fuel with
  | zero => intro s _ hf; omega
  | succ fuel ih =>
    intro s hsd hf
    have hlt : (hash + s) % m.tableSize < m.tableSize :=
      Nat.mod_lt _ (by rw [hsize]; exact Nat.pos_pow_of_pos _ (by decide))
    rcases Nat.eq_or_lt_of_le hsd with heq | hlt'
    · subst heq
      simp only [probe, hlt, if_true, hemp]
    · have hne := hocc s hlt'
      rcases wf.tab.valid _ hlt with hv | ⟨hv0, hvlen⟩
      · exact absurd hv hne
      · obtain ⟨e', he'⟩ : ∃ e', m.entries[(m.table ((hash + s) % m.tableSize)).toNat]? = some e' :=
          ⟨_, List.getElem?_eq_getElem hvlen⟩
        have hneg' : ¬ (m.table ((hash + s) % m.tableSize) < 0) := by omega
        have hm : ¬ (e'.storedHash = hash ∧ e'.name.length = str.length ∧
            e'.name.take str.length = str.take str.length) :=
          fun h => hnone _ e' he' ((keyMatch_iff e' str hash).1 h)
        simp only [probe, hlt, if_true, hne, hneg', if_false, he', hm]
        rw [hmask, hsize, step_mask, ← hsize]
        exact ih (s + 1) hlt' (by omega)

/-- The table as `getId` sees it once the growth test has run. -/
theorem grow_spec (m : FastZoneMap) (wf : WF m) (hcap : m.entries.length < 2 ^ 30) :
    ∃ m1, (if m.entries.length ≥ m.threshold then resize m else some m) = some m1 ∧
      WF m1 ∧ m1.entries = m.entries ∧ m1.entries.length < m1.tableSize ∧
      (m1.entries.length < m1.threshold ∨ m1.tableSize = 2 ^ 30) := by
  obtain ⟨k, hk, hsize⟩ := wf.pow
  have hpos : 0 < m.tableSize := by rw [hsize]; exact Nat.pos_pow_of_pos _ (by decide)
  by_cases hge : m.entries.length ≥ m.threshold
  · obtain ⟨m1, hres, wf1, hent, hbelow, hat⟩ := resize_spec m wf
    refine ⟨m1, by simp only [hge, if_true]; exact hres, wf1, hent, ?_, ?_⟩
    · by_cases h30 : m.tableSize = 2 ^ 30
      · rw [hat h30]; omega
      · have hlt : m.tableSize < 2 ^ 30 := by
          have : 2 ^ k ≤ 2 ^ 30 := Nat.pow_le_pow_right (by decide) hk
          omega
        obtain ⟨h2, h3⟩ := hbelow hlt
        have := wf1.thr
        omega
    · by_cases h30 : m.tableSize = 2 ^ 30
      · right; rw [hat h30]; exact h30
      · have hlt : m.tableSize < 2 ^ 30 := by
          have : 2 ^ k ≤ 2 ^ 30 := Nat.pow_le_pow_right (by decide) hk
          omega
        obtain ⟨h2, _⟩ := hbelow hlt
        have h4 := wf1.thr
        have h5 := wf.thr
        left
        rw [hent]
        rcases wf.load with h | h
        · omega
        · exact absurd h h30
  · refine ⟨m, by simp only [hge, if_false], wf, rfl, ?_, Or.inl (by omega)⟩
    have := wf.thr
    omega

/-- What `getId` does on a well-formed table that holds fewer than `2^30`
entries: it returns; a key already stored (same bytes, same hash) gets the
index of its entry and the entries stay as they are; any other key is appended
and gets the old entry count. The table stays well-formed. -/
theorem getId_spec (m : FastZoneMap) (wf : WF m) (hcap : m.entries.length < 2 ^ 30)
    (str : List Byte) (hash : Nat) :
    ∃ m' id, getId m str hash = some (m', id) ∧ WF m' ∧
      (((∃ e, m.entries[id]? = some e ∧ e.name = str ∧ e.storedHash = hash) ∧
          m'.entries = m.entries) ∨
       ((∀ (i : Nat) (e : ZoneEntry), m.entries[i]? = some e →
            ¬ (e.storedHash = hash ∧ e.name = str)) ∧
          id = m.entries.length ∧
          m'.entries = m.entries ++ [{ name := str, id := id, storedHash := hash }])) := by
  obtain ⟨m1, hgrow, wf1, hent, hroom, hload⟩ := grow_spec m wf hcap
  obtain ⟨k, hk, hsize⟩ := wf1.pow
  have hstart : hash &&& m1.tableMask = (hash + 0) % m1.tableSize := by
    rw [wf1.mask, hsize, start_mask]
  by_cases hex : ∃ (i : Nat) (e : ZoneEntry), m1.entries[i]? = some e ∧
      e.storedHash = hash ∧ e.name = str
  · obtain ⟨i, e, hie, hh, hn⟩ := hex
    obtain ⟨d, hd, hval, hocc⟩ := wf1.tab.chain i e hie
    rw [hh] at hval hocc
    have hp := probe_found m1 wf1 str hash i d e hie hn hh hval hocc m1.tableSize 0
      (Nat.zero_le _) (by omega)
    refine ⟨m1, i, ?_, wf1, Or.inl ⟨⟨e, by rw [← hent]; exact hie, hn, hh⟩, hent⟩⟩
    simp only [getId, hgrow, hstart, hp]
  · have hnone : ∀ (i : Nat) (e : ZoneEntry), m1.entries[i]? = some e →
        ¬ (e.storedHash = hash ∧ e.name = str) := fun i e hie hm => hex ⟨i, e, hie, hm⟩
    obtain ⟨d, hd, hemp, hocc⟩ := first_empty m1.tableSize m1.table m1.entries wf1.tab hroom hash
    have hp := probe_vacant m1 wf1 str hash d hnone hemp hocc m1.tableSize 0
      (Nat.zero_le _) (by omega)
    let e : ZoneEntry := { name := str, id := m1.entries.length, storedHash := hash }
    have hok := tableOK_insert m1.tableSize m1.table m1.entries e wf1.tab d hd hemp hocc
    refine ⟨{ m1 with entries := m1.entries ++ [e]
                      table := Function.update m1.table ((hash + d) % m1.tableSize)
                        (m1.entries.length : Int) }, m1.entries.length, ?_, ?_, Or.inr ⟨?_, ?_, ?_⟩⟩
    · simp only [getId, hgrow, hstart, hp]
    · refine ⟨wf1.pow, wf1.mask, wf1.thr, ?_, hok, ?_, ?_⟩
      · intro i x hix
        by_cases hi : i < m1.entries.length
        · exact wf1.ids i x (by rw [← hix]; exact (List.getElem?_append_left hi).symm)
        · have hix' : (m1.entries ++ [e])[i]? = some x := hix
          by_cases hi' : i = m1.entries.length
          · subst hi'
            rw [List.getElem?_append_right (le_refl _)] at hix'
            simp at hix'
            rw [← hix']
          · rw [List.getElem?_eq_none (by simp; omega)] at hix'
            exact Option.noConfusion hix'
      · have key : ∀ (i j : Nat) (x y : ZoneEntry), (m1.entries ++ [e])[i]? = some x →
            (m1.entries ++ [e])[j]? = some y → i < m1.entries.length →
            x.storedHash = y.storedHash → x.name = y.name → i = j := by
          intro i j x y hix hjy hi hh hn
          rw [List.getElem?_append_left hi] at hix
          by_cases hj : j < m1.entries.length
          · rw [List.getElem?_append_left hj] at hjy
            exact wf1.distinct i j x y hix hjy hh hn
          · by_cases hj' : j = m1.entries.length
            · subst hj'
              rw [List.getElem?_append_right (le_refl _)] at hjy
              simp at hjy
              subst hjy
              exact absurd ⟨hh, hn⟩ (hnone i x hix)
            · rw [List.getElem?_eq_none (by simp; omega)] at hjy
              exact Option.noConfusion hjy
        intro i j x y hix0 hjy0 hh hn
        have hix : (m1.entries ++ [e])[i]? = some x := hix0
        have hjy : (m1.entries ++ [e])[j]? = some y := hjy0
        by_cases hi : i < m1.entries.length
        · exact key i j x y hix hjy hi hh hn
        · by_cases hj : j < m1.entries.length
          · exact (key j i y x hjy hix hj hh.symm hn.symm).symm
          · have hi' : i < (m1.entries ++ [e]).length := by
              by_contra hcon
              rw [List.getElem?_eq_none (by omega)] at hix
              exact Option.noConfusion hix
            have hj' : j < (m1.entries ++ [e]).length := by
              by_contra hcon
              rw [List.getElem?_eq_none (by omega)] at hjy
              exact Option.noConfusion hjy
            simp only [List.length_append, List.length_singleton] at hi' hj'
            omega
      · rcases hload with h | h
        · left
          show (m1.entries ++ [e]).length ≤ m1.threshold
          simp only [List.length_append, List.length_singleton]
          omega
        · right; exact h
    · intro i x hix
      exact hnone i x (by rw [hent]; exact hix)
    · rw [hent]
    · show m1.entries ++ [e] = _
      rw [hent]
      simp only [e, hent]

theorem wf_init : WF init where
  pow := ⟨21, by decide, by decide⟩
  mask := rfl
  thr := rfl
  ids := fun i e h => by simp [init] at h
  tab := tableOK_empty _
  distinct := fun i j e e' h => by simp [init] at h
  load := Or.inl (by decide)

end FastZoneMap

/-! ## Runs of `getId` calls -/

namespace FastZoneMap

/-- A key that is stored is found again: `getId` returns the index of its
entry and leaves the entries as they are. -/
theorem getId_stored (m : FastZoneMap) (wf : WF m) (hcap : m.entries.length < 2 ^ 30)
    (id : Nat) (e : ZoneEntry) (he : m.entries[id]? = some e) :
    ∃ m', getId m e.name e.storedHash = some (m', id) ∧ WF m' ∧ m'.entries = m.entries := by
  obtain ⟨m', id', hget, wf', hcase⟩ := getId_spec m wf hcap e.name e.storedHash
  rcases hcase with ⟨⟨e', he', hn, hh⟩, hent⟩ | ⟨hnone, _, _⟩
  · have : id' = id := wf.distinct id' id e' e he' he hh hn
    subst this
    exact ⟨m', hget, wf', hent⟩
  · exact absurd ⟨rfl, rfl⟩ (hnone id e he)

/-- A well-formed table holds one entry per distinct key. -/
theorem Holds.length_eq {m : FastZoneMap} {done : List (List Byte × Nat)} (wf : WF m)
    (hd : Holds m done) : m.entries.length = done.dedup.length := by
  have hnd : (m.entries.map (fun e => (e.name, e.storedHash))).Nodup := by
    rw [List.nodup_iff_getElem?_ne_getElem?]
    intro i j hij hj heq
    simp only [List.length_map] at hj
    rw [List.getElem?_map, List.getElem?_map, List.getElem?_eq_getElem hj,
      List.getElem?_eq_getElem (by omega : i < m.entries.length)] at heq
    simp only [Option.map_some', Option.some.injEq, Prod.mk.injEq] at heq
    have := wf.distinct i j _ _ (List.getElem?_eq_getElem (by omega))
      (List.getElem?_eq_getElem hj) heq.2 heq.1
    omega
  have hset : (m.entries.map (fun e => (e.name, e.storedHash))).toFinset = done.toFinset := by
    ext c
    simp only [List.mem_toFinset, List.mem_map]
    constructor
    · rintro ⟨e, he, hc⟩
      obtain ⟨i, hi⟩ := List.mem_iff_getElem?.1 he
      rw [← hc]
      exact hd.src i e hi
    · intro hc
      obtain ⟨i, e, hi, hce⟩ := hd.all c hc
      exact ⟨e, List.mem_iff_getElem?.2 ⟨i, hi⟩, hce⟩
  rw [← List.card_toFinset, ← hset, List.toFinset_card_of_nodup hnd, List.length_map]

theorem dedup_length_mono {α : Type} [DecidableEq α] (l more : List α) :
    l.dedup.length ≤ (l ++ more).dedup.length := by
  rw [← List.card_toFinset, ← List.card_toFinset]
  apply Finset.card_le_card
  intro z hz
  simp only [List.mem_toFinset, List.mem_append] at hz ⊢
  exact Or.inl hz

theorem holds_init : Holds init [] where
  src := fun i e h => by simp [init] at h
  all := fun c h => by simp at h

/-- A run of `getId` calls on a well-formed table that holds the keys `done`,
when all keys together stay below `2^30` distinct ones: every call returns,
the entries only grow at the end, the final table holds the keys of `done` and
of the calls, and the id returned for a call is the index of the entry with
the bytes and the hash of that call. -/
theorem getIds_spec :
    ∀ (calls done : List (List Byte × Nat)) (m : FastZoneMap), WF m → Holds m done →
      (done ++ calls).dedup.length < 2 ^ 30 →
      ∃ m' ids, getIds m calls = some (m', ids) ∧ WF m' ∧ Holds m' (done ++ calls) ∧
        ids.length = calls.length ∧ m.entries <+: m'.entries ∧
        (∀ (i : Nat) (s : List Byte) (h id : Nat), calls[i]? = some (s, h) →
          ids[i]? = some id →
          ∃ e, m'.entries[id]? = some e ∧ e.name = s ∧ e.storedHash = h) := by
  intro calls
  induction calls with
  | nil =>
    intro done m wf hd _
    refine ⟨m, [], rfl, wf, by simpa using hd, rfl, List.prefix_refl _, ?_⟩
    intro i s h id hc
    simp at hc
  | cons c rest ih =>
    intro done m wf hd hcap
    obtain ⟨s0, h0⟩ := c
    have hlen := hd.length_eq wf
    have hmono := dedup_length_mono done ((s0, h0) :: rest)
    obtain ⟨m1, id0, hget, wf1, hcase⟩ := getId_spec m wf (by omega) s0 h0
    have hpre1 : m.entries <+: m1.entries := by
      rcases hcase with ⟨_, hent⟩ | ⟨_, _, hent⟩
      · rw [hent]
      · rw [hent]; exact List.prefix_append _ _
    have hin1 : ∃ e, m1.entries[id0]? = some e ∧ e.name = s0 ∧ e.storedHash = h0 := by
      rcases hcase with ⟨⟨e, he, hn, hh⟩, hent⟩ | ⟨_, hid, hent⟩
      · exact ⟨e, by rw [hent]; exact he, hn, hh⟩
      · refine ⟨{ name := s0, id := id0, storedHash := h0 }, ?_, rfl, rfl⟩
        rw [hent, hid, List.getElem?_append_right (le_refl _)]
        simp
    have hd1 : Holds m1 (done ++ [(s0, h0)]) := by
      constructor
      · intro j e hj
        rcases hcase with ⟨_, hent⟩ | ⟨_, hid, hent⟩
        · exact List.mem_append_left _ (hd.src j e (by rw [← hent]; exact hj))
        · rw [hent] at hj
          by_cases hjl : j < m.entries.length
          · rw [List.getElem?_append_left hjl] at hj
            exact List.mem_append_left _ (hd.src j e hj)
          · by_cases hjl' : j = m.entries.length
            · subst hjl'
              rw [List.getElem?_append_right (le_refl _)] at hj
              simp at hj
              rw [← hj]
              simp
            · rw [List.getElem?_eq_none (by simp; omega)] at hj
              exact Option.noConfusion hj
      · intro c hc
        rcases List.mem_append.1 hc with h1 | h1
        · obtain ⟨i, e, hi, hce⟩ := hd.all c h1
          obtain ⟨tl, htl⟩ := hpre1
          refine ⟨i, e, ?_, hce⟩
          have hlt : i < m.entries.length := by
            by_contra hcon
            rw [List.getElem?_eq_none (by omega)] at hi
            exact Option.noConfusion hi
          rw [← htl, List.getElem?_append_left hlt]
          exact hi
        · have hc' : c = (s0, h0) := by simpa using h1
          obtain ⟨e, he, hn, hh⟩ := hin1
          exact ⟨id0, e, he, by rw [hc', hn, hh]⟩
    have happ : done ++ (s0, h0) :: rest = (done ++ [(s0, h0)]) ++ rest := by simp
    rw [happ] at hcap ⊢
    obtain ⟨m2, ids, hrun, wf2, hd2, hlen2, hpre2, hin2⟩ := ih _ m1 wf1 hd1 hcap
    refine ⟨m2, id0 :: ids, ?_, wf2, hd2, by simp [hlen2], hpre1.trans hpre2, ?_⟩
    · simp only [getIds, hget, hrun]
    · intro i s h id hc hi
      cases i with
      | zero =>
        simp at hc hi
        obtain ⟨e, he, hn, hh⟩ := hin1
        obtain ⟨tl, htl⟩ := hpre2
        refine ⟨e, ?_, by rw [hn, hc.1], by rw [hh, hc.2]⟩
        rw [← htl, ← hi]
        have hlt : id0 < m1.entries.length := by
          by_contra hcon
          rw [List.getElem?_eq_none (by omega)] at he
          exact Option.noConfusion he
        rw [List.getElem?_append_left hlt]
        exact he
      | succ i =>
        simp at hc hi
        exact hin2 i s h id hc hi

end FastZoneMap

/-! ## Interning is injective and survives growth -/

namespace FastZoneMap

/-- C1: take any run of `getId` calls on a fresh table in which every string
`s` is supplied with the same hash `H s` (`H` is arbitrary, so distinct strings
may share a hash), with fewer than `2^30` distinct strings, which keeps the
table below the growth cap. Every call returns; the ids returned for two calls
are equal exactly when the two strings are byte-identical; and interning any of
these strings again in the final table returns the id issued for it and leaves
the entries untouched. -/
theorem C1_same_id_iff_same_bytes (H : List Byte → Nat) (calls : List (List Byte))
    (hcap : calls.dedup.length < 2 ^ 30) :
    ∃ m ids, getIds init (calls.map (fun s => (s, H s))) = some (m, ids) ∧
      ids.length = calls.length ∧
      (∀ (i j : Nat) (s1 s2 : List Byte) (id1 id2 : Nat),
        calls[i]? = some s1 → calls[j]? = some s2 →
        ids[i]? = some id1 → ids[j]? = some id2 → (id1 = id2 ↔ s1 = s2)) ∧
      (∀ (i : Nat) (s : List Byte) (id : Nat), calls[i]? = some s → ids[i]? = some id →
        ∃ m1, getId m s (H s) = some (m1, id) ∧ m1.entries = m.entries) := by
  have hinj : Function.Injective (fun s : List Byte => (s, H s)) :=
    fun a b hab => congrArg Prod.fst hab
  have hcap' : ([] ++ calls.map (fun s => (s, H s))).dedup.length < 2 ^ 30 := by
    rw [List.nil_append, List.dedup_map_of_injective hinj, List.length_map]
    exact hcap
  obtain ⟨m, ids, hrun, wf, hd, hlen, _, hin⟩ :=
    getIds_spec (calls.map (fun s => (s, H s))) [] init wf_init holds_init hcap'
  have hsize' : m.entries.length < 2 ^ 30 := by
    rw [hd.length_eq wf]
    exact hcap'
  have hcall : ∀ (i : Nat) (s : List Byte), calls[i]? = some s →
      (calls.map (fun s => (s, H s)))[i]? = some (s, H s) := by
    intro i s hs
    rw [List.getElem?_map, hs]
    rfl
  refine ⟨m, ids, hrun, by simpa using hlen, ?_, ?_⟩
  · intro i j s1 s2 id1 id2 hi hj hid1 hid2
    obtain ⟨e1, he1, hn1, hh1⟩ := hin i s1 (H s1) id1 (hcall i s1 hi) hid1
    obtain ⟨e2, he2, hn2, hh2⟩ := hin j s2 (H s2) id2 (hcall j s2 hj) hid2
    constructor
    · intro heq
      subst heq
      rw [he1] at he2
      have : e1 = e2 := Option.some.inj he2
      rw [← hn1, ← hn2, this]
    · intro heq
      exact wf.distinct id1 id2 e1 e2 he1 he2 (by rw [hh1, hh2, heq]) (by rw [hn1, hn2, heq])
  · intro i s id hi hid
    obtain ⟨e, he, hn, hh⟩ := hin i s (H s) id (hcall i s hi) hid
    obtain ⟨m1, hget, _, hent⟩ := getId_stored m wf hsize' id e he
    rw [hn, hh] at hget
    exact ⟨m1, hget, hent⟩

/-- The hypothesis of C1 holds for the calls "A", "B", "A" with one hash for
all strings. -/
theorem C1_same_id_iff_same_bytes_witness :
    ([[65], [66], [65]] : List (List Byte)).dedup.length < 2 ^ 30 ∧
    ∃ m ids, getIds init (([[65], [66], [65]] : List (List Byte)).map
        (fun s => (s, (fun _ => 7) s))) = some (m, ids) ∧
      ids.length = ([[65], [66], [65]] : List (List Byte)).length ∧
      (∀ (i j : Nat) (s1 s2 : List Byte) (id1 id2 : Nat),
        ([[65], [66], [65]] : List (List Byte))[i]? = some s1 →
        ([[65], [66], [65]] : List (List Byte))[j]? = some s2 →
        ids[i]? = some id1 → ids[j]? = some id2 → (id1 = id2 ↔ s1 = s2)) ∧
      (∀ (i : Nat) (s : List Byte) (id : Nat),
        ([[65], [66], [65]] : List (List Byte))[i]? = some s → ids[i]? = some id →
        ∃ m1, getId m s ((fun _ => 7) s) = some (m1, id) ∧ m1.entries = m.entries) :=
  ⟨by decide, C1_same_id_iff_same_bytes (fun _ => 7) [[65], [66], [65]] (by decide)⟩

/-- C2: take any run of `getId` calls on a fresh table, split anywhere into a
part `before` and a part `after`, with fewer than `2^30` distinct keys (bytes
and hash), which keeps the table below the growth cap.
Both parts return. Every id issued in the first part is still resolvable in
the table reached after the second part, whatever growth happened in between:
`getName` gives the original string and `getId` on the original string and
hash gives that id and adds nothing. The same holds right after an explicit
`resize` of the table reached by the first part, which returns, keeps the
entries as they are and doubles the capacity below the cap. -/
theorem C2_ids_survive_growth (before after : List (List Byte × Nat))
    (hcap : (before ++ after).dedup.length < 2 ^ 30) :
    ∃ m1 ids1 m2 ids2 m1', getIds init before = some (m1, ids1) ∧
      getIds m1 after = some (m2, ids2) ∧ ids1.length = before.length ∧
      resize m1 = some m1' ∧ m1'.entries = m1.entries ∧
      (m1.tableSize < 2 ^ 30 → m1'.tableSize = 2 * m1.tableSize) ∧
      ∀ (i : Nat) (s : List Byte) (h id : Nat), before[i]? = some (s, h) →
        ids1[i]? = some id →
        (getName m2 id = some s ∧
          ∃ m3, getId m2 s h = some (m3, id) ∧ m3.entries = m2.entries) ∧
        (getName m1' id = some s ∧
          ∃ m3, getId m1' s h = some (m3, id) ∧ m3.entries = m1'.entries) := by
  have hcap1 : ([] ++ before).dedup.length < 2 ^ 30 := by
    have := dedup_length_mono before after
    rw [List.nil_append]
    omega
  obtain ⟨m1, ids1, hrun1, wf1, hd1, hlen1, _, hin1⟩ :=
    getIds_spec before [] init wf_init holds_init hcap1
  rw [List.nil_append] at hd1 hcap1
  obtain ⟨m2, ids2, hrun2, wf2, hd2, _, hpre2, _⟩ :=
    getIds_spec after before m1 wf1 hd1 hcap
  have hsize1 : m1.entries.length < 2 ^ 30 := by rw [hd1.length_eq wf1]; exact hcap1
  have hsize2 : m2.entries.length < 2 ^ 30 := by rw [hd2.length_eq wf2]; exact hcap
  obtain ⟨m1', hres, wf1', hent1', hgrow, _⟩ := resize_spec m1 wf1
  refine ⟨m1, ids1, m2, ids2, m1', hrun1, hrun2, hlen1, hres, hent1',
    fun h => (hgrow h).1, ?_⟩
  intro i s h id hc hid
  obtain ⟨e, he, hn, hh⟩ := hin1 i s h id hc hid
  have hlt : id < m1.entries.length := by
    by_contra hcon
    rw [List.getElem?_eq_none (by omega)] at he
    exact Option.noConfusion he
  have he2 : m2.entries[id]? = some e := by
    obtain ⟨tl, htl⟩ := hpre2
    rw [← htl, List.getElem?_append_left hlt]
    exact he
  have he1' : m1'.entries[id]? = some e := by rw [hent1']; exact he
  refine ⟨⟨by simp [getName, he2, hn], ?_⟩, ⟨by simp [getName, he1', hn], ?_⟩⟩
  · obtain ⟨m3, hget, _, hent⟩ := getId_stored m2 wf2 hsize2 id e he2
    rw [hn, hh] at hget
    exact ⟨m3, hget, hent⟩
  · obtain ⟨m3, hget, _, hent⟩ := getId_stored m1' wf1' (by rw [hent1']; exact hsize1) id e he1'
    rw [hn, hh] at hget
    exact ⟨m3, hget, hent⟩

/-- The hypothesis of C2 holds for "A", "B" interned before and "C" after. -/
theorem C2_ids_survive_growth_witness :
    (([([65], 1), ([66], 1)] : List (List Byte × Nat)) ++ [([67], 1)]).dedup.length < 2 ^ 30 ∧
    ∃ m1 ids1 m2 ids2 m1', getIds init [([65], 1), ([66], 1)] = some (m1, ids1) ∧
      getIds m1 [([67], 1)] = some (m2, ids2) ∧
      ids1.length = ([([65], 1), ([66], 1)] : List (List Byte × Nat)).length ∧
      resize m1 = some m1' ∧ m1'.entries = m1.entries ∧
      (m1.tableSize < 2 ^ 30 → m1'.tableSize = 2 * m1.tableSize) ∧
      ∀ (i : Nat) (s : List Byte) (h id : Nat),
        ([([65], 1), ([66], 1)] : List (List Byte × Nat))[i]? = some (s, h) →
        ids1[i]? = some id →
        (getName m2 id = some s ∧
          ∃ m3, getId m2 s h = some (m3, id) ∧ m3.entries = m2.entries) ∧
        (getName m1' id = some s ∧
          ∃ m3, getId m1' s h = some (m3, id) ∧ m3.entries = m1'.entries) :=
  ⟨by decide, C2_ids_survive_growth [([65], 1), ([66], 1)] [([67], 1)] (by decide)⟩

end FastZoneMap

/-! ## The scanning loop, phase by phase -/

theorem scanFrom_append (l1 l2 : List Byte) :
    ∀ (s : Scan) (p : Nat),
      scanFrom s p (l1 ++ l2) = scanFrom (scanFrom s p l1) (p + l1.length) l2 := by
  induction l1 with
  | nil => intro s p; rfl
  | cons c cs ih =>
    intro s p
    show scanFrom (scanStep s p c) (p + 1) (cs ++ l2) =
      scanFrom (scanFrom (scanStep s p c) (p + 1) cs) (p + (cs.length + 1)) l2
    rw [ih, Nat.add_assoc, Nat.add_comm 1]

/-- Before the first comma nothing is recorded. -/
theorem scan_field0 (l : List Byte) (hl : (44 : Byte) ∉ l) :
    ∀ (s : Scan) (p : Nat), s.commaCount = 0 → s.spacePos = none → scanFrom s p l = s := by
  induction l with
  | nil => intro s p _ _; rfl
  | cons c cs ih =>
    intro s p h0 hsp
    have hc : c ≠ 44 := fun h => hl (by rw [h]; exact List.mem_cons_self _ _)
    have hcs : (44 : Byte) ∉ cs := fun h => hl (List.mem_cons_of_mem _ h)
    have hstep : scanStep s p c = s := by
      simp [scanStep, hc, h0, hsp]
    simp only [scanFrom, hstep]
    exact ih hcs s (p + 1) h0 hsp

/-- Between the first and the second comma only the hash moves. -/
theorem scan_field1 (l : List Byte) (hl : (44 : Byte) ∉ l) :
    ∀ (s : Scan) (p : Nat), s.commaCount = 1 →
      scanFrom s p l =
        { s with zoneHash :=
            l.foldl (fun h b => ((h ^^^ b.val) * FNV_PRIME) % 2 ^ 64) s.zoneHash } := by
  induction l with
  | nil => intro s p _; rfl
  | cons c cs ih =>
    intro s p h1
    have hc : c ≠ 44 := fun h => hl (by rw [h]; exact List.mem_cons_self _ _)
    have hcs : (44 : Byte) ∉ cs := fun h => hl (List.mem_cons_of_mem _ h)
    have hstep : scanStep s p c =
        { s with zoneHash := ((s.zoneHash ^^^ c.val) * FNV_PRIME) % 2 ^ 64 } := by
      simp [scanStep, hc, h1]
    simp only [scanFrom, hstep]
    exact ih hcs { s with zoneHash := ((s.zoneHash ^^^ c.val) * FNV_PRIME) % 2 ^ 64 } (p + 1) h1

/-- After the second comma, a stretch with no byte that could set a pointer
only adds its commas to the count. -/
theorem scan_quiet (l : List Byte) :
    ∀ (s : Scan) (p : Nat), 2 ≤ s.commaCount →
      (s.spacePos = none → (32 : Byte) ∉ l) →
      (s.spacePos ≠ none → s.colonPos = none → (58 : Byte) ∉ l) →
      scanFrom s p l = { s with commaCount := s.commaCount + l.count 44 } := by
  induction l with
  | nil => intro s p _ _ _; rfl
  | cons c cs ih =>
    intro s p h2 hsp hcol
    have hsp' : s.spacePos = none → (32 : Byte) ∉ cs :=
      fun h hm => hsp h (List.mem_cons_of_mem _ hm)
    have hcol' : s.spacePos ≠ none → s.colonPos = none → (58 : Byte) ∉ cs :=
      fun h h' hm => hcol h h' (List.mem_cons_of_mem _ hm)
    by_cases hc : c = 44
    · subst hc
      have hstep : scanStep s p 44 = { s with commaCount := s.commaCount + 1 } := by
        have h1 : s.commaCount + 1 ≠ 1 := by omega
        have h2' : s.commaCount + 1 ≠ 2 := by omega
        simp [scanStep, h1, h2']
      simp only [scanFrom, hstep]
      rw [ih { s with commaCount := s.commaCount + 1 } (p + 1)
        (by show 2 ≤ s.commaCount + 1; omega) hsp' hcol']
      simp [List.count_cons]
      omega
    · have hne1 : s.commaCount ≠ 1 := by omega
      have hstep : scanStep s p c = s := by
        by_cases h32 : c = 32
        · have : s.spacePos ≠ none := fun h => hsp h (by rw [h32]; exact List.mem_cons_self _ _)
          simp [scanStep, hne1, h32, this]
        · by_cases h58 : c = 58
          · have : ¬ (s.spacePos ≠ none ∧ s.colonPos = none) :=
              fun h => hcol h.1 h.2 (by rw [h58]; exact List.mem_cons_self _ _)
            subst h58
            have e1 : ¬ ((58 : Byte) = 44) := by decide
            have e2 : ¬ ((58 : Byte) = 32) := by decide
            simp only [scanStep, e1, e2, hne1, if_false, if_true, this]
          · simp [scanStep, hc, hne1, h32, h58]
      simp only [scanFrom, hstep]
      rw [ih s (p + 1) h2 hsp' hcol']
      have : (c == 44) = false := by simpa using hc
      simp [List.count_cons, this]

theorem split_first (c : Byte) (l : List Byte) (h : c ∈ l) :
    l = beforeFirst c l ++ c :: afterFirst c l ∧ c ∉ beforeFirst c l := by
  induction l with
  | nil => simp at h
  | cons x xs ih =>
    by_cases hx : x = c
    · subst hx
      simp [beforeFirst, afterFirst, List.takeWhile, List.dropWhile]
    · have hmem : c ∈ xs := by
        rcases List.mem_cons.1 h with h' | h'
        · exact absurd h'.symm hx
        · exact h'
      obtain ⟨h1, h2⟩ := ih hmem
      have hd : decide (x ≠ c) = true := by simpa using hx
      constructor
      · simp only [beforeFirst, afterFirst, List.takeWhile, List.dropWhile, hd, List.cons_append]
        congr 1
      · simp only [beforeFirst, List.takeWhile, hd]
        intro hcon
        rcases List.mem_cons.1 hcon with h' | h'
        · exact hx h'.symm
        · exact h2 h'

theorem absent_first (c : Byte) (l : List Byte) (h : c ∉ l) :
    beforeFirst c l = l ∧ afterFirst c l = [] := by
  induction l with
  | nil => simp [beforeFirst, afterFirst]
  | cons x xs ih =>
    have hx : x ≠ c := fun hx => h (by rw [hx]; exact List.mem_cons_self _ _)
    have hxs : c ∉ xs := fun hm => h (List.mem_cons_of_mem _ hm)
    obtain ⟨h1, h2⟩ := ih hxs
    have hd : decide (x ≠ c) = true := by simpa using hx
    constructor
    · simp only [beforeFirst, List.takeWhile, hd]
      congr 1
    · simp only [afterFirst, List.dropWhile, hd]
      exact h2

theorem beforeFirst_not_mem (c : Byte) (l : List Byte) : c ∉ beforeFirst c l := by
  by_cases h : c ∈ l
  · exact (split_first c l h).2
  · rw [(absent_first c l h).1]; exact h

/-! ## The scanning loop in closed form -/

theorem count_split (c : Byte) (l : List Byte) (h : c ∈ l) (x : Byte) :
    l.count x = (beforeFirst c l).count x + (if c = x then 1 else 0) + (afterFirst c l).count x := by
  have hs := (split_first c l h).1
  conv_lhs => rw [hs]
  rw [List.count_append, List.count_cons]
  by_cases hcx : c = x
  · simp [hcx]; omega
  · have : (c == x) = false := by simpa using hcx
    simp [hcx, this]

theorem count_split_self (c : Byte) (l : List Byte) (h : c ∈ l) :
    l.count c = 1 + (afterFirst c l).count c := by
  have h1 := count_split c l h c
  have h2 : (beforeFirst c l).count c = 0 := List.count_eq_zero.2 (split_first c l h).2
  rw [h1, h2]
  simp

theorem afterFirst_nil (c : Byte) : afterFirst c [] = [] := rfl

theorem beforeFirst_nil (c : Byte) : beforeFirst c [] = [] := rfl

theorem count_absent (c : Byte) (l : List Byte) (h : c ∉ l) : l.count c = 0 :=
  List.count_eq_zero.2 h

/-- The scan of the bytes after the first space that follows the 2nd comma. -/
theorem scan_afterSpace (t : List Byte) (s : Scan) (p : Nat) (h2 : 2 ≤ s.commaCount)
    (hsp : s.spacePos ≠ none) (hcol : s.colonPos = none) :
    scanFrom s p t =
      { s with
        commaCount := s.commaCount + t.count 44
        colonPos := if 58 ∈ t then some (p + (beforeFirst 58 t).length) else none } := by
  by_cases h58 : (58 : Byte) ∈ t
  · obtain ⟨hs, hnot⟩ := split_first 58 t h58
    have hcnt := count_split 58 t h58 44
    conv_lhs => rw [hs]
    rw [scanFrom_append, scan_quiet _ s p h2 (fun h => absurd h hsp) (fun _ _ => hnot)]
    simp only [scanFrom]
    have e1 : ¬ ((58 : Byte) = 44) := by decide
    have e2 : ¬ ((58 : Byte) = 32) := by decide
    have hne1 : ¬ (s.commaCount + (beforeFirst 58 t).count 44 = 1) := by omega
    have hstep : scanStep { s with commaCount := s.commaCount + (beforeFirst 58 t).count 44 }
        (p + (beforeFirst 58 t).length) 58 =
        { s with commaCount := s.commaCount + (beforeFirst 58 t).count 44
                 colonPos := some (p + (beforeFirst 58 t).length) } := by
      simp only [scanStep, e1, e2, hne1, if_false, if_true]
      simp [hsp, hcol]
    have hq := scan_quiet (afterFirst 58 t)
      { s with commaCount := s.commaCount + (beforeFirst 58 t).count 44
               colonPos := some (p + (beforeFirst 58 t).length) }
      (p + (beforeFirst 58 t).length + 1) (by show 2 ≤ s.commaCount + _; omega)
      (fun h => absurd h hsp) (fun _ h => Option.noConfusion h)
    rw [hstep, hq]
    simp only [h58, if_true, hcnt, e1, if_false]
    congr 1
    omega
  · have hcnt : t.count 44 = t.count 44 := rfl
    rw [scan_quiet t s p h2 (fun h => absurd h hsp) (fun _ _ => h58)]
    simp [h58, hcol]

/-- The scan of the bytes after the 2nd comma. -/
theorem scan_afterZone (rest : List Byte) (s : Scan) (p : Nat) (h2 : 2 ≤ s.commaCount)
    (hsp : s.spacePos = none) (hcol : s.colonPos = none) :
    scanFrom s p rest =
      { s with
        commaCount := s.commaCount + rest.count 44
        spacePos := if 32 ∈ rest then some (p + (beforeFirst 32 rest).length) else none
        colonPos :=
          if 58 ∈ afterFirst 32 rest then
            some (p + (beforeFirst 32 rest).length + 1 +
              (beforeFirst 58 (afterFirst 32 rest)).length)
          else none } := by
  by_cases h32 : (32 : Byte) ∈ rest
  · obtain ⟨hs, hnot⟩ := split_first 32 rest h32
    have hcnt := count_split 32 rest h32 44
    conv_lhs => rw [hs]
    rw [scanFrom_append, scan_quiet _ s p h2 (fun _ => hnot) (fun h => absurd hsp h)]
    simp only [scanFrom]
    have e1 : ¬ ((32 : Byte) = 44) := by decide
    have hne1 : ¬ (s.commaCount + (beforeFirst 32 rest).count 44 = 1) := by omega
    have hge : s.commaCount + (beforeFirst 32 rest).count 44 ≥ 2 := by omega
    have hstep : scanStep { s with commaCount := s.commaCount + (beforeFirst 32 rest).count 44 }
        (p + (beforeFirst 32 rest).length) 32 =
        { s with commaCount := s.commaCount + (beforeFirst 32 rest).count 44
                 spacePos := some (p + (beforeFirst 32 rest).length) } := by
      simp only [scanStep, e1, hne1, if_false, if_true]
      simp [hsp, hge]
    have hq := scan_afterSpace (afterFirst 32 rest)
      { s with commaCount := s.commaCount + (beforeFirst 32 rest).count 44
               spacePos := some (p + (beforeFirst 32 rest).length) }
      (p + (beforeFirst 32 rest).length + 1) hge (fun h => Option.noConfusion h) hcol
    rw [hstep, hq]
    simp only [h32, if_true, hcnt, e1, if_false]
    congr 1
    omega
  · obtain ⟨_, hafter⟩ := absent_first 32 rest h32
    rw [scan_quiet rest s p h2 (fun _ => h32) (fun h => absurd hsp h)]
    simp [h32, hafter, hsp, hcol]

/-- The scan of the bytes after the 1st comma. -/
theorem scan_afterC1 (r1 : List Byte) (s : Scan) (p : Nat) (h1 : s.commaCount = 1)
    (hc2 : s.c2 = none) (hsp : s.spacePos = none) (hcol : s.colonPos = none) :
    scanFrom s p r1 =
      { commaCount := 1 + r1.count 44
        c1 := s.c1
        c2 := if 44 ∈ r1 then some (p + (beforeFirst 44 r1).length) else none
        spacePos :=
          if 32 ∈ afterFirst 44 r1 then
            some (p + (beforeFirst 44 r1).length + 1 + (beforeFirst 32 (afterFirst 44 r1)).length)
          else none
        colonPos :=
          if 58 ∈ afterFirst 32 (afterFirst 44 r1) then
            some (p + (beforeFirst 44 r1).length + 1 + (beforeFirst 32 (afterFirst 44 r1)).length
              + 1 + (beforeFirst 58 (afterFirst 32 (afterFirst 44 r1))).length)
          else none
        zoneHash :=
          (beforeFirst 44 r1).foldl (fun h b => ((h ^^^ b.val) * FNV_PRIME) % 2 ^ 64)
            s.zoneHash } := by
  by_cases h44 : (44 : Byte) ∈ r1
  · obtain ⟨hs, hnot⟩ := split_first 44 r1 h44
    have hcnt := count_split_self 44 r1 h44
    conv_lhs => rw [hs]
    rw [scanFrom_append, scan_field1 _ hnot s p h1]
    simp only [scanFrom]
    have hstep : ∀ (hh : Nat), scanStep { s with zoneHash := hh } (p + (beforeFirst 44 r1).length) 44 =
        { s with zoneHash := hh, commaCount := 2
                 c2 := some (p + (beforeFirst 44 r1).length) } := by
      intro hh
      simp [scanStep, h1]
    have hq := scan_afterZone (afterFirst 44 r1)
      { s with zoneHash := (beforeFirst 44 r1).foldl
                 (fun h b => ((h ^^^ b.val) * FNV_PRIME) % 2 ^ 64) s.zoneHash
               commaCount := 2
               c2 := some (p + (beforeFirst 44 r1).length) }
      (p + (beforeFirst 44 r1).length + 1) (le_refl 2) hsp hcol
    rw [hstep, hq]
    simp only [h44, if_true, hcnt]
    congr 1
    omega
  · obtain ⟨hb, hafter⟩ := absent_first 44 r1 h44
    rw [scan_field1 r1 h44 s p h1]
    simp [h44, hafter, hb, hc2, hsp, hcol, h1, count_absent 44 r1 h44, afterFirst_nil,
      beforeFirst_nil]

theorem scan_line (line : List Byte) : scanFrom Scan.start 0 line = scanSpec line := by
  by_cases h44 : (44 : Byte) ∈ line
  · obtain ⟨hs, hnot⟩ := split_first 44 line h44
    have hcnt := count_split_self 44 line h44
    conv_lhs => rw [hs]
    rw [scanFrom_append, scan_field0 _ hnot Scan.start 0 rfl rfl]
    simp only [scanFrom]
    have hstep : scanStep Scan.start (0 + (beforeFirst 44 line).length) 44 =
        { Scan.start with commaCount := 1, c1 := some ((beforeFirst 44 line).length) } := by
      simp [scanStep, Scan.start]
    have hq := scan_afterC1 (afterFirst 44 line)
      { Scan.start with commaCount := 1, c1 := some ((beforeFirst 44 line).length) }
      (0 + (beforeFirst 44 line).length + 1) rfl rfl rfl rfl
    rw [hstep, hq]
    simp only [scanSpec, h44, if_true, commaCount, hcnt, zoneField, afterZone, fnv1a,
      Scan.start, Nat.zero_add]
  · obtain ⟨hb, hafter⟩ := absent_first 44 line h44
    rw [scan_field0 line h44 Scan.start 0 rfl rfl]
    simp [scanSpec, h44, hafter, commaCount, count_absent 44 line h44, zoneField, afterZone,
      afterFirst_nil, beforeFirst_nil, fnv1a, Scan.start]

/-! ## Hour parsing and field offsets -/

theorem drop_split (c : Byte) (l : List Byte) (h : c ∈ l) :
    l.drop ((beforeFirst c l).length + 1) = afterFirst c l := by
  obtain ⟨hs, _⟩ := split_first c l h
  have key : (beforeFirst c l ++ c :: afterFirst c l).drop ((beforeFirst c l).length + 1) =
      afterFirst c l := by
    rw [← List.drop_drop, List.drop_left]
    rfl
  rw [← hs] at key
  exact key

theorem digitOf_le (b : Byte) : digitOf b ≤ 9 ↔ isDigit b := by
  have := b.isLt
  unfold digitOf isDigit
  omega

theorem digitOf_val (b : Byte) (h : isDigit b) : digitOf b = b.val - 48 := by
  have := b.isLt
  unfold digitOf
  unfold isDigit at h
  omega

theorem getD_of_drop (bytes : List Byte) (n i : Nat) (rest : List Byte) (x : Byte)
    (h : bytes.drop n = rest) (hx : rest[i]? = some x) : bytes[n + i]? = some x := by
  rw [← h, List.getElem?_drop] at hx
  exact hx

/-- The hour parser computes the decimal value of a field of one or two digits
and `-1` on any other field. -/
theorem parseHour_eq (bytes : List Byte) (hStart : Nat) (hf tail : List Byte)
    (h : bytes.drop hStart = hf ++ tail) :
    parseHour bytes hStart hf.length =
      (match hourValue hf with
       | some v => (v : Int)
       | none => -1) := by
  match hf, h with
  | [], _ => simp [parseHour, hourValue]
  | [d], h =>
    have h0 : bytes[hStart]? = some d := getD_of_drop bytes hStart 0 _ d h (by simp)
    have hg0 : bytes.getD hStart 0 = d := by
      rw [List.getD_eq_getElem?_getD, h0]; rfl
    show parseHour bytes hStart 1 = _
    unfold parseHour
    rw [if_neg (by decide), if_pos rfl]
    simp only [hg0]
    by_cases hd : isDigit d
    · rw [if_pos ((digitOf_le d).2 hd), digitOf_val d hd]
      simp only [hourValue, hd, if_true]
    · rw [if_neg (fun hh => hd ((digitOf_le d).1 hh))]
      simp only [hourValue, hd, if_false]
  | [d1, d2], h =>
    have h0 : bytes[hStart]? = some d1 := getD_of_drop bytes hStart 0 _ d1 h (by simp)
    have h1 := getD_of_drop bytes hStart 1 _ d2 h (by simp)
    have hg0 : bytes.getD hStart 0 = d1 := by
      rw [List.getD_eq_getElem?_getD, h0]; rfl
    have hg1 : bytes.getD (hStart + 1) 0 = d2 := by
      rw [List.getD_eq_getElem?_getD, h1]; rfl
    show parseHour bytes hStart 2 = _
    unfold parseHour
    rw [if_pos rfl]
    simp only [hg0, hg1]
    by_cases hd : isDigit d1 ∧ isDigit d2
    · rw [if_pos ⟨(digitOf_le d1).2 hd.1, (digitOf_le d2).2 hd.2⟩, digitOf_val d1 hd.1,
        digitOf_val d2 hd.2]
      simp only [hourValue, hd, and_self, if_true]
    · rw [if_neg (fun hh => hd ⟨(digitOf_le d1).1 hh.1, (digitOf_le d2).1 hh.2⟩)]
      simp only [hourValue, hd, if_false]
  | _ :: _ :: _ :: _, _ => simp [parseHour, hourValue]

theorem two_commas_iff (line : List Byte) :
    2 ≤ commaCount line ↔ (44 : Byte) ∈ afterFirst 44 line := by
  unfold commaCount
  by_cases h : (44 : Byte) ∈ line
  · rw [count_split_self 44 line h]
    constructor
    · intro h2
      exact List.count_pos_iff.1 (by omega)
    · intro hm
      have := List.count_pos_iff.2 hm
      omega
  · rw [count_absent 44 line h, (absent_first 44 line h).2]
    simp

theorem mem_of_two_commas (line : List Byte) (h : (44 : Byte) ∈ afterFirst 44 line) :
    (44 : Byte) ∈ line := by
  by_contra hcon
  rw [(absent_first 44 line hcon).2] at h
  simp at h

/-! ## `processRawLine` on the fields of a line -/

/-- What `processRawLine` does once the header has been seen, stated on the
fields of the line: a line whose comma count differs from the header's, or
that stands for no event, leaves the state as it is; any other line interns
its zone field under the FNV-1a hash of that field and counts its hour. -/
theorem processRawLine_eq (a : TripAnalyzer) (line : List Byte)
    (hset : a.expectedCommas ≠ -1) :
    processRawLine a line =
      if (commaCount line : Int) ≠ a.expectedCommas then some a
      else
        match lineEvent line with
        | none => some a
        | some (z, h) => applyEvent a z h := by
  by_cases hlen : line.length = 0
  · have : line = [] := List.length_eq_zero.1 hlen
    subst this
    simp [processRawLine, lineEvent, commaCount]
  · unfold processRawLine
    rw [scan_line]
    simp only [hlen, hset, if_false]
    by_cases hcnt : (commaCount line : Int) ≠ a.expectedCommas
    · have hc' : ((scanSpec line).commaCount : Int) ≠ a.expectedCommas := hcnt
      simp only [hcnt, hc', if_true, ne_eq, not_false_eq_true]
    · have hc' : ¬ ((scanSpec line).commaCount : Int) ≠ a.expectedCommas := hcnt
      simp only [hcnt, hc', if_false]
      by_cases h2 : (44 : Byte) ∈ afterFirst 44 line
      · have h44 := mem_of_two_commas line h2
        have hge : ¬ commaCount line < 2 := by
          have := (two_commas_iff line).2 h2
          omega
        by_cases h32 : (32 : Byte) ∈ afterZone line
        · by_cases h58 : (58 : Byte) ∈ afterFirst 32 (afterZone line)
          · have d1 := drop_split 44 line h44
            have d2 : (afterFirst 44 line).drop ((zoneField line).length + 1) = afterZone line :=
              drop_split 44 _ h2
            have d3 := drop_split 32 _ h32
            have s4 := (split_first 58 _ h58).1
            have hdrop : line.drop ((beforeFirst 44 line).length + 1 + (zoneField line).length + 1
                + (beforeFirst 32 (afterZone line)).length + 1) =
                beforeFirst 58 (afterFirst 32 (afterZone line)) ++
                  58 :: afterFirst 58 (afterFirst 32 (afterZone line)) := by
              rw [← s4, ← d3, ← d2, ← d1, List.drop_drop, List.drop_drop]
              congr 1
            have hzone : (line.drop ((beforeFirst 44 line).length + 1)).take
                (zoneField line).length = zoneField line := by
              rw [d1]
              have := (split_first 44 _ h2).1
              conv_lhs => rw [this]
              exact List.take_left _ _
            have hph := parseHour_eq line _ _ _ hdrop
            have hfield : hourField line =
                some (beforeFirst 58 (afterFirst 32 (afterZone line))) := by
              simp only [hourField, h32, h58, if_true]
            simp only [scanSpec, h44, h2, h32, h58, if_true, lineEvent, hge, false_or, hfield]
            simp only [Nat.add_sub_cancel_left, hph, hzone, List.length_eq_zero]
            by_cases hz : zoneField line = []
            · simp only [hz, if_true]
            · simp only [hz, if_false]
              cases hv : hourValue (beforeFirst 58 (afterFirst 32 (afterZone line))) with
              | none => simp
              | some v =>
                by_cases hv23 : v ≤ 23
                · have hcond : ¬ ((v : Int) < 0 ∨ (v : Int) > 23) := by omega
                  simp only [hcond, if_false, hv23, if_true, Int.toNat_ofNat, applyEvent]
                · have hcond : ((v : Int) < 0 ∨ (v : Int) > 23) := by omega
                  simp only [hcond, if_true, hv23, if_false]
          · have hfield : hourField line = none := by
              simp only [hourField, h32, h58, if_true, if_false]
            have hev : lineEvent line = none := by simp [lineEvent, hfield]
            simp only [scanSpec, h44, h2, h32, h58, if_true, if_false, hev]
        · have hfield : hourField line = none := by
            simp only [hourField, h32, if_false]
          have h58 : (58 : Byte) ∉ afterFirst 32 (afterZone line) := by
            rw [(absent_first 32 _ h32).2]
            simp
          have hev : lineEvent line = none := by simp [lineEvent, hfield]
          simp only [scanSpec, h44, h2, h32, h58, if_true, if_false, hev]
      · have hlt : commaCount line < 2 := by
          have := mt (two_commas_iff line).1 h2
          omega
        have h32 : (32 : Byte) ∉ afterZone line := by
          unfold afterZone
          rw [(absent_first 44 _ h2).2]
          simp
        have h58 : (58 : Byte) ∉ afterFirst 32 (afterZone line) := by
          rw [(absent_first 32 _ h32).2]
          simp
        have hev : lineEvent line = none := by simp [lineEvent, hlt]
        simp only [scanSpec, h2, h32, h58, if_false, hev]
        split <;> simp_all

/-! ## Rejected lines -/

theorem rejected_iff (expected : Int) (line : List Byte) :
    Rejected expected line ↔ ((commaCount line : Int) ≠ expected ∨ lineEvent line = none) := by
  unfold Rejected lineEvent
  by_cases h1 : commaCount line < 2 ∨ zoneField line = []
  · simp [h1]
  · cases hf : hourField line with
    | none => simp [h1]
    | some f =>
      cases hv : hourValue f with
      | none => simp [h1, hv]
      | some v =>
        by_cases hv23 : v ≤ 23
        · simp [h1, hv, hv23]
        · simp [h1, hv, hv23]
          right
          omega

theorem recordEvent_expected (a a' : TripAnalyzer) (zm : FastZoneMap) (zId h : Nat)
    (hr : recordEvent a zm zId h = some a') : a'.expectedCommas = a.expectedCommas := by
  unfold recordEvent at hr
  simp only at hr
  split at hr
  · exact Option.noConfusion hr
  · split at hr
    · have := Option.some.inj hr
      rw [← this]
    · exact Option.noConfusion hr

theorem applyEvent_expected (a a' : TripAnalyzer) (z : List Byte) (h : Nat)
    (hr : applyEvent a z h = some a') : a'.expectedCommas = a.expectedCommas := by
  unfold applyEvent at hr
  split at hr
  · exact Option.noConfusion hr
  · exact recordEvent_expected a a' _ _ _ hr

/-- Once the header has been seen the expected comma count never changes. -/
theorem processRawLine_expected (a a' : TripAnalyzer) (line : List Byte)
    (hset : a.expectedCommas ≠ -1) (hr : processRawLine a line = some a') :
    a'.expectedCommas = a.expectedCommas := by
  rw [processRawLine_eq a line hset] at hr
  split at hr
  · rw [← Option.some.inj hr]
  · split at hr
    · rw [← Option.some.inj hr]
    · exact applyEvent_expected a a' _ _ hr

theorem processLines_expected :
    ∀ (ls : List (List Byte)) (a a' : TripAnalyzer), a.expectedCommas ≠ -1 →
      processLines a ls = some a' → a'.expectedCommas = a.expectedCommas := by
  intro ls
  induction ls with
  | nil =>
    intro a a' _ hr
    rw [← Option.some.inj hr]
  | cons l rest ih =>
    intro a a' hset hr
    simp only [processLines] at hr
    split at hr
    · exact Option.noConfusion hr
    · rename_i a1 h1
      have e1 := processRawLine_expected a a1 l hset h1
      rw [ih a1 a' (by rw [e1]; exact hset) hr, e1]

theorem processLines_append (l1 l2 : List (List Byte)) :
    ∀ (a : TripAnalyzer), processLines a (l1 ++ l2) =
      match processLines a l1 with
      | none => none
      | some a1 => processLines a1 l2 := by
  induction l1 with
  | nil => intro a; rfl
  | cons l rest ih =>
    intro a
    simp only [List.cons_append, processLines]
    cases processRawLine a l with
    | none => rfl
    | some a1 => exact ih a1

/-- C3: once the expected delimiter count is set, a line that matches any of
the rejection rules leaves the whole analyzer state as it is (the result of
`processRawLine` is the very same state: zone counts, slot counts, interner and
expected count); hence in any run of lines, removing such a line changes
nothing to what the run computes. -/
theorem C3_rejected_line_is_dropped (a : TripAnalyzer) (line : List Byte)
    (hset : a.expectedCommas ≠ -1) (hrej : Rejected a.expectedCommas line) :
    processRawLine a line = some a ∧
    ∀ (before after : List (List Byte)),
      processLines a (before ++ line :: after) = processLines a (before ++ after) := by
  have hdrop : ∀ (b : TripAnalyzer), b.expectedCommas = a.expectedCommas →
      processRawLine b line = some b := by
    intro b hb
    rw [processRawLine_eq b line (by rw [hb]; exact hset)]
    rcases (rejected_iff _ _).1 hrej with h | h
    · rw [if_pos (by rw [hb]; exact h)]
    · split
      · rfl
      · rw [h]
  refine ⟨hdrop a rfl, ?_⟩
  intro before after
  rw [processLines_append, processLines_append]
  cases h1 : processLines a before with
  | none => rfl
  | some a1 =>
    have he := processLines_expected before a a1 hset h1
    simp only [processLines, hdrop a1 he]

/-- The hypotheses of C3 hold for the line `1,A,08:15` after a header with
two commas: it has no space after the 2nd comma. -/
theorem C3_rejected_line_is_dropped_witness :
    ({ TripAnalyzer.init with expectedCommas := 2 } : TripAnalyzer).expectedCommas ≠ -1 ∧
    Rejected ({ TripAnalyzer.init with expectedCommas := 2 } : TripAnalyzer).expectedCommas
      [49, 44, 65, 44, 48, 56, 58, 49, 53] ∧
    (processRawLine { TripAnalyzer.init with expectedCommas := 2 }
        [49, 44, 65, 44, 48, 56, 58, 49, 53] =
      some { TripAnalyzer.init with expectedCommas := 2 } ∧
    ∀ (before after : List (List Byte)),
      processLines { TripAnalyzer.init with expectedCommas := 2 }
          (before ++ [49, 44, 65, 44, 48, 56, 58, 49, 53] :: after) =
        processLines { TripAnalyzer.init with expectedCommas := 2 } (before ++ after)) :=
  ⟨by decide, Or.inr (Or.inr (Or.inl (by decide))),
    C3_rejected_line_is_dropped { TripAnalyzer.init with expectedCommas := 2 }
      [49, 44, 65, 44, 48, 56, 58, 49, 53] (by decide) (Or.inr (Or.inr (Or.inl (by decide))))⟩

/-! ## The ingest loop as a fold over byte ranges -/

theorem emit_eq {σ : Type} (f : σ → List Byte → Option σ) (s : σ) (l : List Byte) :
    emit f s l = List.foldlM f s (emitted l) := by
  unfold emit emitted
  by_cases h : (stripCR l).length > 0
  · simp only [h, if_true, List.foldlM]
    cases f s (stripCR l) <;> rfl
  · simp only [h, if_false, List.foldlM]
    rfl

theorem scanBuffer_eq {σ : Type} (f : σ → List Byte → Option σ) (buf : List Byte) :
    ∀ (s : σ) (cur : List Byte),
      scanBuffer f s cur buf =
        (List.foldlM f s (bufferLines cur buf).1).map (fun s1 => (s1, (bufferLines cur buf).2)) := by
  induction buf with
  | nil =>
    intro s cur
    simp [scanBuffer, bufferLines]
  | cons b bs ih =>
    intro s cur
    by_cases hb : b = 10
    · simp only [scanBuffer, bufferLines, hb, if_true, emit_eq, List.foldlM_append]
      cases List.foldlM f s (emitted cur) with
      | none => rfl
      | some s1 => exact ih s1 []
    · simp only [scanBuffer, bufferLines, hb, if_false]
      exact ih s (cur ++ [b])

theorem readLoop_eq {σ : Type} (bufSize : Nat) (f : σ → List Byte → Option σ) :
    ∀ (fuel : Nat) (s : σ) (carry file : List Byte),
      readLoop bufSize f fuel s carry file =
        match loopLines bufSize fuel carry file with
        | none => none
        | some (ls, c) => (List.foldlM f s ls).map (fun s1 => (s1, c)) := by
  intro fuel
  induction fuel with
  | zero => intro s carry file; rfl
  | succ fuel ih =>
    intro s carry file
    simp only [readLoop, loopLines]
    by_cases h0 : (file.take (bufSize - carry.length)).length = 0
    · simp [h0]
    · simp only [h0, if_false, scanBuffer_eq]
      cases hf : List.foldlM f s (bufferLines [] (carry ++ file.take (bufSize - carry.length))).1 with
      | none =>
        by_cases hlt : (file.take (bufSize - carry.length)).length < bufSize - carry.length
        · simp only [hlt, if_true, hf, Option.map_none', Option.map_some']
        · simp only [hlt, if_false, Option.map_none']
          cases loopLines bufSize fuel _ (file.drop (bufSize - carry.length)) with
          | none => rfl
          | some r => simp [List.foldlM_append, hf]
      | some s1 =>
        by_cases hlt : (file.take (bufSize - carry.length)).length < bufSize - carry.length
        · simp only [hlt, if_true, hf, Option.map_none', Option.map_some']
        · simp only [hlt, if_false, Option.map_some']
          rw [ih]
          cases loopLines bufSize fuel _ (file.drop (bufSize - carry.length)) with
          | none => rfl
          | some r => simp [List.foldlM_append, hf]

/-- The read loop ends: with more fuel than bytes left it returns. -/
theorem loopLines_total (bufSize : Nat) :
    ∀ (fuel : Nat) (carry file : List Byte), file.length < fuel →
      ∃ r, loopLines bufSize fuel carry file = some r := by
  intro fuel
  induction fuel with
  | zero => intro carry file h; omega
  | succ fuel ih =>
    intro carry file hfuel
    simp only [loopLines]
    by_cases h0 : (file.take (bufSize - carry.length)).length = 0
    · exact ⟨_, by simp only [h0, if_true]; rfl⟩
    · by_cases hlt : (file.take (bufSize - carry.length)).length < bufSize - carry.length
      · exact ⟨_, by simp only [h0, hlt, if_true, if_false]; rfl⟩
      · have hlen : (file.drop (bufSize - carry.length)).length < fuel := by
          rw [List.length_drop]
          rw [List.length_take] at h0 hlt
          omega
        obtain ⟨r, hr⟩ := ih (bufferLines [] (carry ++ file.take (bufSize - carry.length))).2
          (file.drop (bufSize - carry.length)) hlen
        exact ⟨_, by simp only [h0, hlt, if_false, hr]; rfl⟩

/-! ## The header line -/

theorem foldlM_record (ls : List (List Byte)) :
    ∀ (acc : List (List Byte)),
      List.foldlM (fun (acc : List (List Byte)) l => some (acc ++ [l])) acc ls =
        some (acc ++ ls) := by
  induction ls with
  | nil => intro acc; simp
  | cons l rest ih =>
    intro acc
    simp only [List.foldlM]
    show List.foldlM _ (acc ++ [l]) rest = _
    rw [ih]
    simp

/-- The byte ranges handed over: those of the read loop, then the last line. -/
theorem chunkLines_eq (bufSize : Nat) (content : List Byte) :
    ∃ ls c, loopLines bufSize (content.length + 1) [] content = some (ls, c) ∧
      chunkLines bufSize content = ls ++ (if c.length > 0 then emitted c else []) := by
  obtain ⟨⟨ls, c⟩, hr⟩ := loopLines_total bufSize (content.length + 1) [] content (by omega)
  refine ⟨ls, c, hr, ?_⟩
  unfold chunkLines ingestWith
  rw [readLoop_eq, hr]
  simp only [foldlM_record, Option.map_some', List.nil_append]
  by_cases hc : c.length > 0
  · simp only [hc, if_true, emit_eq, foldlM_record, Option.getD_some]
  · simp only [hc, if_false, Option.getD_some, List.append_nil]

/-- The ingest loop is the per-line action folded over the byte ranges it hands
over; in particular it always ends. -/
theorem ingestWith_eq {σ : Type} (bufSize : Nat) (f : σ → List Byte → Option σ) (s : σ)
    (content : List Byte) :
    ingestWith bufSize f s content = List.foldlM f s (chunkLines bufSize content) := by
  obtain ⟨ls, c, hr, hch⟩ := chunkLines_eq bufSize content
  unfold ingestWith
  rw [readLoop_eq, hr, hch, List.foldlM_append]
  cases hf : List.foldlM f s ls with
  | none => simp [hf]
  | some s1 =>
    by_cases hc : c.length > 0
    · simp [hf, hc, emit_eq]
    · simp [hf, hc]

theorem processLines_eq_foldlM (ls : List (List Byte)) :
    ∀ (a : TripAnalyzer), processLines a ls = List.foldlM processRawLine a ls := by
  induction ls with
  | nil => intro a; rfl
  | cons l rest ih =>
    intro a
    simp only [processLines, List.foldlM]
    cases processRawLine a l with
    | none => rfl
    | some a1 => exact ih a1

/-- An `ingestFile` call on a readable file resets the expected comma count and
runs `processRawLine` over the byte ranges of the content. -/
theorem ingestFile_eq (a : TripAnalyzer) (content : List Byte) :
    ingestFile a (some content) =
      processLines { a with expectedCommas := -1 } (chunkLines BUFFER_SIZE content) := by
  unfold ingestFile
  simp only
  rw [ingestWith_eq, processLines_eq_foldlM]

theorem emitted_ne_nil (l x : List Byte) (hx : x ∈ emitted l) : x ≠ [] := by
  unfold emitted at hx
  by_cases h : (stripCR l).length > 0
  · simp only [h, if_true, List.mem_singleton] at hx
    rw [hx]
    exact List.ne_nil_of_length_pos h
  · simp only [h, if_false] at hx
    exact absurd hx (List.not_mem_nil _)

theorem bufferLines_ne_nil (buf : List Byte) :
    ∀ (cur x : List Byte), x ∈ (bufferLines cur buf).1 → x ≠ [] := by
  induction buf with
  | nil => intro cur x hx; simp [bufferLines] at hx
  | cons b bs ih =>
    intro cur x hx
    by_cases hb : b = 10
    · simp only [bufferLines, hb, if_true, List.mem_append] at hx
      rcases hx with h | h
      · exact emitted_ne_nil cur x h
      · exact ih [] x h
    · simp only [bufferLines, hb, if_false] at hx
      exact ih _ x hx

theorem loopLines_ne_nil (bufSize : Nat) :
    ∀ (fuel : Nat) (carry file : List Byte) (ls : List (List Byte)) (c x : List Byte),
      loopLines bufSize fuel carry file = some (ls, c) → x ∈ ls → x ≠ [] := by
  intro fuel
  induction fuel with
  | zero => intro carry file ls c x h; exact Option.noConfusion h
  | succ fuel ih =>
    intro carry file ls c x h hx
    simp only [loopLines] at h
    by_cases h0 : (file.take (bufSize - carry.length)).length = 0
    · simp only [h0, if_true] at h
      have := Option.some.inj h
      have h1 : ls = [] := (congrArg Prod.fst this).symm
      rw [h1] at hx
      exact absurd hx (List.not_mem_nil _)
    · by_cases hlt : (file.take (bufSize - carry.length)).length < bufSize - carry.length
      · simp only [h0, hlt, if_true, if_false] at h
        have := Option.some.inj h
        have h1 : (bufferLines [] (carry ++ file.take (bufSize - carry.length))).1 = ls :=
          congrArg Prod.fst this
        rw [← h1] at hx
        exact bufferLines_ne_nil _ _ x hx
      · simp only [h0, hlt, if_false] at h
        split at h
        · exact Option.noConfusion h
        · rename_i ls' c' hr
          have := Option.some.inj h
          have h1 : (bufferLines [] (carry ++ file.take (bufSize - carry.length))).1 ++ ls' = ls :=
            congrArg Prod.fst this
          rw [← h1] at hx
          rcases List.mem_append.1 hx with h2 | h2
          · exact bufferLines_ne_nil _ _ x h2
          · exact ih _ _ ls' c' x hr h2

/-- No empty byte range is ever handed to `processRawLine`. -/
theorem chunkLines_ne_nil (bufSize : Nat) (content x : List Byte)
    (hx : x ∈ chunkLines bufSize content) : x ≠ [] := by
  obtain ⟨ls, c, hr, hch⟩ := chunkLines_eq bufSize content
  rw [hch] at hx
  rcases List.mem_append.1 hx with h | h
  · exact loopLines_ne_nil bufSize _ _ _ ls c x hr h
  · by_cases hc : c.length > 0
    · simp only [hc, if_true] at h
      exact emitted_ne_nil c x h
    · simp only [hc, if_false] at h
      exact absurd h (List.not_mem_nil _)

/-- The first line after a reset only sets the expected comma count. -/
theorem processRawLine_header (a : TripAnalyzer) (line : List Byte) (hne : line ≠ [])
    (hunset : a.expectedCommas = -1) :
    processRawLine a line = some { a with expectedCommas := (commaCount line : Int) } := by
  have hlen : ¬ line.length = 0 := fun h => hne (List.length_eq_zero.1 h)
  unfold processRawLine
  rw [scan_line]
  simp only [hlen, hunset, if_false, if_true]
  rfl

/-- C4: whatever the content of the file, the first byte range that an
`ingestFile` call hands to `processRawLine` is not empty and only sets the
expected delimiter count to its own number of commas: the state it leaves has
the same interner, the same zone counts and the same slot counts as before the
call, even when the line is a well-formed data line. The rest of the call is
the processing of the remaining byte ranges from that state. When the content
has no line at all the call only resets the expected delimiter count. -/
theorem C4_first_line_not_counted (a : TripAnalyzer) (content : List Byte) :
    match chunkLines BUFFER_SIZE content with
    | [] => ingestFile a (some content) = some { a with expectedCommas := -1 }
    | first :: rest =>
      first ≠ [] ∧
      processRawLine { a with expectedCommas := -1 } first =
        some { zoneMap := a.zoneMap
               zoneCountsInternal := a.zoneCountsInternal
               slotCountsInternal := a.slotCountsInternal
               expectedCommas := (commaCount first : Int) } ∧
      ingestFile a (some content) =
        processLines { a with expectedCommas := (commaCount first : Int) } rest := by
  have hing := ingestFile_eq a content
  cases h : chunkLines BUFFER_SIZE content with
  | nil =>
    rw [h] at hing
    exact hing
  | cons first rest =>
    have hne : first ≠ [] :=
      chunkLines_ne_nil BUFFER_SIZE content first (by rw [h]; exact List.mem_cons_self _ _)
    have hhead := processRawLine_header { a with expectedCommas := -1 } first hne rfl
    refine ⟨hne, hhead, ?_⟩
    rw [hing, h]
    simp only [processLines, hhead]

/-! ## Truncation of the reports -/

theorem truncate_eq {α : Type} (k : Int) (l : List α) :
    truncate k l = if k > 0 then l.take k.toNat else l := by
  unfold truncate
  by_cases hk : k > 0
  · by_cases hl : l.length > k.toNat
    · simp only [hk, hl, and_self, if_true]
    · simp only [hk, hl, and_false, if_false, if_true]
      rw [List.take_of_length_le (by omega)]
  · simp only [hk, false_and, if_false]

theorem topZones_truncate (a : TripAnalyzer) (k : Int) :
    topZones a k =
      (topZones a 0).map (fun all => if k > 0 then all.take k.toNat else all) := by
  unfold topZones
  cases zoneRows a (List.range a.zoneMap.size) with
  | none => rfl
  | some rows =>
    simp only [Option.map_some', truncate_eq]
    simp

theorem topBusySlots_truncate (a : TripAnalyzer) (k : Int) :
    topBusySlots a k =
      (if k > 0 then (topBusySlots a 0).take k.toNat else topBusySlots a 0) := by
  unfold topBusySlots
  simp only [truncate_eq]
  simp

theorem stdSort_perm {α : Type} (comp : α → α → Bool) (l : List α) :
    (stdSort comp l).Perm l :=
  List.perm_insertionSort _ l

/-- C7: for every analyzer state and every integer `k`, each report for `k` is
the unbounded report (the one for `k = 0`) cut to its first `k` entries when
`k > 0`, so it has `min k n` entries, and is the unbounded report itself when
`k ≤ 0`; the unbounded report is a rearrangement of all the rows collected,
which are the entries with a count above zero. For `topZones` this includes
that the calls fail together on a state whose counter vector is too short. -/
theorem C7_reports_truncate (a : TripAnalyzer) (k : Int) :
    topZones a k =
      (topZones a 0).map (fun all => if k > 0 then all.take k.toNat else all) ∧
    (match topZones a k, topZones a 0 with
     | some r, some all =>
       r.length = if k > 0 then min k.toNat all.length else all.length
     | none, none => True
     | _, _ => False) ∧
    (match topZones a 0, zoneRows a (List.range a.zoneMap.size) with
     | some all, some rows => all.Perm rows
     | none, none => True
     | _, _ => False) ∧
    (topBusySlots a 0).Perm (slotRows a) ∧
    topBusySlots a k =
      (if k > 0 then (topBusySlots a 0).take k.toNat else topBusySlots a 0) ∧
    (topBusySlots a k).length =
      (if k > 0 then min k.toNat (topBusySlots a 0).length
       else (topBusySlots a 0).length) := by
  have hz := topZones_truncate a k
  have hs := topBusySlots_truncate a k
  refine ⟨hz, ?_, ?_, ?_, hs, ?_⟩
  rotate_left
  · unfold topZones
    cases zoneRows a (List.range a.zoneMap.size) with
    | none => trivial
    | some rows =>
      simp only [truncate_eq]
      exact stdSort_perm _ _
  · unfold topBusySlots
    simp only [truncate_eq]
    exact stdSort_perm _ _
  rotate_left
  · rw [hz]
    cases topZones a 0 with
    | none => trivial
    | some all =>
      simp only [Option.map_some']
      by_cases hk : k > 0
      · simp only [hk, if_true, List.length_take]
      · simp only [hk, if_false]
  · rw [hs]
    by_cases hk : k > 0
    · simp only [hk, if_true, List.length_take]
    · simp only [hk, if_false]

/-! ## The comparators are strict total orders -/

theorem strLt_irrefl : ∀ (a : List Byte), strLt a a = false := by
  intro a
  induction a with
  | nil => rfl
  | cons x xs ih => simp [strLt, ih]

theorem strLt_asymm : ∀ (a b : List Byte), strLt a b = true → strLt b a = false := by
  intro a
  induction a with
  | nil =>
    intro b h
    cases b with
    | nil => rfl
    | cons y ys => rfl
  | cons x xs ih =>
    intro b h
    cases b with
    | nil => simp [strLt] at h
    | cons y ys =>
      simp only [strLt] at h ⊢
      by_cases hxy : x < y
      · have hyx : ¬ y < x := lt_asymm hxy
        simp [hyx, hxy]
      · by_cases hyx : y < x
        · simp [hxy, hyx] at h
        · simp only [hxy, hyx, if_false] at h ⊢
          exact ih ys h

theorem strLt_trans : ∀ (a b c : List Byte), strLt a b = true → strLt b c = true →
    strLt a c = true := by
  intro a
  induction a with
  | nil =>
    intro b c h1 h2
    cases c with
    | nil =>
      cases b with
      | nil => exact h1
      | cons y ys => simp [strLt] at h2
    | cons z zs => rfl
  | cons x xs ih =>
    intro b c h1 h2
    cases b with
    | nil => simp [strLt] at h1
    | cons y ys =>
      cases c with
      | nil => simp [strLt] at h2
      | cons z zs =>
        simp only [strLt] at h1 h2 ⊢
        by_cases hxy : x < y
        · by_cases hyz : y < z
          · have : x < z := lt_trans hxy hyz
            simp [this]
          · by_cases hzy : z < y
            · simp [hyz, hzy] at h2
            · have : x < z := lt_of_lt_of_le hxy (not_lt.1 hzy)
              simp [this]
        · by_cases hyx : y < x
          · simp [hxy, hyx] at h1
          · simp only [hxy, hyx, if_false] at h1
            have hxy' : x = y := le_antisymm (not_lt.1 hyx) (not_lt.1 hxy)
            subst hxy'
            by_cases hxz : x < z
            · simp [hxz]
            · by_cases hzx : z < x
              · simp [hxz, hzx] at h2
              · simp only [hxz, hzx, if_false] at h2 ⊢
                exact ih ys zs h1 h2

theorem strLt_connex : ∀ (a b : List Byte), a ≠ b → strLt a b = true ∨ strLt b a = true := by
  intro a
  induction a with
  | nil =>
    intro b h
    cases b with
    | nil => exact absurd rfl h
    | cons y ys => left; rfl
  | cons x xs ih =>
    intro b h
    cases b with
    | nil => right; rfl
    | cons y ys =>
      simp only [strLt]
      by_cases hxy : x < y
      · left; simp [hxy]
      · by_cases hyx : y < x
        · right; simp [hyx]
        · have hxy' : x = y := le_antisymm (not_lt.1 hyx) (not_lt.1 hxy)
          subst hxy'
          have hne : xs ≠ ys := fun h' => h (by rw [h'])
          simp only [hxy, if_false]
          exact ih ys hne

theorem zoneBefore_iff (a b : ZoneCount) :
    zoneBefore a b = true ↔
      (a.count > b.count ∨ (a.count = b.count ∧ strLt a.zone b.zone = true)) := by
  unfold zoneBefore
  by_cases h : a.count = b.count
  · simp [h]
  · simp only [ne_eq, h, not_false_eq_true, if_true, decide_eq_true_eq, false_and, or_false]

theorem slotBefore_iff (a b : SlotCount) :
    slotBefore a b = true ↔
      (a.count > b.count ∨ (a.count = b.count ∧
        (strLt a.zone b.zone = true ∨ (a.zone = b.zone ∧ a.hour < b.hour)))) := by
  unfold slotBefore
  by_cases h : a.count = b.count
  · by_cases hz : a.zone = b.zone
    · simp [h, hz, strLt_irrefl]
    · simp [h, hz]
  · simp only [ne_eq, h, not_false_eq_true, if_true, decide_eq_true_eq, false_and, or_false]

theorem zoneBefore_strict : StrictOrd zoneBefore where
  asymm := by
    intro a b h
    rw [zoneBefore_iff] at h
    rw [Bool.eq_false_iff, ne_eq, zoneBefore_iff]
    rintro (h' | ⟨h1, h2⟩)
    · rcases h with h | ⟨h, _⟩ <;> omega
    · rcases h with h | ⟨_, h⟩
      · omega
      · rw [strLt_asymm _ _ h] at h2
        exact Bool.noConfusion h2
  trans := by
    intro a b c h1 h2
    rw [zoneBefore_iff] at h1 h2 ⊢
    rcases h1 with h1 | ⟨h1, s1⟩
    · rcases h2 with h2 | ⟨h2, _⟩
      · left; omega
      · left; omega
    · rcases h2 with h2 | ⟨h2, s2⟩
      · left; omega
      · right; exact ⟨by omega, strLt_trans _ _ _ s1 s2⟩
  connex := by
    intro a b hne
    rw [zoneBefore_iff, zoneBefore_iff]
    by_cases hc : a.count = b.count
    · have hz : a.zone ≠ b.zone := by
        intro hz
        apply hne
        cases a; cases b
        simp only at hc hz
        rw [hc, hz]
      rcases strLt_connex _ _ hz with h | h
      · left; right; exact ⟨hc, h⟩
      · right; right; exact ⟨hc.symm, h⟩
    · rcases lt_or_gt_of_ne hc with h | h
      · right; left; exact h
      · left; left; exact h

theorem slotBefore_strict : StrictOrd slotBefore where
  asymm := by
    intro a b h
    rw [slotBefore_iff] at h
    rw [Bool.eq_false_iff, ne_eq, slotBefore_iff]
    rintro (h' | ⟨h1, h2⟩)
    · rcases h with h | ⟨h, _⟩ <;> omega
    · rcases h with h | ⟨_, h⟩
      · omega
      · rcases h with h | ⟨hz, hh⟩
        · rcases h2 with h2 | ⟨hz2, _⟩
          · rw [strLt_asymm _ _ h] at h2
            exact Bool.noConfusion h2
          · rw [hz2, strLt_irrefl] at h
            exact Bool.noConfusion h
        · rcases h2 with h2 | ⟨_, hh2⟩
          · rw [hz, strLt_irrefl] at h2
            exact Bool.noConfusion h2
          · omega
  trans := by
    intro a b c h1 h2
    rw [slotBefore_iff] at h1 h2 ⊢
    rcases h1 with h1 | ⟨h1, s1⟩
    · rcases h2 with h2 | ⟨h2, _⟩
      · left; omega
      · left; omega
    · rcases h2 with h2 | ⟨h2, s2⟩
      · left; omega
      · right
        refine ⟨by omega, ?_⟩
        rcases s1 with s1 | ⟨z1, hh1⟩
        · rcases s2 with s2 | ⟨z2, _⟩
          · left; exact strLt_trans _ _ _ s1 s2
          · left; rw [← z2]; exact s1
        · rcases s2 with s2 | ⟨z2, hh2⟩
          · left; rw [z1]; exact s2
          · right; exact ⟨by rw [z1, z2], by omega⟩
  connex := by
    intro a b hne
    rw [slotBefore_iff, slotBefore_iff]
    by_cases hc : a.count = b.count
    · by_cases hz : a.zone = b.zone
      · have hh : a.hour ≠ b.hour := by
          intro hh
          apply hne
          cases a; cases b
          simp only at hc hz hh
          rw [hc, hz, hh]
        rcases lt_or_gt_of_ne hh with h | h
        · left; right; exact ⟨hc, Or.inr ⟨hz, h⟩⟩
        · right; right; exact ⟨hc.symm, Or.inr ⟨hz.symm, h⟩⟩
      · rcases strLt_connex _ _ hz with h | h
        · left; right; exact ⟨hc, Or.inl h⟩
        · right; right; exact ⟨hc.symm, Or.inl h⟩
    · rcases lt_or_gt_of_ne hc with h | h
      · right; left; exact h
      · left; left; exact h

/-- The result of `stdSort` is sorted: no record comes before an earlier one. -/
theorem stdSort_sorted {α : Type} (comp : α → α → Bool) (so : StrictOrd comp) (l : List α) :
    List.Pairwise (fun a b => comp b a = false) (stdSort comp l) := by
  haveI : IsTotal α (fun a b => comp b a = false) := ⟨by
    intro a b
    by_cases h : comp b a = true
    · right; exact so.asymm b a h
    · left; simpa using h⟩
  haveI : IsTrans α (fun a b => comp b a = false) := ⟨by
    intro a b c h1 h2
    by_contra hcon
    have hca : comp c a = true := by simpa using hcon
    by_cases hab : a = b
    · subst hab
      rw [hca] at h2
      exact Bool.noConfusion h2
    · rcases so.connex a b hab with h | h
      · have := so.trans c a b hca h
        rw [this] at h2
        exact Bool.noConfusion h2
      · rw [h] at h1
        exact Bool.noConfusion h1⟩
  exact List.sorted_insertionSort _ l

/-- Under a strict total order the sorted arrangement is unique: whatever
algorithm `std::sort` runs, its result is the one of `stdSort`. -/
theorem stdSort_unique {α : Type} (comp : α → α → Bool) (so : StrictOrd comp)
    (l l' : List α) (hperm : l'.Perm l)
    (hsorted : List.Pairwise (fun a b => comp b a = false) l') :
    l' = stdSort comp l := by
  haveI : IsAntisymm α (fun a b => comp b a = false) := ⟨by
    intro a b h1 h2
    by_contra hne
    rcases so.connex a b hne with h | h
    · rw [h] at h2
      exact Bool.noConfusion h2
    · rw [h] at h1
      exact Bool.noConfusion h1⟩
  exact List.eq_of_perm_of_sorted (hperm.trans (stdSort_perm comp l).symm) hsorted
    (stdSort_sorted comp so l)

/-- Sorting records that are pairwise distinct under a strict total order
gives a list in which every record comes strictly before all later ones. -/
theorem stdSort_pairwise {α : Type} (comp : α → α → Bool) (so : StrictOrd comp)
    (l : List α) (hnd : l.Nodup) :
    List.Pairwise (fun a b => comp a b = true) (stdSort comp l) := by
  have hsorted := stdSort_sorted comp so l
  have hnd' : List.Pairwise (fun a b => a ≠ b) (stdSort comp l) :=
    (stdSort_perm comp l).nodup_iff.2 hnd
  refine (hsorted.and hnd').imp ?_
  intro a b h
  rcases so.connex a b h.2 with h' | h'
  · exact h'
  · rw [h'] at h
    exact Bool.noConfusion h.1

/-! ## Counting events: basic facts -/

theorem bump_some (v v' : List Int) (i : Nat) (h : bump v i = some v') :
    ∃ c, v[i]? = some c ∧ v' = v.set i (c + 1) := by
  unfold bump at h
  cases hc : v[i]? with
  | none => rw [hc] at h; exact Option.noConfusion h
  | some c =>
    rw [hc] at h
    exact ⟨c, rfl, (Option.some.inj h).symm⟩

theorem bump_of_get (v : List Int) (i : Nat) (c : Int) (h : v[i]? = some c) :
    bump v i = some (v.set i (c + 1)) := by
  unfold bump
  rw [h]

theorem recordEvent_some (a a' : TripAnalyzer) (zm : FastZoneMap) (zId h : Nat)
    (hr : recordEvent a zm zId h = some a') :
    zId * 24 + h ≤ 0x7FFFFFFF ∧ ∃ zc1 sc1,
      bump (if zId ≥ a.zoneCountsInternal.length then a.zoneCountsInternal ++ [0]
            else a.zoneCountsInternal) zId = some zc1 ∧
      bump (if zId ≥ a.zoneCountsInternal.length then
              a.slotCountsInternal ++ List.replicate 24 0
            else a.slotCountsInternal) (zId * 24 + h) = some sc1 ∧
      a' = { a with zoneMap := zm, zoneCountsInternal := zc1, slotCountsInternal := sc1 } := by
  unfold recordEvent at hr
  simp only [decide_eq_true_eq] at hr
  by_cases hov : zId * 24 + h > 0x7FFFFFFF
  · rw [if_pos hov] at hr
    exact Option.noConfusion hr
  · rw [if_neg hov] at hr
    refine ⟨by omega, ?_⟩
    split at hr
    · rename_i zc1 sc1 h1 h2
      exact ⟨zc1, sc1, h1, h2, (Option.some.inj hr).symm⟩
    · exact Option.noConfusion hr

theorem zoneEvents_snoc (evs : List (List Byte × Nat)) (z : List Byte) (h : Nat)
    (name : List Byte) :
    zoneEvents (evs ++ [(z, h)]) name = zoneEvents evs name + (if z = name then 1 else 0) := by
  unfold zoneEvents
  rw [List.countP_append]
  simp [List.countP_cons]

theorem slotEvents_snoc (evs : List (List Byte × Nat)) (z : List Byte) (h : Nat)
    (name : List Byte) (h' : Nat) :
    slotEvents (evs ++ [(z, h)]) name h' =
      slotEvents evs name h' + (if z = name ∧ h = h' then 1 else 0) := by
  unfold slotEvents
  rw [List.countP_append]
  simp [List.countP_cons]

/-- In a tracked state no two entries share a name. -/
theorem Tracks.names_distinct {a : TripAnalyzer} {evs : List (List Byte × Nat)}
    (tr : Tracks a evs) (i j : Nat) (e e' : ZoneEntry)
    (hi : a.zoneMap.entries[i]? = some e) (hj : a.zoneMap.entries[j]? = some e')
    (hn : e.name = e'.name) : i = j :=
  tr.wf.distinct i j e e' hi hj (by rw [tr.hashed i e hi, tr.hashed j e' hj, hn]) hn

theorem tracks_init : Tracks TripAnalyzer.init [] where
  wf := FastZoneMap.wf_init
  hashed := fun i e h => by simp [TripAnalyzer.init, FastZoneMap.init] at h
  small := by simp [TripAnalyzer.init, FastZoneMap.init]
  sound := fun i e h => by simp [TripAnalyzer.init, FastZoneMap.init] at h
  complete := fun ev h => by simp at h
  zlen := rfl
  slen := rfl
  zcount := fun i e h => by simp [TripAnalyzer.init, FastZoneMap.init] at h
  scount := fun i e h he => by simp [TripAnalyzer.init, FastZoneMap.init] at he

theorem getElem?_lt {α : Type} (l : List α) (i : Nat) (x : α) (h : l[i]? = some x) :
    i < l.length := by
  by_contra hcon
  rw [List.getElem?_eq_none (by omega)] at h
  exact Option.noConfusion h

/-! ## Counting one event -/

/-- Counting one more event of a zone that is already interned at `id`. -/
theorem tracks_found (a : TripAnalyzer) (evs : List (List Byte × Nat)) (tr : Tracks a evs)
    (m' : FastZoneMap) (wf' : FastZoneMap.WF m') (hent : m'.entries = a.zoneMap.entries)
    (id : Nat) (e : ZoneEntry) (he : a.zoneMap.entries[id]? = some e) (h : Nat) (hh : h ≤ 23)
    (c c' : Int) (hc : a.zoneCountsInternal[id]? = some c)
    (hc' : a.slotCountsInternal[id * 24 + h]? = some c') :
    Tracks { a with zoneMap := m'
                    zoneCountsInternal := a.zoneCountsInternal.set id (c + 1)
                    slotCountsInternal := a.slotCountsInternal.set (id * 24 + h) (c' + 1) }
      (evs ++ [(e.name, h)]) := by
  have hidlt := getElem?_lt _ _ _ he
  have hcv := tr.zcount id e he
  have hcv' := tr.scount id e h he (by omega)
  rw [hc] at hcv
  rw [hc'] at hcv'
  have hcv := Option.some.inj hcv
  have hcv' := Option.some.inj hcv'
  refine ⟨wf', ?_, ?_, ?_, ?_, ?_, ?_, ?_, ?_⟩
  · intro i ei hi
    exact tr.hashed i ei (by rw [← hent]; exact hi)
  · show m'.entries.length ≤ _
    rw [hent]; exact tr.small
  · intro i ei hi
    obtain ⟨ev, hev, hn⟩ := tr.sound i ei (by rw [← hent]; exact hi)
    exact ⟨ev, List.mem_append_left _ hev, hn⟩
  · intro ev hev
    rcases List.mem_append.1 hev with h1 | h1
    · obtain ⟨i, ei, hi, hn⟩ := tr.complete ev h1
      exact ⟨i, ei, by show m'.entries[i]? = _; rw [hent]; exact hi, hn⟩
    · have : ev = (e.name, h) := by simpa using h1
      exact ⟨id, e, by show m'.entries[id]? = _; rw [hent]; exact he, by rw [this]⟩
  · show (a.zoneCountsInternal.set id (c + 1)).length = m'.entries.length
    rw [List.length_set, hent, tr.zlen]
  · show (a.slotCountsInternal.set (id * 24 + h) (c' + 1)).length = 24 * m'.entries.length
    rw [List.length_set, hent, tr.slen]
  · intro i ei hi
    have hi' : a.zoneMap.entries[i]? = some ei := by rw [← hent]; exact hi
    show (a.zoneCountsInternal.set id (c + 1))[i]? = _
    rw [List.getElem?_set, zoneEvents_snoc]
    by_cases hii : id = i
    · subst hii
      have hei : ei = e := by
        rw [he] at hi'
        exact (Option.some.inj hi').symm
      subst hei
      have hlt : id < a.zoneCountsInternal.length := by rw [tr.zlen]; exact hidlt
      simp only [if_true, hlt, hcv]
      push_cast
      rfl
    · have hne : ¬ e.name = ei.name :=
        fun hz => hii (tr.names_distinct id i e ei he hi' hz)
      rw [if_neg hii, if_neg hne, tr.zcount i ei hi']
      rfl
  · intro i ei h' hi hh'
    have hi' : a.zoneMap.entries[i]? = some ei := by rw [← hent]; exact hi
    show (a.slotCountsInternal.set (id * 24 + h) (c' + 1))[i * 24 + h']? = _
    rw [List.getElem?_set, slotEvents_snoc]
    by_cases hii : id * 24 + h = i * 24 + h'
    · have h1 : id = i := by omega
      have h2 : h = h' := by omega
      subst h1
      subst h2
      have hei : ei = e := by
        rw [he] at hi'
        exact (Option.some.inj hi').symm
      subst hei
      have hlt : id * 24 + h < a.slotCountsInternal.length := by rw [tr.slen]; omega
      simp only [if_true, hlt, hcv', and_self]
      push_cast
      rfl
    · have hne : ¬ (e.name = ei.name ∧ h = h') := by
        rintro ⟨hz, hh2⟩
        have := tr.names_distinct id i e ei he hi' hz
        apply hii
        rw [this, hh2]
      rw [if_neg hii, if_neg hne, tr.scount i ei h' hi' hh']
      rfl

/-- Counting the first event of a zone that is not interned yet. -/
theorem tracks_new (a : TripAnalyzer) (evs : List (List Byte × Nat)) (tr : Tracks a evs)
    (m' : FastZoneMap) (wf' : FastZoneMap.WF m') (z : List Byte)
    (hent : m'.entries = a.zoneMap.entries ++
      [{ name := z, id := a.zoneMap.entries.length, storedHash := fnv1a z }])
    (hnone : ∀ (i : Nat) (e : ZoneEntry), a.zoneMap.entries[i]? = some e → ¬ e.name = z)
    (h : Nat) (hh : h ≤ 23) (hov : a.zoneMap.entries.length * 24 + h ≤ 0x7FFFFFFF) :
    Tracks { a with zoneMap := m'
                    zoneCountsInternal :=
                      (a.zoneCountsInternal ++ [0]).set a.zoneMap.entries.length (0 + 1)
                    slotCountsInternal :=
                      (a.slotCountsInternal ++ List.replicate 24 0).set
                        (a.zoneMap.entries.length * 24 + h) (0 + 1) }
      (evs ++ [(z, h)]) := by
  have hz0 : zoneEvents evs z = 0 := by
    unfold zoneEvents
    rw [List.countP_eq_zero]
    intro ev hev
    obtain ⟨i, e, hi, hn⟩ := tr.complete ev hev
    simp only [decide_eq_true_eq]
    intro hcon
    exact hnone i e hi (by rw [hn, hcon])
  have hs0 : ∀ h', slotEvents evs z h' = 0 := by
    intro h'
    unfold slotEvents
    rw [List.countP_eq_zero]
    intro ev hev
    obtain ⟨i, e, hi, hn⟩ := tr.complete ev hev
    simp only [decide_eq_true_eq]
    intro hcon
    exact hnone i e hi (by rw [hn, hcon.1])
  have hcases : ∀ (i : Nat) (ei : ZoneEntry), m'.entries[i]? = some ei →
      (i < a.zoneMap.entries.length ∧ a.zoneMap.entries[i]? = some ei) ∨
      (i = a.zoneMap.entries.length ∧
        ei = { name := z, id := a.zoneMap.entries.length, storedHash := fnv1a z }) := by
    intro i ei hi
    rw [hent] at hi
    by_cases hlt : i < a.zoneMap.entries.length
    · left
      rw [List.getElem?_append_left hlt] at hi
      exact ⟨hlt, hi⟩
    · right
      have hlen := getElem?_lt _ _ _ hi
      simp only [List.length_append, List.length_singleton] at hlen
      have hieq : i = a.zoneMap.entries.length := by omega
      subst hieq
      rw [List.getElem?_append_right (le_refl _)] at hi
      simp at hi
      exact ⟨rfl, hi.symm⟩
  refine ⟨wf', ?_, ?_, ?_, ?_, ?_, ?_, ?_, ?_⟩
  · intro i ei hi
    rcases hcases i ei hi with ⟨_, h1⟩ | ⟨_, h1⟩
    · exact tr.hashed i ei h1
    · rw [h1]
  · show m'.entries.length ≤ _
    rw [hent]
    simp only [List.length_append, List.length_singleton]
    omega
  · intro i ei hi
    rcases hcases i ei hi with ⟨_, h1⟩ | ⟨_, h1⟩
    · obtain ⟨ev, hev, hn⟩ := tr.sound i ei h1
      exact ⟨ev, List.mem_append_left _ hev, hn⟩
    · exact ⟨(z, h), by simp, by rw [h1]⟩
  · intro ev hev
    rcases List.mem_append.1 hev with h1 | h1
    · obtain ⟨i, ei, hi, hn⟩ := tr.complete ev h1
      refine ⟨i, ei, ?_, hn⟩
      show m'.entries[i]? = _
      rw [hent, List.getElem?_append_left (getElem?_lt _ _ _ hi)]
      exact hi
    · have : ev = (z, h) := by simpa using h1
      refine ⟨a.zoneMap.entries.length,
        { name := z, id := a.zoneMap.entries.length, storedHash := fnv1a z }, ?_, by rw [this]⟩
      show m'.entries[a.zoneMap.entries.length]? = _
      rw [hent, List.getElem?_append_right (le_refl _)]
      simp
  · show ((a.zoneCountsInternal ++ [0]).set _ _).length = m'.entries.length
    rw [List.length_set, hent]
    simp [tr.zlen]
  · show ((a.slotCountsInternal ++ List.replicate 24 0).set _ _).length = 24 * m'.entries.length
    rw [List.length_set, hent]
    simp [tr.slen]
    omega
  · intro i ei hi
    show ((a.zoneCountsInternal ++ [0]).set a.zoneMap.entries.length (0 + 1))[i]? = _
    rw [List.getElem?_set, zoneEvents_snoc]
    rcases hcases i ei hi with ⟨hlt, h1⟩ | ⟨hieq, h1⟩
    · have hne : ¬ a.zoneMap.entries.length = i := by omega
      have hnz : ¬ z = ei.name := fun hz => hnone i ei h1 hz.symm
      rw [if_neg hne, if_neg hnz,
        List.getElem?_append_left (by rw [tr.zlen]; exact hlt), tr.zcount i ei h1]
      rfl
    · subst hieq
      rw [h1]
      have hlt : a.zoneMap.entries.length < (a.zoneCountsInternal ++ [0]).length := by
        simp [tr.zlen]
      simp only [if_true, hlt, hz0]
      rfl
  · intro i ei h' hi hh'
    show ((a.slotCountsInternal ++ List.replicate 24 0).set
      (a.zoneMap.entries.length * 24 + h) (0 + 1))[i * 24 + h']? = _
    rw [List.getElem?_set, slotEvents_snoc]
    rcases hcases i ei hi with ⟨hlt, h1⟩ | ⟨hieq, h1⟩
    · have hne : ¬ a.zoneMap.entries.length * 24 + h = i * 24 + h' := by omega
      have hnz : ¬ (z = ei.name ∧ h = h') := fun hz => hnone i ei h1 hz.1.symm
      rw [if_neg hne, if_neg hnz,
        List.getElem?_append_left (by rw [tr.slen]; omega), tr.scount i ei h' h1 hh']
      rfl
    · subst hieq
      rw [h1]
      by_cases hheq : h = h'
      · subst hheq
        have hlt : a.zoneMap.entries.length * 24 + h <
            (a.slotCountsInternal ++ List.replicate 24 0).length := by
          simp [tr.slen]; omega
        simp only [if_true, hlt, hs0, and_self]
        rfl
      · have hne : ¬ a.zoneMap.entries.length * 24 + h = a.zoneMap.entries.length * 24 + h' := by
          omega
        have hnz : ¬ (z = z ∧ h = h') := fun hz => hheq hz.2
        rw [if_neg hne, if_neg hnz,
          List.getElem?_append_right (by rw [tr.slen]; omega), List.getElem?_replicate, hs0]
        have : a.zoneMap.entries.length * 24 + h' - a.slotCountsInternal.length < 24 := by
          rw [tr.slen]; omega
        simp only [this, if_true]
        rfl

/-! ## One accepted event -/

theorem Tracks.names_nodup {a : TripAnalyzer} {evs : List (List Byte × Nat)}
    (tr : Tracks a evs) : (a.zoneMap.entries.map ZoneEntry.name).Nodup := by
  rw [List.nodup_iff_getElem?_ne_getElem?]
  intro i j hij hj heq
  simp only [List.length_map] at hj
  rw [List.getElem?_map, List.getElem?_map, List.getElem?_eq_getElem hj,
    List.getElem?_eq_getElem (by omega : i < a.zoneMap.entries.length)] at heq
  simp only [Option.map_some', Option.some.injEq] at heq
  have := tr.names_distinct i j _ _ (List.getElem?_eq_getElem (by omega)) (List.getElem?_eq_getElem hj) heq
  omega

theorem Tracks.names_toFinset {a : TripAnalyzer} {evs : List (List Byte × Nat)}
    (tr : Tracks a evs) :
    (a.zoneMap.entries.map ZoneEntry.name).toFinset = (evs.map Prod.fst).toFinset := by
  ext z
  simp only [List.mem_toFinset, List.mem_map]
  constructor
  · rintro ⟨e, he, hn⟩
    obtain ⟨i, hi⟩ := List.mem_iff_getElem?.1 he
    obtain ⟨ev, hev, hz⟩ := tr.sound i e hi
    exact ⟨ev, hev, by rw [hz, hn]⟩
  · rintro ⟨ev, hev, hz⟩
    obtain ⟨i, e, hi, hn⟩ := tr.complete ev hev
    exact ⟨e, List.mem_iff_getElem?.2 ⟨i, hi⟩, by rw [hn, hz]⟩

/-- A tracked state holds one entry per distinct zone of its events. -/
theorem Tracks.entries_length {a : TripAnalyzer} {evs : List (List Byte × Nat)}
    (tr : Tracks a evs) : a.zoneMap.entries.length = distinctZones evs := by
  unfold distinctZones
  rw [← List.card_toFinset, ← tr.names_toFinset, List.toFinset_card_of_nodup tr.names_nodup,
    List.length_map]

theorem distinctZones_mono (evs more : List (List Byte × Nat)) :
    distinctZones evs ≤ distinctZones (evs ++ more) := by
  unfold distinctZones
  rw [← List.card_toFinset, ← List.card_toFinset]
  apply Finset.card_le_card
  intro z hz
  simp only [List.mem_toFinset, List.map_append, List.mem_append] at hz ⊢
  exact Or.inl hz

theorem distinctZones_mono_right (evs more : List (List Byte × Nat)) :
    distinctZones more ≤ distinctZones (evs ++ more) := by
  unfold distinctZones
  rw [← List.card_toFinset, ← List.card_toFinset]
  apply Finset.card_le_card
  intro z hz
  simp only [List.mem_toFinset, List.map_append, List.mem_append] at hz ⊢
  exact Or.inr hz

theorem distinctZones_snoc_new (evs : List (List Byte × Nat)) (z : List Byte) (h : Nat)
    (hnew : z ∉ evs.map Prod.fst) :
    distinctZones (evs ++ [(z, h)]) = distinctZones evs + 1 := by
  unfold distinctZones
  rw [← List.card_toFinset, ← List.card_toFinset, List.map_append, List.toFinset_append]
  simp only [List.map_cons, List.map_nil, List.toFinset_cons, List.toFinset_nil]
  rw [Finset.union_comm, Finset.insert_union, Finset.empty_union,
    Finset.card_insert_of_not_mem (by simpa using hnew)]

/-- One accepted event on a tracked state: if `applyEvent` returns, the new
state tracks the events with this one added and has the same header count. -/
theorem applyEvent_tracks (a a' : TripAnalyzer) (evs : List (List Byte × Nat))
    (z : List Byte) (h : Nat) (tr : Tracks a evs) (hh : h ≤ 23)
    (hr : applyEvent a z h = some a') :
    Tracks a' (evs ++ [(z, h)]) ∧ a'.expectedCommas = a.expectedCommas := by
  have hcap : a.zoneMap.entries.length < 2 ^ 30 := by
    have := tr.small
    norm_num
    omega
  obtain ⟨m', id, hget, wf', hcase⟩ := FastZoneMap.getId_spec a.zoneMap tr.wf hcap z (fnv1a z)
  unfold applyEvent at hr
  rw [hget] at hr
  simp only at hr
  obtain ⟨hov, zc1, sc1, hb1, hb2, ha'⟩ := recordEvent_some a a' m' id h hr
  subst ha'
  refine ⟨?_, rfl⟩
  rcases hcase with ⟨⟨e, he, hn, _⟩, hent⟩ | ⟨hnone, hid, hent⟩
  · have hidlt := getElem?_lt _ _ _ he
    have hng : ¬ id ≥ a.zoneCountsInternal.length := by rw [tr.zlen]; omega
    rw [if_neg hng] at hb1 hb2
    obtain ⟨c, hc, hzc1⟩ := bump_some _ _ _ hb1
    obtain ⟨c', hc', hsc1⟩ := bump_some _ _ _ hb2
    subst hzc1
    subst hsc1
    rw [← hn]
    exact tracks_found a evs tr m' wf' hent id e he h hh c c' hc hc'
  · subst hid
    have hg : a.zoneMap.entries.length ≥ a.zoneCountsInternal.length := by rw [tr.zlen]
    rw [if_pos hg] at hb1 hb2
    obtain ⟨c, hc, hzc1⟩ := bump_some _ _ _ hb1
    obtain ⟨c', hc', hsc1⟩ := bump_some _ _ _ hb2
    have hc0 : c = 0 := by
      rw [List.getElem?_append_right (by rw [tr.zlen]), tr.zlen] at hc
      simp at hc
      exact hc.symm
    have hc0' : c' = 0 := by
      rw [List.getElem?_append_right (by rw [tr.slen]; omega), List.getElem?_replicate] at hc'
      have : a.zoneMap.entries.length * 24 + h - a.slotCountsInternal.length < 24 := by
        rw [tr.slen]; omega
      simp only [this, if_true] at hc'
      exact (Option.some.inj hc').symm
    subst hzc1
    subst hsc1
    subst hc0
    subst hc0'
    have hnone' : ∀ (i : Nat) (e : ZoneEntry), a.zoneMap.entries[i]? = some e → ¬ e.name = z :=
      fun i e hi hz => hnone i e hi ⟨by rw [tr.hashed i e hi, hz], hz⟩
    exact tracks_new a evs tr m' wf' z hent hnone' h hh hov

/-- One accepted event on a tracked state returns as long as the number of
distinct zones stays within what the `int` slot index can address. -/
theorem applyEvent_total (a : TripAnalyzer) (evs : List (List Byte × Nat))
    (z : List Byte) (h : Nat) (tr : Tracks a evs) (hh : h ≤ 23)
    (hroom : distinctZones (evs ++ [(z, h)]) ≤ 89478485) :
    ∃ a', applyEvent a z h = some a' := by
  have hlen := tr.entries_length
  have hmono := distinctZones_mono evs [(z, h)]
  have hcap : a.zoneMap.entries.length < 2 ^ 30 := by
    norm_num
    omega
  obtain ⟨m', id, hget, wf', hcase⟩ := FastZoneMap.getId_spec a.zoneMap tr.wf hcap z (fnv1a z)
  unfold applyEvent
  rw [hget]
  simp only
  unfold recordEvent
  simp only [decide_eq_true_eq]
  rcases hcase with ⟨⟨e, he, hn, _⟩, hent⟩ | ⟨hnone, hid, hent⟩
  · have hidlt := getElem?_lt _ _ _ he
    have hng : ¬ id ≥ a.zoneCountsInternal.length := by rw [tr.zlen]; omega
    have hov : ¬ id * 24 + h > 0x7FFFFFFF := by omega
    rw [if_neg hov, if_neg hng, if_neg hng]
    obtain ⟨c, hc⟩ : ∃ c, a.zoneCountsInternal[id]? = some c :=
      ⟨_, List.getElem?_eq_getElem (by rw [tr.zlen]; exact hidlt)⟩
    obtain ⟨c', hc'⟩ : ∃ c', a.slotCountsInternal[id * 24 + h]? = some c' :=
      ⟨_, List.getElem?_eq_getElem (by rw [tr.slen]; omega)⟩
    rw [bump_of_get _ _ _ hc, bump_of_get _ _ _ hc']
    exact ⟨_, rfl⟩
  · subst hid
    have hnew : z ∉ evs.map Prod.fst := by
      intro hmem
      obtain ⟨ev, hev, hz⟩ := List.mem_map.1 hmem
      obtain ⟨i, e, hi, hn⟩ := tr.complete ev hev
      exact hnone i e hi ⟨by rw [tr.hashed i e hi, hn, hz], by rw [hn, hz]⟩
    have hcount := distinctZones_snoc_new evs z h hnew
    have hg : a.zoneMap.entries.length ≥ a.zoneCountsInternal.length := by rw [tr.zlen]
    have hov : ¬ a.zoneMap.entries.length * 24 + h > 0x7FFFFFFF := by omega
    rw [if_neg hov, if_pos hg, if_pos hg]
    obtain ⟨c, hc⟩ : ∃ c, (a.zoneCountsInternal ++ [0])[a.zoneMap.entries.length]? = some c :=
      ⟨_, List.getElem?_eq_getElem (by simp [tr.zlen])⟩
    obtain ⟨c', hc'⟩ : ∃ c', (a.slotCountsInternal ++ List.replicate 24 0)[
        a.zoneMap.entries.length * 24 + h]? = some c' :=
      ⟨_, List.getElem?_eq_getElem (by simp [tr.slen]; omega)⟩
    rw [bump_of_get _ _ _ hc, bump_of_get _ _ _ hc']
    exact ⟨_, rfl⟩

/-! ## Runs of lines and reachable states -/

theorem lineEvent_some (line z : List Byte) (h : Nat) (hev : lineEvent line = some (z, h)) :
    z = zoneField line ∧ z ≠ [] ∧ h ≤ 23 ∧ 2 ≤ commaCount line := by
  unfold lineEvent at hev
  by_cases h1 : commaCount line < 2 ∨ zoneField line = []
  · rw [if_pos h1] at hev
    exact Option.noConfusion hev
  · rw [if_neg h1] at hev
    push_neg at h1
    cases hf : hourField line with
    | none => rw [hf] at hev; exact Option.noConfusion hev
    | some f =>
      rw [hf] at hev
      simp only at hev
      cases hv : hourValue f with
      | none => rw [hv] at hev; exact Option.noConfusion hev
      | some v =>
        rw [hv] at hev
        simp only at hev
        by_cases hv23 : v ≤ 23
        · rw [if_pos hv23] at hev
          have := Option.some.inj hev
          have hz : zoneField line = z := congrArg Prod.fst this
          have hh : v = h := congrArg Prod.snd this
          exact ⟨hz.symm, by rw [← hz]; exact h1.2, by omega, h1.1⟩
        · rw [if_neg hv23] at hev
          exact Option.noConfusion hev

theorem dataEvents_cons (n : Nat) (l : List Byte) (rest : List (List Byte)) :
    dataEvents n (l :: rest) =
      (match (if commaCount l = n then lineEvent l else none) with
       | none => []
       | some ev => [ev]) ++ dataEvents n rest := by
  unfold dataEvents
  rw [List.filterMap_cons]
  cases (if commaCount l = n then lineEvent l else none) <;> rfl

theorem tracks_expected (a : TripAnalyzer) (evs : List (List Byte × Nat)) (x : Int) :
    Tracks { a with expectedCommas := x } evs ↔ Tracks a evs := by
  constructor
  · intro tr
    exact ⟨tr.wf, tr.hashed, tr.small, tr.sound, tr.complete, tr.zlen, tr.slen, tr.zcount,
      tr.scount⟩
  · intro tr
    exact ⟨tr.wf, tr.hashed, tr.small, tr.sound, tr.complete, tr.zlen, tr.slen, tr.zcount,
      tr.scount⟩

/-- One data line on a tracked state whose header count is `n`. -/
theorem processRawLine_tracks (a a' : TripAnalyzer) (evs : List (List Byte × Nat)) (n : Nat)
    (line : List Byte) (tr : Tracks a evs) (hexp : a.expectedCommas = (n : Int))
    (hr : processRawLine a line = some a') :
    Tracks a' (evs ++ dataEvents n [line]) ∧ a'.expectedCommas = (n : Int) := by
  have hset : a.expectedCommas ≠ -1 := by rw [hexp]; omega
  rw [processRawLine_eq a line hset] at hr
  rw [dataEvents_cons]
  have hnil : dataEvents n [] = [] := rfl
  rw [hnil, List.append_nil]
  by_cases hc : commaCount line = n
  · have hc' : ¬ ((commaCount line : Int) ≠ a.expectedCommas) := by
      rw [hexp, hc]; simp
    rw [if_neg hc'] at hr
    rw [if_pos hc]
    cases hev : lineEvent line with
    | none =>
      rw [hev] at hr
      simp only at hr
      rw [← Option.some.inj hr]
      simpa using And.intro tr hexp
    | some ev =>
      obtain ⟨z, h⟩ := ev
      rw [hev] at hr
      simp only at hr
      obtain ⟨_, _, hh, _⟩ := lineEvent_some line z h hev
      obtain ⟨tr', he'⟩ := applyEvent_tracks a a' evs z h tr hh hr
      exact ⟨tr', by rw [he', hexp]⟩
  · have hc' : (commaCount line : Int) ≠ a.expectedCommas := by
      rw [hexp]
      intro hcon
      exact hc (by exact_mod_cast hcon)
    rw [if_pos hc'] at hr
    rw [if_neg hc]
    rw [← Option.some.inj hr]
    simpa using And.intro tr hexp

theorem processRawLine_total (a : TripAnalyzer) (evs : List (List Byte × Nat)) (n : Nat)
    (line : List Byte) (tr : Tracks a evs) (hexp : a.expectedCommas = (n : Int))
    (hroom : distinctZones (evs ++ dataEvents n [line]) ≤ 89478485) :
    ∃ a', processRawLine a line = some a' := by
  have hset : a.expectedCommas ≠ -1 := by rw [hexp]; omega
  rw [processRawLine_eq a line hset]
  rw [dataEvents_cons] at hroom
  by_cases hc : commaCount line = n
  · have hc' : ¬ ((commaCount line : Int) ≠ a.expectedCommas) := by
      rw [hexp, hc]; simp
    rw [if_neg hc']
    rw [if_pos hc] at hroom
    cases hev : lineEvent line with
    | none => exact ⟨a, rfl⟩
    | some ev =>
      obtain ⟨z, h⟩ := ev
      rw [hev] at hroom
      obtain ⟨_, _, hh, _⟩ := lineEvent_some line z h hev
      exact applyEvent_total a evs z h tr hh (by simpa [dataEvents] using hroom)
  · have hc' : (commaCount line : Int) ≠ a.expectedCommas := by
      rw [hexp]
      intro hcon
      exact hc (by exact_mod_cast hcon)
    rw [if_pos hc']
    exact ⟨a, rfl⟩

theorem dataEvents_append (n : Nat) (l1 l2 : List (List Byte)) :
    dataEvents n (l1 ++ l2) = dataEvents n l1 ++ dataEvents n l2 := by
  unfold dataEvents
  rw [List.filterMap_append]

/-- A run of data lines on a tracked state whose header count is `n`: if it
returns, the final state tracks the events of these lines as well. -/
theorem processLines_tracks :
    ∀ (ls : List (List Byte)) (a a' : TripAnalyzer) (evs : List (List Byte × Nat)) (n : Nat),
      Tracks a evs → a.expectedCommas = (n : Int) → processLines a ls = some a' →
      Tracks a' (evs ++ dataEvents n ls) ∧ a'.expectedCommas = (n : Int) := by
  intro ls
  induction ls with
  | nil =>
    intro a a' evs n tr hexp hr
    rw [← Option.some.inj hr]
    simpa [dataEvents] using And.intro tr hexp
  | cons l rest ih =>
    intro a a' evs n tr hexp hr
    simp only [processLines] at hr
    cases h1 : processRawLine a l with
    | none => rw [h1] at hr; exact Option.noConfusion hr
    | some a1 =>
      rw [h1] at hr
      simp only at hr
      obtain ⟨tr1, hexp1⟩ := processRawLine_tracks a a1 evs n l tr hexp h1
      have := ih a1 a' _ n tr1 hexp1 hr
      rw [List.append_assoc, ← dataEvents_append] at this
      exact this

/-- A run of data lines on a tracked state returns as long as the number of
distinct zones stays within what the `int` slot index can address. -/
theorem processLines_total :
    ∀ (ls : List (List Byte)) (a : TripAnalyzer) (evs : List (List Byte × Nat)) (n : Nat),
      Tracks a evs → a.expectedCommas = (n : Int) →
      distinctZones (evs ++ dataEvents n ls) ≤ 89478485 →
      ∃ a', processLines a ls = some a' := by
  intro ls
  induction ls with
  | nil =>
    intro a evs n _ _ _
    exact ⟨a, rfl⟩
  | cons l rest ih =>
    intro a evs n tr hexp hroom
    have hsplit : evs ++ dataEvents n (l :: rest) =
        (evs ++ dataEvents n [l]) ++ dataEvents n rest := by
      rw [List.append_assoc, ← dataEvents_append]
      rfl
    rw [hsplit] at hroom
    have hroom1 : distinctZones (evs ++ dataEvents n [l]) ≤ 89478485 :=
      le_trans (distinctZones_mono _ _) hroom
    obtain ⟨a1, h1⟩ := processRawLine_total a evs n l tr hexp hroom1
    obtain ⟨tr1, hexp1⟩ := processRawLine_tracks a a1 evs n l tr hexp h1
    obtain ⟨a', h'⟩ := ih a1 _ n tr1 hexp1 hroom
    exact ⟨a', by simp only [processLines, h1, h']⟩

/-- An `ingestFile` call on a tracked state: if it returns, the final state
tracks the events of the file as well. -/
theorem ingestFile_tracks (a a' : TripAnalyzer) (evs : List (List Byte × Nat))
    (content : List Byte) (tr : Tracks a evs) (hr : ingestFile a (some content) = some a') :
    Tracks a' (evs ++ fileEvents (chunkLines BUFFER_SIZE content)) := by
  rw [ingestFile_eq] at hr
  cases hl : chunkLines BUFFER_SIZE content with
  | nil =>
    rw [hl] at hr
    rw [← Option.some.inj hr]
    simpa [fileEvents] using (tracks_expected a evs (-1)).2 tr
  | cons first rest =>
    rw [hl] at hr
    have hne : first ≠ [] :=
      chunkLines_ne_nil BUFFER_SIZE content first (by rw [hl]; exact List.mem_cons_self _ _)
    have hhead := processRawLine_header { a with expectedCommas := -1 } first hne rfl
    simp only [processLines, hhead] at hr
    exact (processLines_tracks rest _ a' evs (commaCount first)
      ((tracks_expected a evs _).2 tr) rfl hr).1

/-- An `ingestFile` call on a tracked state returns as long as the number of
distinct zones stays within what the `int` slot index can address. -/
theorem ingestFile_total (a : TripAnalyzer) (evs : List (List Byte × Nat))
    (content : List Byte) (tr : Tracks a evs)
    (hroom : distinctZones (evs ++ fileEvents (chunkLines BUFFER_SIZE content)) ≤ 89478485) :
    ∃ a', ingestFile a (some content) = some a' := by
  rw [ingestFile_eq]
  cases hl : chunkLines BUFFER_SIZE content with
  | nil => exact ⟨_, rfl⟩
  | cons first rest =>
    rw [hl] at hroom
    have hne : first ≠ [] :=
      chunkLines_ne_nil BUFFER_SIZE content first (by rw [hl]; exact List.mem_cons_self _ _)
    have hhead := processRawLine_header { a with expectedCommas := -1 } first hne rfl
    simp only [processLines, hhead]
    exact processLines_total rest _ evs (commaCount first)
      ((tracks_expected a evs _).2 tr) rfl hroom

/-- Every reachable state tracks some list of events. -/
theorem reachable_tracks (a : TripAnalyzer) (hr : Reachable a) : ∃ evs, Tracks a evs := by
  induction hr with
  | init => exact ⟨[], tracks_init⟩
  | ingest a a' file _ hing ih =>
    obtain ⟨evs, tr⟩ := ih
    cases file with
    | none =>
      have : a' = { a with expectedCommas := -1 } := (Option.some.inj hing).symm
      rw [this]
      exact ⟨evs, (tracks_expected a evs _).2 tr⟩
    | some content => exact ⟨_, ingestFile_tracks a a' evs content tr hing⟩

/-! ## The zone report -/

theorem zoneRows_eq (a : TripAnalyzer) (evs : List (List Byte × Nat)) (tr : Tracks a evs) :
    ∀ (l : List Nat), (∀ i, i ∈ l → i < a.zoneMap.entries.length) →
      zoneRows a l = some (l.filterMap (fun i =>
        match a.zoneCountsInternal[i]?, a.zoneMap.entries[i]? with
        | some c, some e => if c > 0 then some { zone := e.name, count := c } else none
        | _, _ => none)) := by
  intro l
  induction l with
  | nil => intro _; rfl
  | cons i rest ih =>
    intro hl
    have hi := hl i (List.mem_cons_self _ _)
    have hrest := ih (fun j hj => hl j (List.mem_cons_of_mem _ hj))
    have he : a.zoneMap.entries[i]? = some a.zoneMap.entries[i] := List.getElem?_eq_getElem hi
    have hc := tr.zcount i _ he
    simp only [zoneRows, FastZoneMap.getName, he, hc, hrest, Option.map_some',
      List.filterMap_cons]
    split <;> rfl

theorem zoneRow_some (a : TripAnalyzer) (i : Nat) (r : ZoneCount)
    (h : (match a.zoneCountsInternal[i]?, a.zoneMap.entries[i]? with
        | some c, some e => if c > 0 then some { zone := e.name, count := c } else none
        | _, _ => none) = some r) :
    ∃ (e : ZoneEntry) (c : Int), a.zoneMap.entries[i]? = some e ∧
      a.zoneCountsInternal[i]? = some c ∧ 0 < c ∧ r = { zone := e.name, count := c } := by
  cases hc : a.zoneCountsInternal[i]? with
  | none => rw [hc] at h; exact Option.noConfusion h
  | some c =>
    cases he : a.zoneMap.entries[i]? with
    | none => rw [hc, he] at h; exact Option.noConfusion h
    | some e =>
      rw [hc, he] at h
      simp only at h
      by_cases hpos : c > 0
      · rw [if_pos hpos] at h
        exact ⟨e, c, rfl, rfl, hpos, (Option.some.inj h).symm⟩
      · rw [if_neg hpos] at h
        exact Option.noConfusion h

theorem mem_zoneRows (a : TripAnalyzer) (r : ZoneCount) :
    r ∈ (List.range a.zoneMap.entries.length).filterMap (fun i =>
        match a.zoneCountsInternal[i]?, a.zoneMap.entries[i]? with
        | some c, some e => if c > 0 then some { zone := e.name, count := c } else none
        | _, _ => none) ↔
      ∃ (i : Nat) (e : ZoneEntry) (c : Int), a.zoneMap.entries[i]? = some e ∧
        a.zoneCountsInternal[i]? = some c ∧ 0 < c ∧ r = { zone := e.name, count := c } := by
  rw [List.mem_filterMap]
  constructor
  · rintro ⟨i, _, hi⟩
    obtain ⟨e, c, he, hc, hpos, hr⟩ := zoneRow_some a i r hi
    exact ⟨i, e, c, he, hc, hpos, hr⟩
  · rintro ⟨i, e, c, he, hc, hpos, hr⟩
    refine ⟨i, List.mem_range.2 (getElem?_lt _ _ _ he), ?_⟩
    rw [hc, he]
    simp only [gt_iff_lt, hpos, if_true, hr]

/-- The rows that `topZones` collects in a tracked state: the call does not
fail, no row occurs twice, and the rows are the records of the interned zones
whose count is above zero. -/
theorem zoneRows_facts (a : TripAnalyzer) (evs : List (List Byte × Nat)) (tr : Tracks a evs) :
    ∃ rows, zoneRows a (List.range a.zoneMap.entries.length) = some rows ∧ rows.Nodup ∧
      ∀ r, r ∈ rows ↔
        ∃ (i : Nat) (e : ZoneEntry) (c : Int), a.zoneMap.entries[i]? = some e ∧
          a.zoneCountsInternal[i]? = some c ∧ 0 < c ∧ r = { zone := e.name, count := c } := by
  refine ⟨_, zoneRows_eq a evs tr (List.range a.zoneMap.entries.length)
    (fun i hi => List.mem_range.1 hi), ?_, mem_zoneRows a⟩
  apply List.Nodup.filterMap _ (List.nodup_range _)
  intro i j r hi hj
  obtain ⟨e, c, he, _, _, hr1⟩ := zoneRow_some a i r hi
  obtain ⟨e', c', he', _, _, hr2⟩ := zoneRow_some a j r hj
  rw [hr1] at hr2
  exact tr.names_distinct i j e e' he he' (congrArg ZoneCount.zone hr2)

/-- C5: in every reachable analyzer state `topZones(0)` returns; its entries
are exactly the records (name, count) of the interned zones whose count is
above zero, no zone name occurs twice, and every entry comes strictly before
the next one: a larger count, or the same count and a smaller name in the
byte-wise order of `std::string`. -/
theorem C5_topZones_complete_and_sorted (a : TripAnalyzer) (hr : Reachable a) :
    ∃ report, topZones a 0 = some report ∧
      (∀ r, r ∈ report ↔
        ∃ (i : Nat) (e : ZoneEntry) (c : Int), a.zoneMap.entries[i]? = some e ∧
          a.zoneCountsInternal[i]? = some c ∧ 0 < c ∧ r = { zone := e.name, count := c }) ∧
      (report.map ZoneCount.zone).Nodup ∧
      List.Chain' (fun x y => x.count > y.count ∨
        (x.count = y.count ∧ strLt x.zone y.zone = true)) report := by
  obtain ⟨evs, tr⟩ := reachable_tracks a hr
  obtain ⟨rows, hrows, hnd, hmem⟩ := zoneRows_facts a evs tr
  have hzone : ∀ x, x ∈ rows → ∀ y, y ∈ rows → x.zone = y.zone → x = y := by
    intro x hx y hy hxy
    obtain ⟨i, e, c, he, hc, _, rfl⟩ := (hmem x).1 hx
    obtain ⟨j, e', c', he', hc', _, rfl⟩ := (hmem y).1 hy
    have hij := tr.names_distinct i j e e' he he' hxy
    subst hij
    rw [he] at he'
    rw [hc] at hc'
    rw [Option.some.inj he', Option.some.inj hc']
  have hperm := stdSort_perm zoneBefore rows
  refine ⟨stdSort zoneBefore rows, ?_, ?_, ?_, ?_⟩
  · unfold topZones FastZoneMap.size
    rw [hrows]
    simp [truncate]
  · intro r
    rw [hperm.mem_iff]
    exact hmem r
  · apply List.Nodup.map_on _ (hperm.nodup_iff.2 hnd)
    intro x hx y hy hxy
    exact hzone x (hperm.mem_iff.1 hx) y (hperm.mem_iff.1 hy) hxy
  · apply List.Pairwise.chain'
    refine (stdSort_pairwise zoneBefore zoneBefore_strict rows hnd).imp ?_
    intro x y hxy
    exact (zoneBefore_iff x y).1 hxy

/-! ## The slot report -/

theorem slotRow_some (a : TripAnalyzer) (z h : Nat) (r : SlotCount) :
    slotRow a z h = some r ↔
      ∃ (e : ZoneEntry) (c : Int), a.zoneMap.entries[z]? = some e ∧
        a.slotCountsInternal[z * 24 + h]? = some c ∧ 0 < c ∧
        r = { zone := e.name, hour := (h : Int), count := c } := by
  unfold slotRow FastZoneMap.getName
  constructor
  · intro hrow
    cases hc : a.slotCountsInternal[z * 24 + h]? with
    | none => rw [hc] at hrow; exact Option.noConfusion hrow
    | some c =>
      cases he : a.zoneMap.entries[z]? with
      | none => rw [hc, he] at hrow; exact Option.noConfusion hrow
      | some e =>
        rw [hc, he] at hrow
        simp only [Option.map_some'] at hrow
        by_cases hpos : c > 0
        · rw [if_pos hpos] at hrow
          exact ⟨e, c, rfl, rfl, hpos, (Option.some.inj hrow).symm⟩
        · rw [if_neg hpos] at hrow
          exact Option.noConfusion hrow
  · rintro ⟨e, c, he, hc, hpos, hr⟩
    rw [hc, he]
    simp only [Option.map_some', gt_iff_lt, hpos, if_true, hr]

theorem mem_slotRows (a : TripAnalyzer) (r : SlotCount) :
    r ∈ slotRows a ↔
      ∃ (z : Nat) (e : ZoneEntry) (h : Nat) (c : Int), a.zoneMap.entries[z]? = some e ∧
        h < 24 ∧ a.slotCountsInternal[z * 24 + h]? = some c ∧ 0 < c ∧
        r = { zone := e.name, hour := (h : Int), count := c } := by
  unfold slotRows FastZoneMap.size
  rw [List.mem_flatMap]
  constructor
  · rintro ⟨z, _, hr⟩
    obtain ⟨h, hh, hrow⟩ := List.mem_filterMap.1 hr
    obtain ⟨e, c, he, hc, hpos, hre⟩ := (slotRow_some a z h r).1 hrow
    exact ⟨z, e, h, c, he, List.mem_range.1 hh, hc, hpos, hre⟩
  · rintro ⟨z, e, h, c, he, hh, hc, hpos, hre⟩
    refine ⟨z, List.mem_range.2 (getElem?_lt _ _ _ he), ?_⟩
    exact List.mem_filterMap.2 ⟨h, List.mem_range.2 hh,
      (slotRow_some a z h r).2 ⟨e, c, he, hc, hpos, hre⟩⟩

theorem slotRows_key (a : TripAnalyzer) (evs : List (List Byte × Nat)) (tr : Tracks a evs)
    (x y : SlotCount) (hx : x ∈ slotRows a) (hy : y ∈ slotRows a)
    (hz : x.zone = y.zone) (hh : x.hour = y.hour) : x = y := by
  obtain ⟨i, e, h, c, he, _, hc, _, rfl⟩ := (mem_slotRows a x).1 hx
  obtain ⟨j, e', h', c', he', _, hc', _, rfl⟩ := (mem_slotRows a y).1 hy
  simp only at hz hh
  have hij := tr.names_distinct i j e e' he he' hz
  have hh' : h = h' := by exact_mod_cast hh
  subst hij
  subst hh'
  rw [he] at he'
  rw [hc] at hc'
  rw [Option.some.inj he', Option.some.inj hc']

theorem slotRows_nodup (a : TripAnalyzer) (evs : List (List Byte × Nat)) (tr : Tracks a evs) :
    (slotRows a).Nodup := by
  unfold slotRows
  rw [List.nodup_flatMap]
  constructor
  · intro z _
    apply List.Nodup.filterMap _ (List.nodup_range _)
    intro h h' r hr hr'
    obtain ⟨_, _, _, _, _, h1⟩ := (slotRow_some a z h r).1 hr
    obtain ⟨_, _, _, _, _, h2⟩ := (slotRow_some a z h' r).1 hr'
    rw [h1] at h2
    have := congrArg SlotCount.hour h2
    simp only at this
    exact_mod_cast this
  · apply (List.nodup_range _).imp_of_mem
    intro z z' _ _ hne
    show List.Disjoint _ _
    intro r hr hr'
    obtain ⟨h, _, hrow⟩ := List.mem_filterMap.1 hr
    obtain ⟨h', _, hrow'⟩ := List.mem_filterMap.1 hr'
    obtain ⟨e, _, he, _, _, h1⟩ := (slotRow_some a z h r).1 hrow
    obtain ⟨e', _, he', _, _, h2⟩ := (slotRow_some a z' h' r).1 hrow'
    rw [h1] at h2
    exact hne (tr.names_distinct z z' e e' he he' (congrArg SlotCount.zone h2))

/-- C6: in every reachable analyzer state the entries of `topBusySlots(0)` are
exactly the records (name, hour, count) of the slots of interned zones whose
count is above zero, no pair (name, hour) occurs twice, and every entry comes
strictly before the next one: a larger count, or the same count and a smaller
zone name, or the same count and name and a smaller hour. -/
theorem C6_topBusySlots_complete_and_sorted (a : TripAnalyzer) (hr : Reachable a) :
    (∀ r, r ∈ topBusySlots a 0 ↔
      ∃ (z : Nat) (e : ZoneEntry) (h : Nat) (c : Int), a.zoneMap.entries[z]? = some e ∧
        h < 24 ∧ a.slotCountsInternal[z * 24 + h]? = some c ∧ 0 < c ∧
        r = { zone := e.name, hour := (h : Int), count := c }) ∧
    ((topBusySlots a 0).map (fun r => (r.zone, r.hour))).Nodup ∧
    List.Chain' (fun x y => x.count > y.count ∨
      (x.count = y.count ∧
        (strLt x.zone y.zone = true ∨ (x.zone = y.zone ∧ x.hour < y.hour))))
      (topBusySlots a 0) := by
  obtain ⟨evs, tr⟩ := reachable_tracks a hr
  have hrep : topBusySlots a 0 = stdSort slotBefore (slotRows a) := by
    simp [topBusySlots, truncate]
  have hperm := stdSort_perm slotBefore (slotRows a)
  have hnd := slotRows_nodup a evs tr
  rw [hrep]
  refine ⟨?_, ?_, ?_⟩
  · intro r
    rw [hperm.mem_iff]
    exact mem_slotRows a r
  · apply List.Nodup.map_on _ (hperm.nodup_iff.2 hnd)
    intro x hx y hy hxy
    have h1 : x.zone = y.zone := congrArg Prod.fst hxy
    have h2 : x.hour = y.hour := congrArg Prod.snd hxy
    exact slotRows_key a evs tr x y (hperm.mem_iff.1 hx) (hperm.mem_iff.1 hy) h1 h2
  · apply List.Pairwise.chain'
    refine (stdSort_pairwise slotBefore slotBefore_strict (slotRows a) hnd).imp ?_
    intro x y hxy
    exact (slotBefore_iff x y).1 hxy

/-- The hypothesis of C5 holds for the state reached by ingesting the dated
example file into a fresh analyzer. -/
theorem C5_topZones_complete_and_sorted_witness :
    ∃ a, ingestFile TripAnalyzer.init (some datedExampleFile) = some a ∧ Reachable a ∧
      ∃ report, topZones a 0 = some report ∧
        (∀ r, r ∈ report ↔
          ∃ (i : Nat) (e : ZoneEntry) (c : Int), a.zoneMap.entries[i]? = some e ∧
            a.zoneCountsInternal[i]? = some c ∧ 0 < c ∧ r = { zone := e.name, count := c }) ∧
        (report.map ZoneCount.zone).Nodup ∧
        List.Chain' (fun x y => x.count > y.count ∨
          (x.count = y.count ∧ strLt x.zone y.zone = true)) report :=
  (Option.isSome_iff_exists.1
    (by decide : (ingestFile TripAnalyzer.init (some datedExampleFile)).isSome = true)).elim
    (fun a ha => ⟨a, ha, Reachable.ingest _ _ _ Reachable.init ha,
      C5_topZones_complete_and_sorted a (Reachable.ingest _ _ _ Reachable.init ha)⟩)

/-- The hypothesis of C6 holds for the state reached by ingesting the dated
example file into a fresh analyzer. -/
theorem C6_topBusySlots_complete_and_sorted_witness :
    ∃ a, ingestFile TripAnalyzer.init (some datedExampleFile) = some a ∧ Reachable a ∧
      (∀ r, r ∈ topBusySlots a 0 ↔
        ∃ (z : Nat) (e : ZoneEntry) (h : Nat) (c : Int), a.zoneMap.entries[z]? = some e ∧
          h < 24 ∧ a.slotCountsInternal[z * 24 + h]? = some c ∧ 0 < c ∧
          r = { zone := e.name, hour := (h : Int), count := c }) ∧
      ((topBusySlots a 0).map (fun r => (r.zone, r.hour))).Nodup ∧
      List.Chain' (fun x y => x.count > y.count ∨
        (x.count = y.count ∧
          (strLt x.zone y.zone = true ∨ (x.zone = y.zone ∧ x.hour < y.hour))))
        (topBusySlots a 0) :=
  (Option.isSome_iff_exists.1
    (by decide : (ingestFile TripAnalyzer.init (some datedExampleFile)).isSome = true)).elim
    (fun a ha => ⟨a, ha, Reachable.ingest _ _ _ Reachable.init ha,
      C6_topBusySlots_complete_and_sorted a (Reachable.ingest _ _ _ Reachable.init ha)⟩)

/-! ## Reported zone counts -/

theorem filter_unique {α : Type} (p : α → Bool) (x : α) :
    ∀ (l : List α), l.Nodup → x ∈ l → p x = true → (∀ y, y ∈ l → p y = true → y = x) →
      l.filter p = [x] := by
  intro l
  induction l with
  | nil => intro _ hx; exact absurd hx (List.not_mem_nil _)
  | cons y ys ih =>
    intro hnd hx hpx huniq
    have hnd' := List.nodup_cons.1 hnd
    by_cases hyx : y = x
    · subst hyx
      rw [List.filter_cons_of_pos hpx]
      congr 1
      rw [List.filter_eq_nil_iff]
      intro z hz hpz
      have := huniq z (List.mem_cons_of_mem _ hz) hpz
      rw [this] at hz
      exact hnd'.1 hz
    · have hpy : ¬ p y = true := fun hpy => hyx (huniq y (List.mem_cons_self _ _) hpy)
      rw [List.filter_cons_of_neg hpy]
      have hx' : x ∈ ys := by
        rcases List.mem_cons.1 hx with h | h
        · exact absurd h.symm hyx
        · exact h
      exact ih hnd'.2 hx' hpx (fun z hz hpz => huniq z (List.mem_cons_of_mem _ hz) hpz)

theorem zoneEvents_pos (evs : List (List Byte × Nat)) (z : List Byte)
    (h : 0 < zoneEvents evs z) : ∃ ev, ev ∈ evs ∧ ev.1 = z := by
  unfold zoneEvents at h
  obtain ⟨ev, hev, hp⟩ := List.countP_pos_iff.1 h
  exact ⟨ev, hev, by simpa using hp⟩

theorem slotEvents_pos (evs : List (List Byte × Nat)) (z : List Byte) (hour : Nat)
    (h : 0 < slotEvents evs z hour) : ∃ ev, ev ∈ evs ∧ ev.1 = z := by
  unfold slotEvents at h
  obtain ⟨ev, hev, hp⟩ := List.countP_pos_iff.1 h
  exact ⟨ev, hev, by simp at hp; exact hp.1⟩

/-- The rows collected by `topZones` in a tracked state (its report is a
rearrangement of them): one row per zone that has events, with their number. -/
theorem tracked_zone_report (a : TripAnalyzer) (evs : List (List Byte × Nat))
    (tr : Tracks a evs) :
    ∃ report, topZones a 0 = some report ∧ report.Nodup ∧
      ∀ r, r ∈ report ↔ (0 < zoneEvents evs r.zone ∧ r.count = (zoneEvents evs r.zone : Int)) := by
  obtain ⟨rows, hrows, hnd0, hmem⟩ := zoneRows_facts a evs tr
  have hperm := stdSort_perm zoneBefore rows
  refine ⟨stdSort zoneBefore rows, ?_, hperm.nodup_iff.2 hnd0, ?_⟩
  · unfold topZones FastZoneMap.size
    rw [hrows]
    simp [truncate]
  · intro r
    rw [hperm.mem_iff, hmem]
    constructor
    · rintro ⟨i, e, c, he, hc, hpos, rfl⟩
      have := tr.zcount i e he
      rw [hc] at this
      have hceq := Option.some.inj this
      simp only
      constructor
      · have : (0 : Int) < (zoneEvents evs e.name : Int) := by rw [← hceq]; exact hpos
        exact_mod_cast this
      · exact hceq
    · rintro ⟨hpos, hcount⟩
      obtain ⟨ev, hev, hz⟩ := zoneEvents_pos evs r.zone hpos
      obtain ⟨i, e, he, hn⟩ := tr.complete ev hev
      have hname : e.name = r.zone := by rw [hn, hz]
      refine ⟨i, e, r.count, he, ?_, ?_, ?_⟩
      · rw [tr.zcount i e he, hname, hcount]
      · rw [hcount]; exact_mod_cast hpos
      · cases r
        simp only at hname ⊢
        rw [hname]

/-- In a tracked state the count reported for a zone name is the number of
events of that zone. -/
theorem zoneCountOf_tracks (a : TripAnalyzer) (evs : List (List Byte × Nat))
    (tr : Tracks a evs) (name : List Byte) :
    zoneCountOf a name = (zoneEvents evs name : Int) := by
  obtain ⟨report, hrep, hnd, hmem⟩ := tracked_zone_report a evs tr
  unfold zoneCountOf
  rw [hrep]
  simp only
  by_cases hpos : 0 < zoneEvents evs name
  · have hx : ({ zone := name, count := (zoneEvents evs name : Int) } : ZoneCount) ∈ report :=
      (hmem _).2 ⟨hpos, rfl⟩
    rw [filter_unique _ _ report hnd hx (by simp)]
    · simp
    · intro y hy hp
      have hyz : y.zone = name := by simpa using hp
      obtain ⟨_, hc⟩ := (hmem y).1 hy
      cases y
      simp only at hyz hc ⊢
      rw [hyz] at hc
      rw [hyz, hc]
  · have h0 : zoneEvents evs name = 0 := by omega
    have hnil : report.filter (fun r => decide (r.zone = name)) = [] := by
      rw [List.filter_eq_nil_iff]
      intro y hy hp
      have hyz : y.zone = name := by simpa using hp
      obtain ⟨hp', _⟩ := (hmem y).1 hy
      rw [hyz] at hp'
      exact hpos hp'
    rw [hnil, h0]
    rfl

/-! ## Reported slot counts and accumulation across files -/

/-- The rows collected by `topBusySlots` in a tracked state: one row per slot
that has events, with their number. -/
theorem tracked_slot_rows (a : TripAnalyzer) (evs : List (List Byte × Nat))
    (tr : Tracks a evs) (r : SlotCount) :
    r ∈ slotRows a ↔
      ∃ h : Nat, h < 24 ∧ r.hour = (h : Int) ∧ 0 < slotEvents evs r.zone h ∧
        r.count = (slotEvents evs r.zone h : Int) := by
  rw [mem_slotRows]
  constructor
  · rintro ⟨z, e, h, c, he, hh, hc, hpos, rfl⟩
    have := tr.scount z e h he hh
    rw [hc] at this
    have hceq := Option.some.inj this
    refine ⟨h, hh, rfl, ?_, hceq⟩
    have : (0 : Int) < (slotEvents evs e.name h : Int) := by rw [← hceq]; exact hpos
    exact_mod_cast this
  · rintro ⟨h, hh, hhour, hpos, hcount⟩
    obtain ⟨ev, hev, hz⟩ := slotEvents_pos evs r.zone h hpos
    obtain ⟨i, e, he, hn⟩ := tr.complete ev hev
    have hname : e.name = r.zone := by rw [hn, hz]
    refine ⟨i, e, h, r.count, he, hh, ?_, ?_, ?_⟩
    · rw [tr.scount i e h he hh, hname, hcount]
    · rw [hcount]; exact_mod_cast hpos
    · cases r
      simp only at hname hhour ⊢
      rw [hname, hhour]

/-- In a tracked state the count reported for a slot is the number of events
of that zone at that hour. -/
theorem slotCountOf_tracks (a : TripAnalyzer) (evs : List (List Byte × Nat))
    (tr : Tracks a evs) (name : List Byte) (h : Nat) (hh : h < 24) :
    slotCountOf a name h = (slotEvents evs name h : Int) := by
  have hperm := stdSort_perm slotBefore (slotRows a)
  have hnd : (topBusySlots a 0).Nodup := by
    have : topBusySlots a 0 = stdSort slotBefore (slotRows a) := by
      simp [topBusySlots, truncate]
    rw [this]
    exact hperm.nodup_iff.2 (slotRows_nodup a evs tr)
  have hmem : ∀ r, r ∈ topBusySlots a 0 ↔
      ∃ h : Nat, h < 24 ∧ r.hour = (h : Int) ∧ 0 < slotEvents evs r.zone h ∧
        r.count = (slotEvents evs r.zone h : Int) := by
    intro r
    have : topBusySlots a 0 = stdSort slotBefore (slotRows a) := by
      simp [topBusySlots, truncate]
    rw [this, hperm.mem_iff]
    exact tracked_slot_rows a evs tr r
  unfold slotCountOf
  by_cases hpos : 0 < slotEvents evs name h
  · have hx : ({ zone := name, hour := (h : Int), count := (slotEvents evs name h : Int) } :
        SlotCount) ∈ topBusySlots a 0 := (hmem _).2 ⟨h, hh, rfl, hpos, rfl⟩
    rw [filter_unique _ _ (topBusySlots a 0) hnd hx (by simp)]
    · simp
    · intro y hy hp
      have hyz : y.zone = name ∧ y.hour = (h : Int) := by simpa using hp
      obtain ⟨h', _, hh', _, hc⟩ := (hmem y).1 hy
      have heq : h' = h := by
        have := hh'.symm.trans hyz.2
        exact_mod_cast this
      subst heq
      cases y
      simp only at hyz hc ⊢
      rw [hyz.1] at hc
      rw [hyz.1, hyz.2, hc]
  · have h0 : slotEvents evs name h = 0 := by omega
    have hnil : (topBusySlots a 0).filter
        (fun r => decide (r.zone = name ∧ r.hour = (h : Int))) = [] := by
      rw [List.filter_eq_nil_iff]
      intro y hy hp
      have hyz : y.zone = name ∧ y.hour = (h : Int) := by simpa using hp
      obtain ⟨h', _, hh', hp', _⟩ := (hmem y).1 hy
      have heq : h' = h := by
        have := hh'.symm.trans hyz.2
        exact_mod_cast this
      subst heq
      rw [hyz.1] at hp'
      exact hpos hp'
    rw [hnil, h0]
    rfl

theorem zoneEvents_append (e1 e2 : List (List Byte × Nat)) (z : List Byte) :
    zoneEvents (e1 ++ e2) z = zoneEvents e1 z + zoneEvents e2 z := by
  unfold zoneEvents
  exact List.countP_append _ _ _

theorem slotEvents_append (e1 e2 : List (List Byte × Nat)) (z : List Byte) (h : Nat) :
    slotEvents (e1 ++ e2) z h = slotEvents e1 z h + slotEvents e2 z h := by
  unfold slotEvents
  exact List.countP_append _ _ _

/-- Below the limit of the `int` slot index, counters accumulate over calls:
take two file contents whose accepted lines name, together, at most 89478485
distinct zones. Ingesting the first into
a fresh analyzer, the second into another fresh analyzer, and the second into
the analyzer that has ingested the first, all return; after the two calls in a
row the count reported for every zone name and for every (zone name, hour)
slot is the sum of the counts reported after each file alone, each file's
first line being its own header. With twice the same file every count is
doubled. -/
theorem counts_accumulate_below_limit (F1 F2 : List Byte)
    (hroom : distinctZones (fileEvents (chunkLines BUFFER_SIZE F1) ++
      fileEvents (chunkLines BUFFER_SIZE F2)) ≤ 89478485) :
    ∃ a1 a2 a12, ingestFile TripAnalyzer.init (some F1) = some a1 ∧
      ingestFile TripAnalyzer.init (some F2) = some a2 ∧
      ingestFile a1 (some F2) = some a12 ∧
      (∀ name, zoneCountOf a12 name = zoneCountOf a1 name + zoneCountOf a2 name) ∧
      (∀ name h, h < 24 →
        slotCountOf a12 name h = slotCountOf a1 name h + slotCountOf a2 name h) ∧
      (F1 = F2 → (∀ name, zoneCountOf a12 name = 2 * zoneCountOf a1 name) ∧
        (∀ name h, h < 24 → slotCountOf a12 name h = 2 * slotCountOf a1 name h)) := by
  have hroom1 : distinctZones ([] ++ fileEvents (chunkLines BUFFER_SIZE F1)) ≤ 89478485 :=
    le_trans (distinctZones_mono _ _) hroom
  have hroom2 : distinctZones ([] ++ fileEvents (chunkLines BUFFER_SIZE F2)) ≤ 89478485 :=
    le_trans (distinctZones_mono_right _ _) hroom
  obtain ⟨a1, h1⟩ := ingestFile_total TripAnalyzer.init [] F1 tracks_init hroom1
  obtain ⟨a2, h2⟩ := ingestFile_total TripAnalyzer.init [] F2 tracks_init hroom2
  have tr1 := ingestFile_tracks TripAnalyzer.init a1 [] F1 tracks_init h1
  have tr2 := ingestFile_tracks TripAnalyzer.init a2 [] F2 tracks_init h2
  rw [List.nil_append] at tr1 tr2
  obtain ⟨a12, h12⟩ := ingestFile_total a1 _ F2 tr1 hroom
  have tr12 := ingestFile_tracks a1 a12 _ F2 tr1 h12
  have hz : ∀ name, zoneCountOf a12 name = zoneCountOf a1 name + zoneCountOf a2 name := by
    intro name
    rw [zoneCountOf_tracks a12 _ tr12, zoneCountOf_tracks a1 _ tr1, zoneCountOf_tracks a2 _ tr2,
      zoneEvents_append]
    push_cast
    rfl
  have hs : ∀ name h, h < 24 →
      slotCountOf a12 name h = slotCountOf a1 name h + slotCountOf a2 name h := by
    intro name h hh
    rw [slotCountOf_tracks a12 _ tr12 name h hh, slotCountOf_tracks a1 _ tr1 name h hh,
      slotCountOf_tracks a2 _ tr2 name h hh, slotEvents_append]
    push_cast
    rfl
  refine ⟨a1, a2, a12, h1, h2, h12, hz, hs, ?_⟩
  intro heq
  subst heq
  have ha : a2 = a1 := by
    rw [h1] at h2
    exact (Option.some.inj h2).symm
  subst ha
  constructor
  · intro name
    rw [hz name]
    ring
  · intro name h hh
    rw [hs name h hh]
    ring

/-- The dated example file taken twice is below the limit, so every count is
doubled. -/
theorem counts_accumulate_example :
    distinctZones (fileEvents (chunkLines BUFFER_SIZE datedExampleFile) ++
      fileEvents (chunkLines BUFFER_SIZE datedExampleFile)) ≤ 89478485 ∧
    ∃ a1 a2 a12, ingestFile TripAnalyzer.init (some datedExampleFile) = some a1 ∧
      ingestFile TripAnalyzer.init (some datedExampleFile) = some a2 ∧
      ingestFile a1 (some datedExampleFile) = some a12 ∧
      (∀ name, zoneCountOf a12 name = zoneCountOf a1 name + zoneCountOf a2 name) ∧
      (∀ name h, h < 24 →
        slotCountOf a12 name h = slotCountOf a1 name h + slotCountOf a2 name h) ∧
      (datedExampleFile = datedExampleFile →
        (∀ name, zoneCountOf a12 name = 2 * zoneCountOf a1 name) ∧
        (∀ name h, h < 24 → slotCountOf a12 name h = 2 * slotCountOf a1 name h)) :=
  ⟨by decide, counts_accumulate_below_limit datedExampleFile datedExampleFile (by decide)⟩

/-! ## Chunked reading against whole-content splitting -/

theorem splitFrom_ne_nil (buf : List Byte) : ∀ (cur : List Byte), splitFrom cur buf ≠ [] := by
  induction buf with
  | nil => intro cur; simp [splitFrom]
  | cons b bs ih =>
    intro cur
    by_cases hb : b = 10
    · simp [splitFrom, hb]
    · simp only [splitFrom, hb, if_false]
      exact ih _

/-- The first piece starts with the bytes already read. -/
theorem splitFrom_head (buf : List Byte) :
    ∀ (cur : List Byte), ∃ l, l ∈ splitFrom cur buf ∧ cur.length ≤ l.length := by
  induction buf with
  | nil => intro cur; exact ⟨cur, by simp [splitFrom], le_refl _⟩
  | cons b bs ih =>
    intro cur
    by_cases hb : b = 10
    · exact ⟨cur, by simp [splitFrom, hb], le_refl _⟩
    · obtain ⟨l, hl, hlen⟩ := ih (cur ++ [b])
      refine ⟨l, by simp only [splitFrom, hb, if_false]; exact hl, ?_⟩
      simp only [List.length_append, List.length_singleton] at hlen
      omega

/-- Scanning one buffer and going on with what is left is splitting the whole. -/
theorem split_buffer (x : List Byte) :
    ∀ (cur y : List Byte),
      (splitFrom cur (x ++ y)).flatMap emitted =
        (bufferLines cur x).1 ++ (splitFrom (bufferLines cur x).2 y).flatMap emitted := by
  induction x with
  | nil => intro cur y; simp [bufferLines]
  | cons b bs ih =>
    intro cur y
    by_cases hb : b = 10
    · simp only [List.cons_append, splitFrom, bufferLines, hb, if_true, List.flatMap_cons,
        List.append_assoc, List.append_eq]
      rw [ih]
    · simp only [List.cons_append, splitFrom, bufferLines, hb, if_false]
      exact ih _ _

theorem split_buffer_mem (x : List Byte) :
    ∀ (cur y l : List Byte), l ∈ splitFrom (bufferLines cur x).2 y →
      l ∈ splitFrom cur (x ++ y) := by
  induction x with
  | nil => intro cur y l h; simpa [bufferLines] using h
  | cons b bs ih =>
    intro cur y l h
    by_cases hb : b = 10
    · simp only [List.cons_append, splitFrom, bufferLines, hb, if_true] at h ⊢
      exact List.mem_cons_of_mem _ (ih _ _ _ h)
    · simp only [List.cons_append, splitFrom, bufferLines, hb, if_false] at h ⊢
      exact ih _ _ _ h

theorem bufferLines_carry (x : List Byte) :
    ∀ (cur : List Byte), (10 : Byte) ∉ cur → (10 : Byte) ∉ (bufferLines cur x).2 := by
  induction x with
  | nil => intro cur h; simpa [bufferLines] using h
  | cons b bs ih =>
    intro cur h
    by_cases hb : b = 10
    · simp only [bufferLines, hb, if_true]
      exact ih [] (List.not_mem_nil _)
    · simp only [bufferLines, hb, if_false]
      apply ih
      intro hmem
      rcases List.mem_append.1 hmem with h1 | h1
      · exact h h1
      · simp at h1
        exact hb h1.symm

theorem bufferLines_skip (pre : List Byte) (hpre : (10 : Byte) ∉ pre) :
    ∀ (cur x : List Byte), bufferLines cur (pre ++ x) = bufferLines (cur ++ pre) x := by
  induction pre with
  | nil => intro cur x; simp
  | cons b bs ih =>
    intro cur x
    have hb : b ≠ 10 := fun h => hpre (by rw [h]; exact List.mem_cons_self _ _)
    have hbs : (10 : Byte) ∉ bs := fun h => hpre (List.mem_cons_of_mem _ h)
    simp only [List.cons_append, bufferLines, hb, if_false, List.append_eq]
    rw [ih hbs]
    simp

theorem splitFrom_skip (pre : List Byte) (hpre : (10 : Byte) ∉ pre) :
    ∀ (cur x : List Byte), splitFrom cur (pre ++ x) = splitFrom (cur ++ pre) x := by
  induction pre with
  | nil => intro cur x; simp
  | cons b bs ih =>
    intro cur x
    have hb : b ≠ 10 := fun h => hpre (by rw [h]; exact List.mem_cons_self _ _)
    have hbs : (10 : Byte) ∉ bs := fun h => hpre (List.mem_cons_of_mem _ h)
    simp only [List.cons_append, splitFrom, hb, if_false, List.append_eq]
    rw [ih hbs]
    simp

theorem emitted_nil : emitted [] = [] := by
  simp [emitted, stripCR]

/-- The read loop hands over the lines of what is still to be read, as long as
every piece is shorter than the buffer. -/
theorem loopLines_whole (bufSize : Nat) :
    ∀ (fuel : Nat) (carry file : List Byte), file.length < fuel → (10 : Byte) ∉ carry →
      (∀ l, l ∈ splitFrom carry file → l.length < bufSize) →
      ∃ ls c, loopLines bufSize fuel carry file = some (ls, c) ∧
        ls ++ emitted c = (splitFrom carry file).flatMap emitted := by
  intro fuel
  induction fuel with
  | zero => intro carry file h; omega
  | succ fuel ih =>
    intro carry file hfuel hcarry hshort
    have hroom : carry.length < bufSize := by
      obtain ⟨l, hl, hlen⟩ := splitFrom_head file carry
      have := hshort l hl
      omega
    simp only [loopLines]
    by_cases h0 : (file.take (bufSize - carry.length)).length = 0
    · have hfile : file = [] := by
        rw [List.length_take] at h0
        have : file.length = 0 := by omega
        exact List.length_eq_zero.1 this
      subst hfile
      refine ⟨[], carry, by simp, ?_⟩
      simp [splitFrom]
    · have hsplit : file = file.take (bufSize - carry.length) ++
          file.drop (bufSize - carry.length) := (List.take_append_drop _ _).symm
      have hbuf : bufferLines [] (carry ++ file.take (bufSize - carry.length)) =
          bufferLines carry (file.take (bufSize - carry.length)) := by
        rw [bufferLines_skip carry hcarry]
        simp
      have hwhole := split_buffer (file.take (bufSize - carry.length)) carry
        (file.drop (bufSize - carry.length))
      rw [← hsplit] at hwhole
      by_cases hlt : (file.take (bufSize - carry.length)).length < bufSize - carry.length
      · have hrest : file.drop (bufSize - carry.length) = [] := by
          rw [List.length_take] at hlt
          apply List.drop_eq_nil_of_le
          omega
        refine ⟨_, _, by simp only [h0, hlt, if_true, if_false]; rfl, ?_⟩
        rw [hwhole, hrest, hbuf]
        simp [splitFrom]
      · have hlen : (file.drop (bufSize - carry.length)).length < fuel := by
          rw [List.length_drop]
          rw [List.length_take] at h0 hlt
          omega
        have hcarry' := bufferLines_carry (file.take (bufSize - carry.length)) carry hcarry
        have hshort' : ∀ l, l ∈ splitFrom (bufferLines carry
            (file.take (bufSize - carry.length))).2 (file.drop (bufSize - carry.length)) →
            l.length < bufSize := by
          intro l hl
          apply hshort
          have := split_buffer_mem _ carry _ l hl
          rw [← hsplit] at this
          exact this
        obtain ⟨ls, c, hloop, hls⟩ := ih _ _ hlen hcarry' hshort'
        refine ⟨(bufferLines carry (file.take (bufSize - carry.length))).1 ++ ls, c, ?_, ?_⟩
        · simp only [h0, hlt, if_false, hbuf, hloop]
        · rw [hwhole, List.append_assoc, hls]

/-- Reading in chunks hands over the lines of the whole content when every
piece between line feeds is shorter than the buffer. -/
theorem chunkLines_whole (bufSize : Nat) (content : List Byte)
    (hshort : ∀ l, l ∈ splitFrom [] content → l.length < bufSize) :
    chunkLines bufSize content = wholeLines content := by
  obtain ⟨ls, c, hr, hch⟩ := chunkLines_eq bufSize content
  obtain ⟨ls', c', hr', hw⟩ := loopLines_whole bufSize (content.length + 1) [] content
    (by omega) (List.not_mem_nil _) hshort
  rw [hr] at hr'
  have h1 : ls = ls' := congrArg Prod.fst (Option.some.inj hr')
  have h2 : c = c' := congrArg Prod.snd (Option.some.inj hr')
  subst h1
  subst h2
  rw [hch]
  unfold wholeLines
  rw [← hw]
  by_cases hc : c.length > 0
  · simp only [hc, if_true]
  · have : c = [] := List.length_eq_zero.1 (by omega)
    subst this
    simp [emitted_nil]

/-! ## The example of the specification -/

/-- C9, as stated, fails: on the example file of the specification the two
reports are not the ones announced. -/
theorem C9_example_counterexample :
    ¬ ((ingestFile TripAnalyzer.init (some exampleFile)).bind (fun a => topZones a 10) =
          some [{ zone := [65], count := 2 }, { zone := [66], count := 1 }] ∧
        (ingestFile TripAnalyzer.init (some exampleFile)).map (fun a => topBusySlots a 10) =
          some [{ zone := [65], hour := 8, count := 1 }, { zone := [65], hour := 9, count := 1 },
            { zone := [66], hour := 8, count := 1 }]) := by
  decide

/-- C9, amended: on the example file of the specification, whose time fields
hold no space, every data line is dropped (each is rejected) and both reports
are empty; with a date and a space before each time (`1,A,2024-01-01 08:15`,
`2,B,2024-01-01 08:16`, `3,A,2024-01-01 09:00`) the reports are
`topZones(10) = [{A,2},{B,1}]` and
`topBusySlots(10) = [{A,8,1},{A,9,1},{B,8,1}]`. -/
theorem C9_example_amended :
    ((ingestFile TripAnalyzer.init (some exampleFile)).bind (fun a => topZones a 10) = some [] ∧
      (ingestFile TripAnalyzer.init (some exampleFile)).map (fun a => topBusySlots a 10) =
        some [] ∧
      chunkLines BUFFER_SIZE exampleFile =
        [[105, 100, 44, 122, 111, 110, 101, 44, 116, 105, 109, 101],
         [49, 44, 65, 44, 48, 56, 58, 49, 53], [50, 44, 66, 44, 48, 56, 58, 49, 54],
         [51, 44, 65, 44, 48, 57, 58, 48, 48]] ∧
      hourField [49, 44, 65, 44, 48, 56, 58, 49, 53] = none ∧
      hourField [50, 44, 66, 44, 48, 56, 58, 49, 54] = none ∧
      hourField [51, 44, 65, 44, 48, 57, 58, 48, 48] = none) ∧
    ((ingestFile TripAnalyzer.init (some datedExampleFile)).bind (fun a => topZones a 10) =
        some [{ zone := [65], count := 2 }, { zone := [66], count := 1 }] ∧
      (ingestFile TripAnalyzer.init (some datedExampleFile)).map
          (fun a => topBusySlots a 10) =
        some [{ zone := [65], hour := 8, count := 1 }, { zone := [65], hour := 9, count := 1 },
          { zone := [66], hour := 8, count := 1 }]) := by
  decide

/-! ## Files made of plain lines -/

theorem splitFrom_join (lines : List (List Byte)) (h : ∀ l, l ∈ lines → (10 : Byte) ∉ l) :
    splitFrom [] (joinLines [10] lines) = lines ++ [[]] := by
  induction lines with
  | nil => rfl
  | cons l rest ih =>
    have hl := h l (List.mem_cons_self _ _)
    have hrest := ih (fun x hx => h x (List.mem_cons_of_mem _ hx))
    unfold joinLines at hrest ⊢
    rw [List.flatMap_cons, List.append_assoc, splitFrom_skip l hl]
    simp only [List.nil_append, List.singleton_append, splitFrom, if_true, List.cons_append,
      List.append_eq]
    rw [hrest]

theorem emitted_plain (l : List Byte) (hne : l ≠ []) (hcr : l.getLast? ≠ some 13) :
    emitted l = [l] := by
  have hs : stripCR l = l := by simp [stripCR, hcr]
  unfold emitted
  rw [hs]
  have : l.length > 0 := List.length_pos.2 hne
  simp [this]

theorem flatMap_emitted_plain (ls : List (List Byte))
    (h : ∀ l, l ∈ ls → l ≠ [] ∧ l.getLast? ≠ some 13) : ls.flatMap emitted = ls := by
  induction ls with
  | nil => rfl
  | cons l rest ih =>
    have hl := h l (List.mem_cons_self _ _)
    rw [List.flatMap_cons, emitted_plain l hl.1 hl.2,
      ih (fun x hx => h x (List.mem_cons_of_mem _ hx))]
    rfl

/-- The byte ranges handed over for a file made of lines that hold no line
feed, do not end with a carriage return and are shorter than the buffer. -/
theorem chunkLines_join (bufSize : Nat) (hpos : 0 < bufSize) (lines : List (List Byte))
    (h : ∀ l, l ∈ lines → (10 : Byte) ∉ l ∧ l.length < bufSize) :
    chunkLines bufSize (joinLines [10] lines) = lines.flatMap emitted := by
  have hsplit := splitFrom_join lines (fun l hl => (h l hl).1)
  rw [chunkLines_whole bufSize _ (by
    intro l hl
    rw [hsplit] at hl
    rcases List.mem_append.1 hl with h1 | h1
    · exact (h l h1).2
    · have : l = [] := by simpa using h1
      rw [this]
      exact hpos)]
  unfold wholeLines
  rw [hsplit, List.flatMap_append]
  simp [emitted_nil]

theorem chunkLines_nil (bufSize : Nat) : chunkLines bufSize [] = [] := by
  simp [chunkLines, ingestWith, readLoop]

theorem emitted_cr (l : List Byte) : emitted (l ++ [13]) = if l = [] then [] else [l] := by
  have hs : stripCR (l ++ [13]) = l := by simp [stripCR]
  unfold emitted
  rw [hs]
  by_cases hl : l = []
  · simp [hl]
  · have : l.length > 0 := List.length_pos.2 hl
    simp [hl, this]

theorem emitted_lf (l : List Byte) (hcr : l.getLast? ≠ some 13) :
    emitted l = if l = [] then [] else [l] := by
  by_cases hl : l = []
  · simp [hl, emitted_nil]
  · rw [if_neg hl]
    exact emitted_plain l hl hcr

theorem joinLines_crlf (lines : List (List Byte)) :
    joinLines [13, 10] lines = joinLines [10] (lines.map (fun l => l ++ [13])) := by
  unfold joinLines
  induction lines with
  | nil => rfl
  | cons l rest ih =>
    rw [List.flatMap_cons, List.map_cons, List.flatMap_cons, ih]
    simp

/-- The byte ranges handed over for a file made of lines that hold no line
feed, do not end with a carriage return and fit in the buffer with their
terminator: the lines themselves, the empty ones left out. -/
theorem chunkLines_joined (bufSize : Nat) (eol : List Byte) (heol : eol = [10] ∨ eol = [13, 10])
    (lines : List (List Byte))
    (h : ∀ l, l ∈ lines →
      (10 : Byte) ∉ l ∧ l.getLast? ≠ some 13 ∧ (l ++ eol).length ≤ bufSize) :
    chunkLines bufSize (joinLines eol lines) =
      lines.flatMap (fun l => if l = [] then [] else [l]) := by
  rcases heol with he | he
  · subst he
    by_cases hnil : lines = []
    · subst hnil
      have : joinLines [10] [] = [] := rfl
      rw [this, chunkLines_nil]
      rfl
    · obtain ⟨l0, hl0⟩ := List.exists_mem_of_ne_nil lines hnil
      have hpos : 0 < bufSize := by
        have := (h l0 hl0).2.2
        simp only [List.length_append, List.length_singleton] at this
        omega
      rw [chunkLines_join bufSize hpos lines (fun l hl => ⟨(h l hl).1, by
        have := (h l hl).2.2
        simp only [List.length_append, List.length_singleton] at this
        omega⟩)]
      apply List.flatMap_congr
      intro l hl
      exact emitted_lf l (h l hl).2.1
  · subst he
    by_cases hnil : lines = []
    · subst hnil
      have : joinLines [13, 10] [] = [] := rfl
      rw [this, chunkLines_nil]
      rfl
    · obtain ⟨l0, hl0⟩ := List.exists_mem_of_ne_nil lines hnil
      have hpos : 0 < bufSize := by
        have := (h l0 hl0).2.2
        simp only [List.length_append, List.length_cons, List.length_nil] at this
        omega
      rw [joinLines_crlf, chunkLines_join bufSize hpos _ (by
        intro l hl
        obtain ⟨l', hl', rfl⟩ := List.mem_map.1 hl
        have h3 := (h l' hl').2.2
        simp only [List.length_append, List.length_cons, List.length_nil] at h3
        refine ⟨?_, by simp only [List.length_append, List.length_singleton]; omega⟩
        intro hmem
        rcases List.mem_append.1 hmem with h1 | h1
        · exact (h l' hl').1 h1
        · simp at h1), List.flatMap_map]
      apply List.flatMap_congr
      intro l _
      exact emitted_cr l

theorem slotEvents_dataEvents (n : Nat) (z : List Byte) (h : Nat) :
    ∀ (data : List (List Byte)), (∀ l, l ∈ data → commaCount l = n) →
      slotEvents (dataEvents n data) z h =
        data.countP (fun l => decide (lineEvent l = some (z, h))) := by
  intro data
  induction data with
  | nil => intro _; rfl
  | cons l rest ih =>
    intro hall
    have hl := hall l (List.mem_cons_self _ _)
    have hrest := ih (fun x hx => hall x (List.mem_cons_of_mem _ hx))
    rw [dataEvents_cons, slotEvents_append, hrest, List.countP_cons, if_pos hl, Nat.add_comm]
    congr 1
    cases hev : lineEvent l with
    | none => simp [slotEvents]
    | some ev =>
      obtain ⟨z', h'⟩ := ev
      simp only [slotEvents, List.countP_cons, List.countP_nil, Nat.zero_add]
      by_cases heq : z' = z ∧ h' = h
      · simp [heq]
      · have : ¬ ((z', h') = (z, h)) := fun hc => heq ⟨congrArg Prod.fst hc, congrArg Prod.snd hc⟩
        simp [heq, this]

theorem zoneEvents_dataEvents (n : Nat) (z : List Byte) :
    ∀ (data : List (List Byte)), (∀ l, l ∈ data → commaCount l = n) →
      zoneEvents (dataEvents n data) z =
        data.countP (fun l => decide ((lineEvent l).map Prod.fst = some z)) := by
  intro data
  induction data with
  | nil => intro _; rfl
  | cons l rest ih =>
    intro hall
    have hl := hall l (List.mem_cons_self _ _)
    have hrest := ih (fun x hx => hall x (List.mem_cons_of_mem _ hx))
    rw [dataEvents_cons, zoneEvents_append, hrest, List.countP_cons, if_pos hl, Nat.add_comm]
    congr 1
    cases hev : lineEvent l with
    | none => simp [zoneEvents]
    | some ev =>
      obtain ⟨z', h'⟩ := ev
      simp only [zoneEvents, List.countP_cons, List.countP_nil, Nat.zero_add]
      by_cases heq : z' = z
      · simp [heq]
      · simp [heq]

theorem nodup_eq_singleton {α : Type} (l : List α) (x : α) (hnd : l.Nodup)
    (hmem : ∀ r, r ∈ l ↔ r = x) : l = [x] := by
  apply List.perm_singleton.1
  rw [List.perm_ext_iff_of_nodup hnd (List.nodup_singleton x)]
  intro r
  rw [hmem r, List.mem_singleton]

/-! ## Events of a crafted file -/

/-- The events of a file made of a header and of data lines that all stand for
an event of zone `A` at hour 5 or 6. -/
theorem crafted_events (eol : List Byte) (heol : eol = [10] ∨ eol = [13, 10])
    (hdr : List Byte) (data : List (List Byte)) (N M : Nat)
    (hlines : ∀ l, l ∈ hdr :: data →
      (10 : Byte) ∉ l ∧ l.getLast? ≠ some 13 ∧ (l ++ eol).length ≤ BUFFER_SIZE)
    (hdata : ∀ l, l ∈ data → commaCount l = commaCount hdr ∧
      (lineEvent l = some ([65], 5) ∨ lineEvent l = some ([65], 6)))
    (hN : data.countP (fun l => decide (lineEvent l = some ([65], 5))) = N)
    (hM : data.countP (fun l => decide (lineEvent l = some ([65], 6))) = M) :
    ∃ evs, fileEvents (chunkLines BUFFER_SIZE (joinLines eol (hdr :: data))) = evs ∧
      (∀ z, zoneEvents evs z = if z = [65] then N + M else 0) ∧
      (∀ z h, slotEvents evs z h =
        if z = [65] ∧ h = 5 then N else if z = [65] ∧ h = 6 then M else 0) := by
  have hcount : ∀ l, l ∈ data → commaCount l = commaCount hdr := fun l hl => (hdata l hl).1
  have hdne : ∀ l, l ∈ data → l ≠ [] := by
    intro l hl hnil
    rcases (hdata l hl).2 with h | h
    · rw [hnil] at h; exact Option.noConfusion h
    · rw [hnil] at h; exact Option.noConfusion h
  have hplain : data.flatMap (fun l => if l = [] then [] else [l]) = data := by
    clear hN hM hlines hdata hcount
    induction data with
    | nil => rfl
    | cons l rest ih =>
      rw [List.flatMap_cons, if_neg (hdne l (List.mem_cons_self _ _)),
        ih (fun x hx => hdne x (List.mem_cons_of_mem _ hx))]
      rfl
  have hchunk : chunkLines BUFFER_SIZE (joinLines eol (hdr :: data)) =
      (if hdr = [] then [] else [hdr]) ++ data := by
    rw [chunkLines_joined BUFFER_SIZE eol heol (hdr :: data) hlines, List.flatMap_cons, hplain]
  have hev : fileEvents ((if hdr = [] then [] else [hdr]) ++ data) =
      dataEvents (commaCount hdr) data := by
    cases data with
    | nil =>
      by_cases hs : hdr = []
      · simp [hs, fileEvents, dataEvents]
      · simp [hs, fileEvents, dataEvents]
    | cons l rest =>
      have hl := hdata l (List.mem_cons_self _ _)
      have h2 : 2 ≤ commaCount l := by
        rcases hl.2 with h | h
        · exact (lineEvent_some l _ _ h).2.2.2
        · exact (lineEvent_some l _ _ h).2.2.2
      have hne : hdr ≠ [] := by
        intro hnil
        rw [hl.1, hnil] at h2
        simp [commaCount] at h2
      rw [if_neg hne]
      rfl
  refine ⟨dataEvents (commaCount hdr) data, by rw [hchunk, hev], ?_, ?_⟩
  · intro z
    rw [zoneEvents_dataEvents _ z data hcount]
    by_cases hz : z = [65]
    · subst hz
      rw [if_pos rfl, ← hN, ← hM]
      clear hN hM hchunk hev hlines hplain
      induction data with
      | nil => rfl
      | cons l rest ih =>
        have hl := (hdata l (List.mem_cons_self _ _)).2
        have hrest := ih (fun x hx => hdata x (List.mem_cons_of_mem _ hx))
          (fun x hx => hcount x (List.mem_cons_of_mem _ hx))
          (fun x hx => hdne x (List.mem_cons_of_mem _ hx))
        rw [List.countP_cons, List.countP_cons, List.countP_cons, hrest]
        rcases hl with h | h
        · simp [h]
          omega
        · simp [h]
          omega
    · rw [if_neg hz, List.countP_eq_zero]
      intro l hl
      simp only [decide_eq_true_eq]
      rcases (hdata l hl).2 with h | h
      · rw [h]
        simp only [Option.map_some', Option.some.injEq]
        exact fun hc => hz hc.symm
      · rw [h]
        simp only [Option.map_some', Option.some.injEq]
        exact fun hc => hz hc.symm
  · intro z h
    rw [slotEvents_dataEvents _ z h data hcount]
    by_cases h5 : z = [65] ∧ h = 5
    · rw [if_pos h5, h5.1, h5.2, hN]
    · rw [if_neg h5]
      by_cases h6 : z = [65] ∧ h = 6
      · rw [if_pos h6, h6.1, h6.2, hM]
      · rw [if_neg h6, List.countP_eq_zero]
        intro l hl
        simp only [decide_eq_true_eq]
        rcases (hdata l hl).2 with h' | h'
        · rw [h']
          intro hc
          have := Option.some.inj hc
          exact h5 ⟨(congrArg Prod.fst this).symm, (congrArg Prod.snd this).symm⟩
        · rw [h']
          intro hc
          have := Option.some.inj hc
          exact h6 ⟨(congrArg Prod.fst this).symm, (congrArg Prod.snd this).symm⟩

/-! ## Counts of a crafted file -/

/-- C8, amended: take a file made of a header line followed by data lines in any order,
each followed by the same terminator (a line feed, or a carriage return and a
line feed), where every data line has the comma count of the header and stands
for an event of zone `A` at hour 5 or at hour 6, `N` of them at hour 5 and `M`
at hour 6 (the lines hold no line feed, do not end with a carriage return and
fit in the read buffer with their terminator). Ingesting it into a fresh
analyzer returns; `topZones(k)` is, for every `k`, the single entry
`(A, N + M)` (no entry when there is no data line); and for `k ≤ 0` or `k ≥ 2`
the entries of `topBusySlots(k)` are exactly `(A, 5, N)` when `N > 0` and
`(A, 6, M)` when `M > 0`. -/
theorem C8_crafted_file_counts (eol : List Byte) (heol : eol = [10] ∨ eol = [13, 10])
    (hdr : List Byte) (data : List (List Byte)) (N M : Nat)
    (hlines : ∀ l, l ∈ hdr :: data →
      (10 : Byte) ∉ l ∧ l.getLast? ≠ some 13 ∧ (l ++ eol).length ≤ BUFFER_SIZE)
    (hdata : ∀ l, l ∈ data → commaCount l = commaCount hdr ∧
      (lineEvent l = some ([65], 5) ∨ lineEvent l = some ([65], 6)))
    (hN : data.countP (fun l => decide (lineEvent l = some ([65], 5))) = N)
    (hM : data.countP (fun l => decide (lineEvent l = some ([65], 6))) = M) :
    ∃ a, ingestFile TripAnalyzer.init (some (joinLines eol (hdr :: data))) = some a ∧
      (∀ k, topZones a k =
        some (if 0 < N + M then [{ zone := [65], count := ((N + M : Nat) : Int) }] else [])) ∧
      (∀ k : Int, (k ≤ 0 ∨ 2 ≤ k) → ∀ r, r ∈ topBusySlots a k ↔
        ((0 < N ∧ r = { zone := [65], hour := 5, count := (N : Int) }) ∨
         (0 < M ∧ r = { zone := [65], hour := 6, count := (M : Int) }))) := by
  obtain ⟨evs, hevs, hz, hs⟩ := crafted_events eol heol hdr data N M hlines hdata hN hM
  have hdz : distinctZones ([] ++ evs) ≤ 89478485 := by
    have hsub : (evs.map Prod.fst).toFinset ⊆ {[65]} := by
      intro z hzmem
      rw [List.mem_toFinset, List.mem_map] at hzmem
      obtain ⟨ev, hev, hfst⟩ := hzmem
      have hpos : 0 < zoneEvents evs z := by
        unfold zoneEvents
        exact List.countP_pos_iff.2 ⟨ev, hev, by simpa using hfst⟩
      rw [hz z] at hpos
      by_cases hza : z = [65]
      · simp [hza]
      · rw [if_neg hza] at hpos
        omega
    have := Finset.card_le_card hsub
    rw [List.nil_append]
    unfold distinctZones
    rw [← List.card_toFinset]
    simp only [Finset.card_singleton] at this
    omega
  rw [← hevs] at hdz
  obtain ⟨a, ha⟩ := ingestFile_total TripAnalyzer.init [] _ tracks_init hdz
  have tr := ingestFile_tracks TripAnalyzer.init a [] _ tracks_init ha
  rw [List.nil_append, hevs] at tr
  refine ⟨a, ha, ?_, ?_⟩
  · intro k
    obtain ⟨report, hrep, hnd, hmem⟩ := tracked_zone_report a evs tr
    have hreport : report =
        if 0 < N + M then [{ zone := [65], count := ((N + M : Nat) : Int) }] else [] := by
      by_cases hpos : 0 < N + M
      · rw [if_pos hpos]
        apply nodup_eq_singleton report _ hnd
        intro r
        rw [hmem r, hz r.zone]
        constructor
        · rintro ⟨h1, h2⟩
          by_cases hza : r.zone = [65]
          · rw [if_pos hza] at h2
            cases r
            simp only at hza h2
            rw [hza, h2]
          · rw [if_neg hza] at h1
            omega
        · intro hr
          rw [hr]
          simp only [if_true]
          exact ⟨hpos, trivial⟩
      · rw [if_neg hpos]
        apply List.eq_nil_iff_forall_not_mem.2
        intro r hr
        have := (hmem r).1 hr
        rw [hz r.zone] at this
        by_cases hza : r.zone = [65]
        · rw [if_pos hza] at this
          omega
        · rw [if_neg hza] at this
          omega
    rw [topZones_truncate, hrep, hreport]
    by_cases hpos : 0 < N + M
    · by_cases hk : k > 0
      · have : k.toNat ≥ 1 := by omega
        simp only [Option.map_some', hpos, hk, if_true]
        rw [List.take_of_length_le (by simpa using this)]
      · simp only [Option.map_some', hpos, hk, if_true, if_false]
    · by_cases hk : k > 0
      · simp only [Option.map_some', hpos, hk, if_true, if_false, List.take_nil]
      · simp only [Option.map_some', hpos, hk, if_false]
  · intro k hk r
    have hperm := stdSort_perm slotBefore (slotRows a)
    have hrep0 : topBusySlots a 0 = stdSort slotBefore (slotRows a) := by
      simp [topBusySlots, truncate]
    have hmem0 : ∀ r, r ∈ topBusySlots a 0 ↔
        ((0 < N ∧ r = { zone := [65], hour := 5, count := (N : Int) }) ∨
         (0 < M ∧ r = { zone := [65], hour := 6, count := (M : Int) })) := by
      intro r
      rw [hrep0, hperm.mem_iff, tracked_slot_rows a evs tr r]
      constructor
      · rintro ⟨h, _, hhour, hpos, hcount⟩
        rw [hs r.zone h] at hpos hcount
        by_cases h5 : r.zone = [65] ∧ h = 5
        · rw [if_pos h5] at hpos hcount
          left
          refine ⟨hpos, ?_⟩
          cases r
          simp only at h5 hhour hcount ⊢
          rw [h5.1, hhour, hcount, h5.2]
          rfl
        · rw [if_neg h5] at hpos hcount
          by_cases h6 : r.zone = [65] ∧ h = 6
          · rw [if_pos h6] at hpos hcount
            right
            refine ⟨hpos, ?_⟩
            cases r
            simp only at h6 hhour hcount ⊢
            rw [h6.1, hhour, hcount, h6.2]
            rfl
          · rw [if_neg h6] at hpos
            omega
      · rintro (⟨hpos, hr⟩ | ⟨hpos, hr⟩)
        · refine ⟨5, by decide, by rw [hr]; rfl, ?_, ?_⟩
          · rw [hr, hs]; simpa using hpos
          · rw [hr, hs]; simp
        · refine ⟨6, by decide, by rw [hr]; rfl, ?_, ?_⟩
          · rw [hr, hs]; simpa using hpos
          · rw [hr, hs]; simp
    have hlen : (topBusySlots a 0).length ≤ 2 := by
      have hnd : (topBusySlots a 0).Nodup := by
        rw [hrep0]
        exact hperm.nodup_iff.2 (slotRows_nodup a evs tr)
      have hsub : topBusySlots a 0 ⊆
          [{ zone := [65], hour := 5, count := (N : Int) },
           { zone := [65], hour := 6, count := (M : Int) }] := by
        intro x hx
        rcases (hmem0 x).1 hx with ⟨_, h⟩ | ⟨_, h⟩
        · rw [h]; simp
        · rw [h]; simp
      exact (List.subperm_of_subset hnd hsub).length_le
    rw [topBusySlots_truncate]
    by_cases hk0 : k > 0
    · rw [if_pos hk0, List.take_of_length_le (by omega)]
      exact hmem0 r
    · rw [if_neg hk0]
      exact hmem0 r

/-- The hypotheses of C8 hold for the header `id,zone,time` and the data lines
`1,A,d 05:10`, `2,A,d 6:00`, `3,A,d 05:59`, ended by a carriage return and a
line feed, with `N = 2` and `M = 1`. -/
theorem C8_crafted_file_counts_witness :
    (([13, 10] : List Byte) = [10] ∨ ([13, 10] : List Byte) = [13, 10]) ∧
    (∀ l, l ∈ ([105, 100, 44, 122, 111, 110, 101, 44, 116, 105, 109, 101] : List Byte) ::
        [[49, 44, 65, 44, 100, 32, 48, 53, 58, 49, 48], [50, 44, 65, 44, 100, 32, 54, 58, 48, 48],
         [51, 44, 65, 44, 100, 32, 48, 53, 58, 53, 57]] →
      (10 : Byte) ∉ l ∧ l.getLast? ≠ some 13 ∧ (l ++ [13, 10]).length ≤ BUFFER_SIZE) ∧
    (∀ l, l ∈ ([[49, 44, 65, 44, 100, 32, 48, 53, 58, 49, 48],
        [50, 44, 65, 44, 100, 32, 54, 58, 48, 48],
        [51, 44, 65, 44, 100, 32, 48, 53, 58, 53, 57]] : List (List Byte)) →
      commaCount l = commaCount [105, 100, 44, 122, 111, 110, 101, 44, 116, 105, 109, 101] ∧
      (lineEvent l = some ([65], 5) ∨ lineEvent l = some ([65], 6))) ∧
    ∃ a, ingestFile TripAnalyzer.init (some (joinLines [13, 10]
        ([105, 100, 44, 122, 111, 110, 101, 44, 116, 105, 109, 101] ::
          [[49, 44, 65, 44, 100, 32, 48, 53, 58, 49, 48],
           [50, 44, 65, 44, 100, 32, 54, 58, 48, 48],
           [51, 44, 65, 44, 100, 32, 48, 53, 58, 53, 57]]))) = some a ∧
      (∀ k, topZones a k =
        some (if 0 < 2 + 1 then [{ zone := [65], count := ((2 + 1 : Nat) : Int) }] else [])) ∧
      (∀ k : Int, (k ≤ 0 ∨ 2 ≤ k) → ∀ r, r ∈ topBusySlots a k ↔
        ((0 < 2 ∧ r = { zone := [65], hour := 5, count := ((2 : Nat) : Int) }) ∨
         (0 < 1 ∧ r = { zone := [65], hour := 6, count := ((1 : Nat) : Int) }))) :=
  ⟨by decide, by decide, by decide,
    C8_crafted_file_counts [13, 10] (by decide)
      [105, 100, 44, 122, 111, 110, 101, 44, 116, 105, 109, 101]
      [[49, 44, 65, 44, 100, 32, 48, 53, 58, 49, 48], [50, 44, 65, 44, 100, 32, 54, 58, 48, 48],
       [51, 44, 65, 44, 100, 32, 48, 53, 58, 53, 57]] 2 1 (by decide) (by decide)
      (by decide) (by decide)⟩

/-! ## Well-formedness whenever `getId` returns -/

namespace FastZoneMap

/-- A table with an empty bucket has fewer entries than buckets: every entry
sits in a bucket of its own, and none of these is the empty one. -/
theorem empty_room (size : Nat) (t : Nat → Int) (es : List ZoneEntry)
    (ok : TableOK size t es) (b : Nat) (hb : b < size) (hemp : t b = -1) :
    es.length < size := by
  classical
  have hbucket : ∀ i, i < es.length → ∃ c, c < size ∧ t c = (i : Int) := by
    intro i hi
    obtain ⟨d, hd, hval, _⟩ := ok.chain i es[i] (List.getElem?_eq_getElem hi)
    exact ⟨_, Nat.mod_lt _ (by omega), hval⟩
  let f : Nat → Nat := fun i =>
    if h : i < es.length then Classical.choose (hbucket i h) else 0
  have hf : ∀ i, i < es.length → f i < size ∧ t (f i) = (i : Int) := by
    intro i h
    have hfi : f i = Classical.choose (hbucket i h) := dif_pos h
    rw [hfi]
    exact Classical.choose_spec (hbucket i h)
  have hcard : (Finset.range es.length).card ≤ ((Finset.range size).erase b).card := by
    apply Finset.card_le_card_of_injOn f
    · intro i hi
      have hi' : i < es.length := by simpa using hi
      obtain ⟨h1, h2⟩ := hf i hi'
      refine Finset.mem_erase.2 ⟨?_, Finset.mem_range.2 h1⟩
      intro hfb
      rw [hfb, hemp] at h2
      omega
    · intro i hi j hj hij
      have hi' : i < es.length := by simpa using hi
      have hj' : j < es.length := by simpa using hj
      have h1 := (hf i hi').2
      have h2 := (hf j hj').2
      have hij' : f i = f j := hij
      rw [hij'] at h1
      omega
  rw [Finset.card_erase_of_mem (by simpa using hb)] at hcard
  simp only [Finset.card_range] at hcard
  omega

/-- A probe that ends at a vacant bucket ends at a bucket of the table that
holds `-1`. -/
theorem probe_vacant_inv (m : FastZoneMap) (str : List Byte) (hash b : Nat) :
    ∀ fuel idx, probe m str hash fuel idx = some (Probe.vacant b) →
      b < m.tableSize ∧ m.table b = -1 := by
  intro fuel
  induction fuel with
  | zero =>
    intro idx h
    simp [probe] at h
  | succ fuel ih =>
    intro idx h
    by_cases hlt : idx < m.tableSize
    · by_cases hemp : m.table idx = -1
      · simp only [probe, hlt, if_true, hemp] at h
        have hb : idx = b := by simpa using h
        rw [← hb]
        exact ⟨hlt, hemp⟩
      · by_cases hneg : m.table idx < 0
        · simp [probe, hlt, hemp, hneg] at h
        · cases he : m.entries[(m.table idx).toNat]? with
          | none => simp [probe, hlt, hemp, hneg, he] at h
          | some e =>
            by_cases hm : e.storedHash = hash ∧ e.name.length = str.length ∧
                e.name.take str.length = str.take str.length
            · simp [probe, hlt, hemp, hneg, he, hm] at h
            · simp only [probe, hlt, if_true, hemp, hneg, if_false, he, hm] at h
              exact ih _ h
    · simp [probe, hlt] at h

/-- The growth test of `getId` returns on every well-formed table. -/
theorem grow_wf (m : FastZoneMap) (wf : WF m) :
    ∃ m1, (if m.entries.length ≥ m.threshold then resize m else some m) = some m1 ∧
      WF m1 ∧ m1.entries = m.entries := by
  by_cases hge : m.entries.length ≥ m.threshold
  · obtain ⟨m1, hres, wf1, hent, _, _⟩ := resize_spec m wf
    exact ⟨m1, by simp only [hge, if_true]; exact hres, wf1, hent⟩
  · exact ⟨m, by simp only [hge, if_false], wf, rfl⟩

/-- Whenever `getId` returns on a well-formed table, the table it leaves is
well-formed, whatever the number of entries. -/
theorem getId_wf (m m' : FastZoneMap) (wf : WF m) (str : List Byte) (hash id : Nat)
    (h : getId m str hash = some (m', id)) : WF m' := by
  by_cases hcap : m.entries.length < 2 ^ 30
  · obtain ⟨m2, id2, hget, wf2, _⟩ := getId_spec m wf hcap str hash
    rw [hget] at h
    have heq := Option.some.inj h
    rw [← (Prod.mk.inj heq).1]
    exact wf2
  · obtain ⟨m1, hgrow, wf1, hent⟩ := grow_wf m wf
    simp only [getId, hgrow] at h
    cases hp : probe m1 str hash m1.tableSize (hash &&& m1.tableMask) with
    | none =>
      rw [hp] at h
      simp at h
    | some r =>
      cases r with
      | found i =>
        rw [hp] at h
        simp only [Option.some.injEq, Prod.mk.injEq] at h
        rw [← h.1]
        exact wf1
      | vacant b =>
        obtain ⟨hb, hemp⟩ := probe_vacant_inv m1 str hash b _ _ hp
        have hroom := empty_room _ _ _ wf1.tab b hb hemp
        obtain ⟨k, hk, hsize⟩ := wf1.pow
        have hle : 2 ^ k ≤ 2 ^ 30 := Nat.pow_le_pow_right (by decide) hk
        rw [hent] at hroom
        omega

/-- Every table that a run of `getId` calls leaves is well-formed. -/
theorem getIds_wf :
    ∀ (calls : List (List Byte × Nat)) (m m' : FastZoneMap) (ids : List Nat), WF m →
      getIds m calls = some (m', ids) → WF m' := by
  intro calls
  induction calls with
  | nil =>
    intro m m' ids wf h
    simp only [getIds, Option.some.injEq, Prod.mk.injEq] at h
    rw [← h.1]
    exact wf
  | cons c rest ih =>
    intro m m' ids wf h
    obtain ⟨s0, h0⟩ := c
    cases hg : getId m s0 h0 with
    | none => simp [getIds, hg] at h
    | some r =>
      obtain ⟨m1, id0⟩ := r
      have wf1 := getId_wf m m1 wf s0 h0 id0 hg
      cases hr : getIds m1 rest with
      | none => simp [getIds, hg, hr] at h
      | some r2 =>
        obtain ⟨m2, ids2⟩ := r2
        simp only [getIds, hg, hr, Option.some.injEq, Prod.mk.injEq] at h
        rw [← h.1]
        exact ih m1 m2 ids2 wf1 hr

end FastZoneMap

/-! ## Table shape and probe termination -/

namespace FastZoneMap

/-- On a well-formed table with fewer entries than buckets the probe loop of
`getId` ends, for every key and every hash, within as many steps as there are
buckets; more fuel does not change its result. -/
theorem probe_total (m : FastZoneMap) (wf : WF m) (hroom : m.entries.length < m.tableSize)
    (str : List Byte) (hash : Nat) :
    ∃ r, ∀ fuel, m.tableSize ≤ fuel →
      probe m str hash fuel (hash &&& m.tableMask) = some r := by
  obtain ⟨k, hk, hsize⟩ := wf.pow
  have hstart : hash &&& m.tableMask = (hash + 0) % m.tableSize := by
    rw [wf.mask, hsize, start_mask]
  by_cases hex : ∃ (i : Nat) (e : ZoneEntry), m.entries[i]? = some e ∧
      e.storedHash = hash ∧ e.name = str
  · obtain ⟨i, e, hie, hh, hn⟩ := hex
    obtain ⟨d, hd, hval, hocc⟩ := wf.tab.chain i e hie
    rw [hh] at hval hocc
    refine ⟨Probe.found i, fun fuel hfuel => ?_⟩
    rw [hstart]
    exact probe_found m wf str hash i d e hie hn hh hval hocc fuel 0 (Nat.zero_le _) (by omega)
  · have hnone : ∀ (i : Nat) (e : ZoneEntry), m.entries[i]? = some e →
        ¬ (e.storedHash = hash ∧ e.name = str) := fun i e hie hm => hex ⟨i, e, hie, hm⟩
    obtain ⟨d, hd, hemp, hocc⟩ := first_empty m.tableSize m.table m.entries wf.tab hroom hash
    refine ⟨Probe.vacant ((hash + d) % m.tableSize), fun fuel hfuel => ?_⟩
    rw [hstart]
    exact probe_vacant m wf str hash d hnone hemp hocc fuel 0 (Nat.zero_le _) (by omega)

/-- C15: in every table state that a run of `getId` calls on the constructor's
table leaves, the capacity is a power of two (at most `2^30`), the mask is the
capacity minus one and the threshold is half the capacity; and while the
capacity is below its cap of `2^30` buckets, the number of entries is at most
half the capacity. -/
theorem C15_table_shape (calls : List (List Byte × Nat)) (m : FastZoneMap) (ids : List Nat)
    (hrun : getIds init calls = some (m, ids)) :
    (∃ k, k ≤ 30 ∧ m.tableSize = 2 ^ k) ∧
    m.tableMask = m.tableSize - 1 ∧
    m.threshold = m.tableSize / 2 ∧
    (m.tableSize < 2 ^ 30 → m.entries.length ≤ m.tableSize / 2) := by
  have wf := getIds_wf calls init m ids wf_init hrun
  refine ⟨wf.pow, wf.mask, wf.thr, fun hlt => ?_⟩
  rcases wf.load with h | h
  · rw [← wf.thr]
    exact h
  · omega

/-- The hypothesis of C15 holds for the calls "A", "B", "A". -/
theorem C15_table_shape_witness :
    ∃ m ids, getIds init [([65], 7), ([66], 7), ([65], 7)] = some (m, ids) ∧
      (∃ k, k ≤ 30 ∧ m.tableSize = 2 ^ k) ∧
      m.tableMask = m.tableSize - 1 ∧
      m.threshold = m.tableSize / 2 ∧
      (m.tableSize < 2 ^ 30 → m.entries.length ≤ m.tableSize / 2) :=
  (Option.isSome_iff_exists.1
    (by decide : (getIds init [([65], 7), ([66], 7), ([65], 7)]).isSome = true)).elim
    (fun r hr => ⟨r.1, r.2, hr, C15_table_shape _ r.1 r.2 hr⟩)

/-- C20: in every table state that a run of `getId` calls on the constructor's
table leaves with a capacity below the cap of `2^30` buckets: the entries fill
at most half of the buckets, so some bucket holds `-1`; every bucket holds `-1`
or an index into `entries`; a masked index is always a bucket of the table; the
probe loop of `getId` ends for every key and every hash within `tableSize`
steps (and more fuel gives the same result); the re-insertion loops of `resize`
end, `resize` returning the doubled table; and so `getId` returns for every key
and every hash. -/
theorem C20_probe_terminates (calls : List (List Byte × Nat)) (m : FastZoneMap)
    (ids : List Nat) (hrun : getIds init calls = some (m, ids))
    (hbelow : m.tableSize < 2 ^ 30) :
    (m.entries.length ≤ m.tableSize / 2 ∧ m.tableSize / 2 < m.tableSize) ∧
    (∃ b, b < m.tableSize ∧ m.table b = -1) ∧
    (∀ b, b < m.tableSize →
      m.table b = -1 ∨ (0 ≤ m.table b ∧ (m.table b).toNat < m.entries.length)) ∧
    (∀ idx, idx &&& m.tableMask < m.tableSize) ∧
    (∀ (str : List Byte) (hash : Nat), ∃ r, ∀ fuel, m.tableSize ≤ fuel →
      probe m str hash fuel (hash &&& m.tableMask) = some r) ∧
    (∃ m', resize m = some m' ∧ m'.tableSize = 2 * m.tableSize ∧ m'.entries = m.entries) ∧
    (∀ (str : List Byte) (hash : Nat), ∃ m' id, getId m str hash = some (m', id)) := by
  have wf := getIds_wf calls init m ids wf_init hrun
  obtain ⟨k, hk, hsize⟩ := wf.pow
  have hpos : 0 < m.tableSize := by rw [hsize]; exact Nat.pos_pow_of_pos _ (by decide)
  have hload : m.entries.length ≤ m.tableSize / 2 := by
    rcases wf.load with h | h
    · rw [← wf.thr]
      exact h
    · omega
  have hroom : m.entries.length < m.tableSize := by omega
  refine ⟨⟨hload, by omega⟩, exists_empty _ _ _ wf.tab hroom, wf.tab.valid, ?_,
    probe_total m wf hroom, ?_, ?_⟩
  · intro idx
    rw [wf.mask, hsize, Nat.and_pow_two_sub_one_eq_mod]
    exact Nat.mod_lt _ (Nat.pos_pow_of_pos _ (by decide))
  · obtain ⟨m', hres, _, hent, hdouble, _⟩ := resize_spec m wf
    exact ⟨m', hres, (hdouble hbelow).1, hent⟩
  · intro str hash
    obtain ⟨m', id, hget, _⟩ := getId_spec m wf (by omega) str hash
    exact ⟨m', id, hget⟩

/-- The hypotheses of C20 hold for the calls "A", "B", "A". -/
theorem C20_probe_terminates_witness :
    ∃ m ids, getIds init [([65], 7), ([66], 7), ([65], 7)] = some (m, ids) ∧
      m.tableSize < 2 ^ 30 ∧
      (m.entries.length ≤ m.tableSize / 2 ∧ m.tableSize / 2 < m.tableSize) ∧
      (∃ b, b < m.tableSize ∧ m.table b = -1) ∧
      (∀ b, b < m.tableSize →
        m.table b = -1 ∨ (0 ≤ m.table b ∧ (m.table b).toNat < m.entries.length)) ∧
      (∀ idx, idx &&& m.tableMask < m.tableSize) ∧
      (∀ (str : List Byte) (hash : Nat), ∃ r, ∀ fuel, m.tableSize ≤ fuel →
        probe m str hash fuel (hash &&& m.tableMask) = some r) ∧
      (∃ m', resize m = some m' ∧ m'.tableSize = 2 * m.tableSize ∧ m'.entries = m.entries) ∧
      (∀ (str : List Byte) (hash : Nat), ∃ m' id, getId m str hash = some (m', id)) :=
  (Option.map_eq_some'.1
    (by decide : (getIds init [([65], 7), ([66], 7), ([65], 7)]).map
      (fun r => r.1.tableSize) = some 2097152)).elim
    (fun r hr =>
      have hsize : r.1.tableSize = 2097152 := hr.2
      have hlt : r.1.tableSize < 2 ^ 30 := by rw [hsize]; decide
      ⟨r.1, r.2, hr.1, hlt, C20_probe_terminates _ r.1 r.2 hr.1 hlt⟩)

end FastZoneMap

/-! ## The growth cap -/

namespace FastZoneMap

theorem zeroKeys_length (n : Nat) : (zeroKeys n).length = n := by
  simp only [zeroKeys, List.length_map, List.length_range]

theorem zeroKeys_nodup (n : Nat) : (zeroKeys n).Nodup := by
  unfold zeroKeys
  refine List.Nodup.map ?_ (List.nodup_range n)
  intro i j hij
  have h := congrArg (fun p : List Byte × Nat => p.1.length) hij
  simpa using h

/-- A run of `n` calls with pairwise distinct keys, `n` below `2^30`, returns
and leaves `n` entries. -/
theorem zeroKeys_run (n : Nat) (hn : n < 2 ^ 30) :
    ∃ m ids, getIds init (zeroKeys n) = some (m, ids) ∧ WF m ∧ m.entries.length = n := by
  have hdd : ([] ++ zeroKeys n).dedup.length = n := by
    rw [List.nil_append, (zeroKeys_nodup n).dedup, zeroKeys_length]
  obtain ⟨m, ids, hrun, wf, hd, _, _, _⟩ :=
    getIds_spec (zeroKeys n) [] init wf_init holds_init (by rw [hdd]; exact hn)
  exact ⟨m, ids, hrun, wf, by rw [hd.length_eq wf, hdd]⟩

/-- C16, as stated, fails at capacity `2^30`: after `2^29` calls with pairwise
distinct strings the table has `2^30` buckets and holds as many entries as its
threshold, so the next `getId` calls `resize`; doubling gives `2^31` buckets,
which is within the cap the claim names, yet `resize` leaves the table as it
is. -/
theorem C16_cap_counterexample :
    ∃ m ids, getIds init (zeroKeys (2 ^ 29)) = some (m, ids) ∧
      m.tableSize = 2 ^ 30 ∧ m.threshold ≤ m.entries.length ∧
      2 * m.tableSize ≤ 2 ^ 31 ∧
      resize m = some m ∧
      ¬ ∃ m', resize m = some m' ∧ m'.tableSize = 2 * m.tableSize := by
  obtain ⟨m, ids, hrun, wf, hlen⟩ := zeroKeys_run (2 ^ 29) (by norm_num)
  obtain ⟨k, hk, hsize⟩ := wf.pow
  have hthr := wf.thr
  have hcap : m.tableSize = 2 ^ 30 := by
    rcases wf.load with h | h
    · by_contra hne
      have hk29 : k ≤ 29 := by
        by_contra hcon
        have hk30 : k = 30 := by omega
        rw [hk30] at hsize
        exact hne hsize
      have hle : 2 ^ k ≤ 2 ^ 29 := Nat.pow_le_pow_right (by decide) hk29
      omega
    · exact h
  obtain ⟨m', hres, _, _, _, hat⟩ := resize_spec m wf
  have hsame : resize m = some m := by rw [hres, hat hcap]
  refine ⟨m, ids, hrun, hcap, by omega, by omega, hsame, ?_⟩
  rintro ⟨m2, hres2, hdouble⟩
  rw [hsame] at hres2
  have heq : m = m2 := Option.some.inj hres2
  rw [← heq] at hdouble
  omega

/-- C16, amended: the cap is `2^30` buckets. In every table state that a run
of `getId` calls on the constructor's table leaves: when the doubled capacity
fits an `int` (`2c ≤ 2^31 - 1`, which for these capacities means `c < 2^30`),
`resize` returns the table with capacity `2c`, mask `2c - 1`, threshold `c` and
the same entries; when it does not (`c = 2^30`), `resize` leaves the table
unchanged. -/
theorem C16_growth_doubles_below_cap (calls : List (List Byte × Nat)) (m : FastZoneMap)
    (ids : List Nat) (hrun : getIds init calls = some (m, ids)) :
    (2 * m.tableSize ≤ 0x7FFFFFFF →
      ∃ m', resize m = some m' ∧ m'.tableSize = 2 * m.tableSize ∧
        m'.tableMask = 2 * m.tableSize - 1 ∧ m'.threshold = m.tableSize ∧
        m'.entries = m.entries) ∧
    (0x7FFFFFFF < 2 * m.tableSize → m.tableSize = 2 ^ 30 ∧ resize m = some m) ∧
    (2 * m.tableSize ≤ 0x7FFFFFFF ↔ m.tableSize < 2 ^ 30) := by
  have wf := getIds_wf calls init m ids wf_init hrun
  obtain ⟨k, hk, hsize⟩ := wf.pow
  have hle : 2 ^ k ≤ 2 ^ 30 := Nat.pow_le_pow_right (by decide) hk
  obtain ⟨m', hres, wf', hent, hdouble, hat⟩ := resize_spec m wf
  refine ⟨fun hfit => ?_, fun hover => ?_, by omega⟩
  · have hlt : m.tableSize < 2 ^ 30 := by omega
    have h2 := (hdouble hlt).1
    refine ⟨m', hres, h2, ?_, ?_, hent⟩
    · rw [wf'.mask, h2]
    · rw [wf'.thr, h2]
      omega
  · have hcap : m.tableSize = 2 ^ 30 := by omega
    exact ⟨hcap, by rw [hres, hat hcap]⟩

/-- The hypothesis of the amended C16 holds for the calls "A", "B", "A". -/
theorem C16_growth_doubles_below_cap_witness :
    ∃ m ids, getIds init [([65], 7), ([66], 7), ([65], 7)] = some (m, ids) ∧
      (2 * m.tableSize ≤ 0x7FFFFFFF →
        ∃ m', resize m = some m' ∧ m'.tableSize = 2 * m.tableSize ∧
          m'.tableMask = 2 * m.tableSize - 1 ∧ m'.threshold = m.tableSize ∧
          m'.entries = m.entries) ∧
      (0x7FFFFFFF < 2 * m.tableSize → m.tableSize = 2 ^ 30 ∧ resize m = some m) ∧
      (2 * m.tableSize ≤ 0x7FFFFFFF ↔ m.tableSize < 2 ^ 30) :=
  (Option.isSome_iff_exists.1
    (by decide : (getIds init [([65], 7), ([66], 7), ([65], 7)]).isSome = true)).elim
    (fun r hr => ⟨r.1, r.2, hr, C16_growth_doubles_below_cap _ r.1 r.2 hr⟩)

end FastZoneMap

/-! ## Runs cut at one call -/

namespace FastZoneMap

end FastZoneMap

/-! ## Ids in first-seen order -/

namespace FastZoneMap

end FastZoneMap

/-! ## Chunked reading in the words of the specification -/

/-- The splitting loop is the library splitting at the byte `10`. -/
theorem splitFrom_eq_go (content : List Byte) :
    ∀ (cur : List Byte),
      splitFrom cur content = List.splitOnP.go (fun b => b == 10) content cur.reverse := by
  induction content with
  | nil =>
    intro cur
    simp [splitFrom, List.splitOnP.go]
  | cons b bs ih =>
    intro cur
    by_cases hb : b = 10
    · subst hb
      have h := ih []
      simp only [List.reverse_nil] at h
      simp [splitFrom, List.splitOnP.go, h]
    · have h := ih (cur ++ [b])
      simp only [List.reverse_append, List.reverse_cons, List.reverse_nil, List.nil_append,
        List.singleton_append] at h
      simp [splitFrom, List.splitOnP.go, hb, h]

theorem splitFrom_eq_splitOn (content : List Byte) :
    splitFrom [] content = content.splitOn 10 := by
  rw [splitFrom_eq_go]
  rfl

/-- The lines of a whole content are the lines in the words of the
specification. -/
theorem wholeLines_eq_specLines (content : List Byte) :
    wholeLines content = specLines content := by
  unfold wholeLines specLines
  rw [splitFrom_eq_splitOn]
  induction content.splitOn 10 with
  | nil => rfl
  | cons p ps ih =>
    rw [List.flatMap_cons, ih, List.map_cons, List.filter_cons]
    by_cases hp : p.getLast? = some 13
    · by_cases hd : p.dropLast = []
      · simp [emitted, stripCR, hp, hd]
      · have hlen : 0 < p.dropLast.length := List.length_pos.2 hd
        simp only [emitted, stripCR, hp, if_true, hlen, gt_iff_lt, hd, ne_eq, not_false_eq_true,
          decide_True, List.singleton_append]
    · by_cases hd : p = []
      · simp [emitted, stripCR, hp, hd]
      · have hlen : 0 < p.length := List.length_pos.2 hd
        simp only [emitted, stripCR, hp, if_false, hlen, gt_iff_lt, if_true, hd, ne_eq,
          not_false_eq_true, decide_True, List.singleton_append]

/-- C13: for every buffer size and every content whose pieces between line
feeds are all shorter than the buffer, the byte ranges that the chunked reader
hands to `processRawLine` are, in order, the lines obtained by splitting the
whole content at line feeds, stripping one trailing carriage return from each
piece and skipping the pieces that are then empty; so ingesting the content is
processing these lines in order, and `ingestFile` (buffer of 4 MiB) resets
`expectedCommas` and processes these lines. -/
theorem C13_chunked_reading_is_line_splitting (bufSize : Nat) (content : List Byte)
    (hshort : ∀ piece, piece ∈ content.splitOn 10 → piece.length < bufSize) :
    chunkLines bufSize content = specLines content ∧
    (∀ (a : TripAnalyzer),
      ingestWith bufSize processRawLine a content = processLines a (specLines content)) ∧
    (bufSize = BUFFER_SIZE → ∀ (a : TripAnalyzer),
      ingestFile a (some content) =
        processLines { a with expectedCommas := -1 } (specLines content)) := by
  have hchunk : chunkLines bufSize content = specLines content := by
    rw [← wholeLines_eq_specLines]
    apply chunkLines_whole
    intro l hl
    rw [splitFrom_eq_splitOn] at hl
    exact hshort l hl
  refine ⟨hchunk, fun a => ?_, fun hbuf a => ?_⟩
  · rw [ingestWith_eq, hchunk, processLines_eq_foldlM]
  · rw [ingestFile_eq, ← hbuf, hchunk]

/-- The hypothesis of C13 holds for a buffer of 4 bytes and the content
`x`, LF, `a`, CR, LF, `cd`: the first read ends between the carriage return and
the line feed, and the last line has no line feed. The ranges handed over are
`x`, `a`, `cd`. -/
theorem C13_chunked_reading_is_line_splitting_witness :
    (∀ piece, piece ∈ ([120, 10, 97, 13, 10, 99, 100] : List Byte).splitOn 10 →
      piece.length < 4) ∧
    chunkLines 4 [120, 10, 97, 13, 10, 99, 100] = [[120], [97], [99, 100]] ∧
    (chunkLines 4 [120, 10, 97, 13, 10, 99, 100] =
        specLines [120, 10, 97, 13, 10, 99, 100] ∧
      (∀ (a : TripAnalyzer),
        ingestWith 4 processRawLine a [120, 10, 97, 13, 10, 99, 100] =
          processLines a (specLines [120, 10, 97, 13, 10, 99, 100])) ∧
      (4 = BUFFER_SIZE → ∀ (a : TripAnalyzer),
        ingestFile a (some [120, 10, 97, 13, 10, 99, 100]) =
          processLines { a with expectedCommas := -1 }
            (specLines [120, 10, 97, 13, 10, 99, 100]))) :=
  ⟨by decide, by decide,
    C13_chunked_reading_is_line_splitting 4 [120, 10, 97, 13, 10, 99, 100] (by decide)⟩

/-! ## The hash passed to the interner -/

/-- A line that no rule rejects stands for an event of its zone field. -/
theorem accepted_event (expected : Int) (line : List Byte) (hacc : ¬ Rejected expected line) :
    (commaCount line : Int) = expected ∧
    ∃ hour, lineEvent line = some (zoneField line, hour) ∧ hour ≤ 23 := by
  have h := (rejected_iff expected line).not.1 hacc
  push_neg at h
  obtain ⟨hc, hev⟩ := h
  cases hl : lineEvent line with
  | none => exact absurd hl hev
  | some ev =>
    obtain ⟨z, hour⟩ := ev
    obtain ⟨hz, _, hh, _⟩ := lineEvent_some line z hour hl
    rw [hz]
    exact ⟨hc, hour, rfl, hh⟩

/-- C14: for every line, the hash accumulated by the scanning loop of
`processRawLine` is the 64-bit FNV-1a of the bytes strictly between the 1st and
the 2nd comma: from the seed `0xcbf29ce484222325`, for each of these bytes in
order, `h := ((h xor byte) * 0x100000001b3) mod 2^64`, the byte taken as its
unsigned value. For every accepted line (header set, no rejection rule
applies), `processRawLine` calls `getId` on the zone field with that hash and
then counts the event. -/
theorem C14_zone_hash_is_fnv1a (a : TripAnalyzer) (line : List Byte)
    (hset : a.expectedCommas ≠ -1) (hacc : ¬ Rejected a.expectedCommas line) :
    (scanFrom Scan.start 0 line).zoneHash =
      (zoneField line).foldl (fun h b => ((h ^^^ b.val) * 0x100000001b3) % 2 ^ 64)
        0xcbf29ce484222325 ∧
    ∃ hour, lineEvent line = some (zoneField line, hour) ∧
      processRawLine a line =
        match a.zoneMap.getId (zoneField line)
          ((zoneField line).foldl (fun h b => ((h ^^^ b.val) * 0x100000001b3) % 2 ^ 64)
            0xcbf29ce484222325) with
        | none => none
        | some (zm, zId) => recordEvent a zm zId hour := by
  have hfnv : ∀ (z : List Byte), fnv1a z =
      z.foldl (fun h b => ((h ^^^ b.val) * 0x100000001b3) % 2 ^ 64) 0xcbf29ce484222325 :=
    fun _ => rfl
  refine ⟨?_, ?_⟩
  · rw [scan_line, ← hfnv]
    rfl
  · obtain ⟨hc, hour, hev, _⟩ := accepted_event a.expectedCommas line hacc
    refine ⟨hour, hev, ?_⟩
    rw [processRawLine_eq a line hset, if_neg (not_not.2 hc), hev, ← hfnv]
    rfl

/-- The hypotheses of C14 hold for the line `1,A,d 05:10` after a header with
two commas; the hash passed is the FNV-1a hash of the one byte `A`. -/
theorem C14_zone_hash_is_fnv1a_witness :
    ({ TripAnalyzer.init with expectedCommas := 2 } : TripAnalyzer).expectedCommas ≠ -1 ∧
    ¬ Rejected ({ TripAnalyzer.init with expectedCommas := 2 } : TripAnalyzer).expectedCommas
      [49, 44, 65, 44, 100, 32, 48, 53, 58, 49, 48] ∧
    (scanFrom Scan.start 0 [49, 44, 65, 44, 100, 32, 48, 53, 58, 49, 48]).zoneHash =
      ((0xcbf29ce484222325 ^^^ 65) * 0x100000001b3) % 2 ^ 64 ∧
    ((scanFrom Scan.start 0 [49, 44, 65, 44, 100, 32, 48, 53, 58, 49, 48]).zoneHash =
      (zoneField [49, 44, 65, 44, 100, 32, 48, 53, 58, 49, 48]).foldl
        (fun h b => ((h ^^^ b.val) * 0x100000001b3) % 2 ^ 64) 0xcbf29ce484222325 ∧
    ∃ hour, lineEvent [49, 44, 65, 44, 100, 32, 48, 53, 58, 49, 48] =
        some (zoneField [49, 44, 65, 44, 100, 32, 48, 53, 58, 49, 48], hour) ∧
      processRawLine { TripAnalyzer.init with expectedCommas := 2 }
          [49, 44, 65, 44, 100, 32, 48, 53, 58, 49, 48] =
        match ({ TripAnalyzer.init with expectedCommas := 2 } : TripAnalyzer).zoneMap.getId
          (zoneField [49, 44, 65, 44, 100, 32, 48, 53, 58, 49, 48])
          ((zoneField [49, 44, 65, 44, 100, 32, 48, 53, 58, 49, 48]).foldl
            (fun h b => ((h ^^^ b.val) * 0x100000001b3) % 2 ^ 64) 0xcbf29ce484222325) with
        | none => none
        | some (zm, zId) =>
          recordEvent { TripAnalyzer.init with expectedCommas := 2 } zm zId hour) :=
  ⟨by decide, fun h => absurd ((rejected_iff _ _).1 h) (by decide), by decide,
    C14_zone_hash_is_fnv1a { TripAnalyzer.init with expectedCommas := 2 }
      [49, 44, 65, 44, 100, 32, 48, 53, 58, 49, 48] (by decide)
      (fun h => absurd ((rejected_iff _ _).1 h) (by decide))⟩

/-! ## Reports of permuted events -/

theorem zoneEvents_perm (e1 e2 : List (List Byte × Nat)) (hp : e1.Perm e2) (z : List Byte) :
    zoneEvents e1 z = zoneEvents e2 z :=
  hp.countP_eq _

theorem slotEvents_perm (e1 e2 : List (List Byte × Nat)) (hp : e1.Perm e2) (z : List Byte)
    (h : Nat) : slotEvents e1 z h = slotEvents e2 z h :=
  hp.countP_eq _

theorem distinctZones_perm (e1 e2 : List (List Byte × Nat)) (hp : e1.Perm e2) :
    distinctZones e1 = distinctZones e2 :=
  ((hp.map Prod.fst).dedup).length_eq

/-- The unbounded zone report is the sorted list of the collected rows. -/
theorem topZones_zero (a : TripAnalyzer) (report : List ZoneCount)
    (h : topZones a 0 = some report) :
    ∃ rows, zoneRows a (List.range a.zoneMap.size) = some rows ∧
      report = stdSort zoneBefore rows := by
  unfold topZones at h
  cases hz : zoneRows a (List.range a.zoneMap.size) with
  | none =>
    rw [hz] at h
    exact Option.noConfusion h
  | some rows =>
    rw [hz] at h
    refine ⟨rows, rfl, ?_⟩
    have h2 := Option.some.inj h
    rw [truncate_eq, if_neg (by decide)] at h2
    exact h2.symm

/-- Two states that have counted the same events, in whatever order, give the
same reports. -/
theorem reports_of_perm (a1 a2 : TripAnalyzer) (e1 e2 : List (List Byte × Nat))
    (t1 : Tracks a1 e1) (t2 : Tracks a2 e2) (hp : e1.Perm e2) (k : Int) :
    topZones a1 k = topZones a2 k ∧ topBusySlots a1 k = topBusySlots a2 k := by
  constructor
  · obtain ⟨r1, h1, hnd1, hm1⟩ := tracked_zone_report a1 e1 t1
    obtain ⟨r2, h2, hnd2, hm2⟩ := tracked_zone_report a2 e2 t2
    obtain ⟨rows1, _, hs1⟩ := topZones_zero a1 r1 h1
    obtain ⟨rows2, _, hs2⟩ := topZones_zero a2 r2 h2
    have hperm : r1.Perm r2 := by
      refine (List.perm_ext_iff_of_nodup hnd1 hnd2).2 (fun r => ?_)
      rw [hm1 r, hm2 r, zoneEvents_perm e1 e2 hp]
    have hsorted : List.Pairwise (fun x y => zoneBefore y x = false) r1 := by
      rw [hs1]
      exact stdSort_sorted zoneBefore zoneBefore_strict rows1
    have hr2 : r2.Perm rows2 := by
      rw [hs2]
      exact stdSort_perm zoneBefore rows2
    have heq : r1 = r2 := by
      rw [hs2]
      exact stdSort_unique zoneBefore zoneBefore_strict rows2 r1 (hperm.trans hr2) hsorted
    rw [topZones_truncate a1 k, topZones_truncate a2 k, h1, h2, heq]
  · have hperm : (slotRows a1).Perm (slotRows a2) := by
      refine (List.perm_ext_iff_of_nodup (slotRows_nodup a1 e1 t1)
        (slotRows_nodup a2 e2 t2)).2 (fun r => ?_)
      rw [tracked_slot_rows a1 e1 t1 r, tracked_slot_rows a2 e2 t2 r]
      constructor
      · rintro ⟨h, hh, hr, hpos, hc⟩
        exact ⟨h, hh, hr, by rw [← slotEvents_perm e1 e2 hp]; exact hpos,
          by rw [← slotEvents_perm e1 e2 hp]; exact hc⟩
      · rintro ⟨h, hh, hr, hpos, hc⟩
        exact ⟨h, hh, hr, by rw [slotEvents_perm e1 e2 hp]; exact hpos,
          by rw [slotEvents_perm e1 e2 hp]; exact hc⟩
    have heq : stdSort slotBefore (slotRows a1) = stdSort slotBefore (slotRows a2) :=
      stdSort_unique slotBefore slotBefore_strict (slotRows a2) _
        ((stdSort_perm slotBefore (slotRows a1)).trans hperm)
        (stdSort_sorted slotBefore slotBefore_strict (slotRows a1))
    unfold topBusySlots
    rw [heq]

/-- Empty lines stand for no event. -/
theorem dataEvents_nonempty (n : Nat) (data : List (List Byte)) :
    dataEvents n (data.flatMap (fun l => if l = [] then [] else [l])) = dataEvents n data := by
  induction data with
  | nil => rfl
  | cons l rest ih =>
    rw [List.flatMap_cons, dataEvents_append, ih, dataEvents_cons n l rest]
    by_cases hl : l = []
    · subst hl
      have h0 : lineEvent [] = none := by decide
      simp [dataEvents, h0]
    · rw [if_neg hl]
      have h1 := dataEvents_cons n l []
      rw [h1]
      simp [dataEvents]

/-! ## Reports do not depend on the line order -/

/-- The events of a file made of a non-empty header line and of data lines. -/
theorem joined_events (eol : List Byte) (heol : eol = [10] ∨ eol = [13, 10])
    (hdr : List Byte) (data : List (List Byte)) (hhdr : hdr ≠ [])
    (hlines : ∀ l, l ∈ hdr :: data →
      (10 : Byte) ∉ l ∧ l.getLast? ≠ some 13 ∧ (l ++ eol).length ≤ BUFFER_SIZE) :
    fileEvents (chunkLines BUFFER_SIZE (joinLines eol (hdr :: data))) =
      dataEvents (commaCount hdr) data := by
  rw [chunkLines_joined BUFFER_SIZE eol heol (hdr :: data) hlines, List.flatMap_cons,
    if_neg hhdr]
  show dataEvents (commaCount hdr) _ = _
  exact dataEvents_nonempty _ data

/-- C11, amended: take two files with the same non-empty header line whose data lines
are a permutation of one another, every line followed by the same terminator
(the lines hold no line feed, do not end with a carriage return and fit in the
read buffer with their terminator; the accepted lines name at most 89478485
distinct zones). Ingesting either file into a fresh analyzer returns, and the
two states give the same `topZones(k)` and the same `topBusySlots(k)` for
every `k`. -/
theorem C11_reports_ignore_line_order (eol : List Byte) (heol : eol = [10] ∨ eol = [13, 10])
    (hdr : List Byte) (data1 data2 : List (List Byte)) (hhdr : hdr ≠ [])
    (hperm : data1.Perm data2)
    (hlines : ∀ l, l ∈ hdr :: data1 →
      (10 : Byte) ∉ l ∧ l.getLast? ≠ some 13 ∧ (l ++ eol).length ≤ BUFFER_SIZE)
    (hroom : distinctZones (dataEvents (commaCount hdr) data1) ≤ 89478485) :
    ∃ a1 a2,
      ingestFile TripAnalyzer.init (some (joinLines eol (hdr :: data1))) = some a1 ∧
      ingestFile TripAnalyzer.init (some (joinLines eol (hdr :: data2))) = some a2 ∧
      ∀ k, topZones a1 k = topZones a2 k ∧ topBusySlots a1 k = topBusySlots a2 k := by
  have hlines2 : ∀ l, l ∈ hdr :: data2 →
      (10 : Byte) ∉ l ∧ l.getLast? ≠ some 13 ∧ (l ++ eol).length ≤ BUFFER_SIZE := by
    intro l hl
    apply hlines l
    rcases List.mem_cons.1 hl with h | h
    · rw [h]
      exact List.mem_cons_self _ _
    · exact List.mem_cons_of_mem _ (hperm.mem_iff.2 h)
  have hev1 := joined_events eol heol hdr data1 hhdr hlines
  have hev2 := joined_events eol heol hdr data2 hhdr hlines2
  have hpe : (dataEvents (commaCount hdr) data1).Perm (dataEvents (commaCount hdr) data2) :=
    hperm.filterMap _
  have hroom1 : distinctZones ([] ++ fileEvents (chunkLines BUFFER_SIZE
      (joinLines eol (hdr :: data1)))) ≤ 89478485 := by
    rw [List.nil_append, hev1]
    exact hroom
  have hroom2 : distinctZones ([] ++ fileEvents (chunkLines BUFFER_SIZE
      (joinLines eol (hdr :: data2)))) ≤ 89478485 := by
    rw [List.nil_append, hev2, ← distinctZones_perm _ _ hpe]
    exact hroom
  obtain ⟨a1, h1⟩ := ingestFile_total TripAnalyzer.init [] _ tracks_init hroom1
  obtain ⟨a2, h2⟩ := ingestFile_total TripAnalyzer.init [] _ tracks_init hroom2
  have t1 := ingestFile_tracks TripAnalyzer.init a1 [] _ tracks_init h1
  have t2 := ingestFile_tracks TripAnalyzer.init a2 [] _ tracks_init h2
  rw [List.nil_append, hev1] at t1
  rw [List.nil_append, hev2] at t2
  exact ⟨a1, a2, h1, h2, fun k => reports_of_perm a1 a2 _ _ t1 t2 hpe k⟩

/-- The hypotheses of C11 hold for the header `id,zone,time` with the data
lines `1,B,d 05:10` and `2,A,d 6:00` in both orders, each line ended by a line
feed; the two runs give the ids the other way round (id 0 is `B` in the
first, `A` in the second), and the reports agree. -/
theorem C11_reports_ignore_line_order_witness :
    (([10] : List Byte) = [10] ∨ ([10] : List Byte) = [13, 10]) ∧
    ([105, 100, 44, 122, 111, 110, 101, 44, 116, 105, 109, 101] : List Byte) ≠ [] ∧
    ([[49, 44, 66, 44, 100, 32, 48, 53, 58, 49, 48],
      [50, 44, 65, 44, 100, 32, 54, 58, 48, 48]] : List (List Byte)).Perm
      [[50, 44, 65, 44, 100, 32, 54, 58, 48, 48],
       [49, 44, 66, 44, 100, 32, 48, 53, 58, 49, 48]] ∧
    (∀ l, l ∈ ([105, 100, 44, 122, 111, 110, 101, 44, 116, 105, 109, 101] : List Byte) ::
        [[49, 44, 66, 44, 100, 32, 48, 53, 58, 49, 48],
         [50, 44, 65, 44, 100, 32, 54, 58, 48, 48]] →
      (10 : Byte) ∉ l ∧ l.getLast? ≠ some 13 ∧ (l ++ [10]).length ≤ BUFFER_SIZE) ∧
    distinctZones (dataEvents
      (commaCount [105, 100, 44, 122, 111, 110, 101, 44, 116, 105, 109, 101])
      [[49, 44, 66, 44, 100, 32, 48, 53, 58, 49, 48],
       [50, 44, 65, 44, 100, 32, 54, 58, 48, 48]]) ≤ 89478485 ∧
    (ingestFile TripAnalyzer.init (some (joinLines [10]
      ([105, 100, 44, 122, 111, 110, 101, 44, 116, 105, 109, 101] ::
        [[49, 44, 66, 44, 100, 32, 48, 53, 58, 49, 48],
         [50, 44, 65, 44, 100, 32, 54, 58, 48, 48]])))).map
      (fun a => a.zoneMap.getName 0) = some (some [66]) ∧
    (ingestFile TripAnalyzer.init (some (joinLines [10]
      ([105, 100, 44, 122, 111, 110, 101, 44, 116, 105, 109, 101] ::
        [[50, 44, 65, 44, 100, 32, 54, 58, 48, 48],
         [49, 44, 66, 44, 100, 32, 48, 53, 58, 49, 48]])))).map
      (fun a => a.zoneMap.getName 0) = some (some [65]) ∧
    ∃ a1 a2,
      ingestFile TripAnalyzer.init (some (joinLines [10]
        ([105, 100, 44, 122, 111, 110, 101, 44, 116, 105, 109, 101] ::
          [[49, 44, 66, 44, 100, 32, 48, 53, 58, 49, 48],
           [50, 44, 65, 44, 100, 32, 54, 58, 48, 48]]))) = some a1 ∧
      ingestFile TripAnalyzer.init (some (joinLines [10]
        ([105, 100, 44, 122, 111, 110, 101, 44, 116, 105, 109, 101] ::
          [[50, 44, 65, 44, 100, 32, 54, 58, 48, 48],
           [49, 44, 66, 44, 100, 32, 48, 53, 58, 49, 48]]))) = some a2 ∧
      ∀ k, topZones a1 k = topZones a2 k ∧ topBusySlots a1 k = topBusySlots a2 k :=
  ⟨by decide, by decide, List.Perm.swap _ _ _, by decide, by decide, by decide, by decide,
    C11_reports_ignore_line_order [10] (by decide)
      [105, 100, 44, 122, 111, 110, 101, 44, 116, 105, 109, 101]
      [[49, 44, 66, 44, 100, 32, 48, 53, 58, 49, 48], [50, 44, 65, 44, 100, 32, 54, 58, 48, 48]]
      [[50, 44, 65, 44, 100, 32, 54, 58, 48, 48], [49, 44, 66, 44, 100, 32, 48, 53, 58, 49, 48]]
      (by decide) (List.Perm.swap _ _ _) (by decide) (by decide)⟩

/-! ## States reached line by line -/

theorem dataEvents_single (n : Nat) (line : List Byte) :
    dataEvents n [line] =
      match (if commaCount line = n then lineEvent line else none) with
      | none => []
      | some ev => [ev] := by
  rw [dataEvents_cons]
  cases (if commaCount line = n then lineEvent line else none) with
  | none => rfl
  | some ev => rfl

/-- A state reached by processing lines has counted exactly the events of the
lines it accepted, each of which stands for an event; its `expectedCommas` is
unset or the comma count of a header. -/
theorem processed_tracks (a : TripAnalyzer) (acc : List (List Byte)) (hp : Processed a acc) :
    Tracks a (acc.filterMap lineEvent) ∧
    (∀ l, l ∈ acc → ∃ ev, lineEvent l = some ev) ∧
    (a.expectedCommas = -1 ∨ ∃ n : Nat, a.expectedCommas = (n : Int)) := by
  induction hp with
  | init => exact ⟨tracks_init, fun l hl => by simp at hl, Or.inl rfl⟩
  | reset a acc _ ih =>
    exact ⟨(tracks_expected a _ (-1)).2 ih.1, ih.2.1, Or.inl rfl⟩
  | skip a a' acc line _ hskip hr ih =>
    obtain ⟨tr, hall, hexp⟩ := ih
    rcases hexp with hun | ⟨n, hn⟩
    · by_cases hl : line = []
      · subst hl
        have h0 : processRawLine a [] = some a := rfl
        rw [h0] at hr
        rw [← Option.some.inj hr]
        exact ⟨tr, hall, Or.inl hun⟩
      · rw [processRawLine_header a line hl hun] at hr
        rw [← Option.some.inj hr]
        exact ⟨(tracks_expected a _ _).2 tr, hall, Or.inr ⟨commaCount line, rfl⟩⟩
    · have hrej : Rejected a.expectedCommas line := by
        rcases hskip with h | h
        · rw [hn] at h
          omega
        · exact h
      obtain ⟨tr', hexp'⟩ := processRawLine_tracks a a' _ n line tr hn hr
      have hnone : dataEvents n [line] = [] := by
        rw [dataEvents_single]
        rcases (rejected_iff _ _).1 hrej with h | h
        · rw [hn] at h
          have hne : commaCount line ≠ n := fun hc => h (by rw [hc])
          rw [if_neg hne]
        · rw [h]
          simp
      rw [hnone, List.append_nil] at tr'
      exact ⟨tr', hall, Or.inr ⟨n, hexp'⟩⟩
  | accept a a' acc line _ hset hacc hr ih =>
    obtain ⟨tr, hall, hexp⟩ := ih
    rcases hexp with hun | ⟨n, hn⟩
    · exact absurd hun hset
    · obtain ⟨tr', hexp'⟩ := processRawLine_tracks a a' _ n line tr hn hr
      obtain ⟨hc, hour, hev, _⟩ := accepted_event a.expectedCommas line hacc
      have hcn : commaCount line = n := by
        rw [hn] at hc
        exact_mod_cast hc
      have hone : dataEvents n [line] = [(zoneField line, hour)] := by
        rw [dataEvents_single, if_pos hcn, hev]
      rw [hone] at tr'
      refine ⟨?_, ?_, Or.inr ⟨n, hexp'⟩⟩
      · rw [List.filterMap_append]
        simp only [List.filterMap_cons, hev, List.filterMap_nil]
        exact tr'
      · intro l hl
        rcases List.mem_append.1 hl with h | h
        · exact hall l h
        · rw [List.mem_singleton.1 h]
          exact ⟨_, hev⟩

/-- The events of accepted lines: as many as the lines, with hours below 24. -/
theorem accepted_events (acc : List (List Byte))
    (hall : ∀ l, l ∈ acc → ∃ ev, lineEvent l = some ev) :
    (acc.filterMap lineEvent).length = acc.length ∧
    ∀ ev, ev ∈ acc.filterMap lineEvent → ev.2 < 24 := by
  constructor
  · induction acc with
    | nil => rfl
    | cons l rest ih =>
      obtain ⟨ev, hev⟩ := hall l (List.mem_cons_self _ _)
      simp only [List.filterMap_cons, hev, List.length_cons]
      rw [ih (fun x hx => hall x (List.mem_cons_of_mem _ hx))]
  · intro ev hev
    obtain ⟨l, _, hl⟩ := List.mem_filterMap.1 hev
    obtain ⟨z, h⟩ := ev
    have := (lineEvent_some l z h hl).2.2.1
    show h < 24
    omega

/-- The states that `ingestFile` calls reach are reached by processing
lines. -/
theorem processLines_processed :
    ∀ (ls : List (List Byte)) (a a' : TripAnalyzer) (acc : List (List Byte)),
      Processed a acc → processLines a ls = some a' → ∃ acc', Processed a' acc' := by
  intro ls
  induction ls with
  | nil =>
    intro a a' acc hp h
    simp only [processLines, Option.some.injEq] at h
    rw [← h]
    exact ⟨acc, hp⟩
  | cons l rest ih =>
    intro a a' acc hp h
    cases h1 : processRawLine a l with
    | none => simp [processLines, h1] at h
    | some a1 =>
      simp only [processLines, h1] at h
      by_cases hskip : a.expectedCommas = -1 ∨ Rejected a.expectedCommas l
      · exact ih a1 a' acc (Processed.skip a a1 acc l hp hskip h1) h
      · push_neg at hskip
        exact ih a1 a' _ (Processed.accept a a1 acc l hp hskip.1 hskip.2 h1) h

theorem reachable_processed (a : TripAnalyzer) (hr : Reachable a) :
    ∃ acc, Processed a acc := by
  induction hr with
  | init => exact ⟨[], Processed.init⟩
  | ingest a a' file _ hin ih =>
    obtain ⟨acc, hp⟩ := ih
    cases file with
    | none =>
      have h0 : ingestFile a none = some { a with expectedCommas := -1 } := rfl
      rw [h0] at hin
      rw [← Option.some.inj hin]
      exact ⟨acc, Processed.reset a acc hp⟩
    | some content =>
      rw [ingestFile_eq] at hin
      exact processLines_processed _ _ a' acc (Processed.reset a acc hp) hin

/-! ## Counters in lockstep with the interner -/

/-- The id that `getId` returns on the interner of a tracked state is an index
of an entry or the entry count. -/
theorem getId_le_size (a : TripAnalyzer) (evs : List (List Byte × Nat)) (tr : Tracks a evs)
    (str : List Byte) (hash : Nat) (zm : FastZoneMap) (zId : Nat)
    (hget : a.zoneMap.getId str hash = some (zm, zId)) :
    zId ≤ a.zoneMap.entries.length := by
  have hsmall := tr.small
  obtain ⟨m', id, hget', _, hcase⟩ :=
    FastZoneMap.getId_spec a.zoneMap tr.wf (by omega) str hash
  rw [hget] at hget'
  have hid : zId = id := (Prod.mk.inj (Option.some.inj hget')).2
  rcases hcase with ⟨⟨e, he, _, _⟩, _⟩ | ⟨_, hnew, _⟩
  · have := getElem?_lt _ _ _ he
    omega
  · omega

/-- The increments of `recordEvent` are in bounds once the vectors are in
lockstep with the interner: only the `int` index can make it fail. -/
theorem recordEvent_in_bounds (a : TripAnalyzer) (zm : FastZoneMap) (zId hour : Nat)
    (hz : a.zoneCountsInternal.length = a.zoneMap.entries.length)
    (hs : a.slotCountsInternal.length = 24 * a.zoneMap.entries.length)
    (hid : zId ≤ a.zoneMap.entries.length) (hh : hour < 24) :
    zId < (if zId ≥ a.zoneCountsInternal.length then a.zoneCountsInternal ++ [0]
      else a.zoneCountsInternal).length ∧
    zId * 24 + hour < (if zId ≥ a.zoneCountsInternal.length then
        a.slotCountsInternal ++ List.replicate 24 0
      else a.slotCountsInternal).length ∧
    (zId * 24 + hour ≤ 0x7FFFFFFF → ∃ a', recordEvent a zm zId hour = some a') := by
  have h1 : zId < (if zId ≥ a.zoneCountsInternal.length then a.zoneCountsInternal ++ [0]
      else a.zoneCountsInternal).length := by
    by_cases hg : zId ≥ a.zoneCountsInternal.length
    · rw [if_pos hg, List.length_append, List.length_singleton]
      omega
    · rw [if_neg hg]
      omega
  have h2 : zId * 24 + hour < (if zId ≥ a.zoneCountsInternal.length then
        a.slotCountsInternal ++ List.replicate 24 0
      else a.slotCountsInternal).length := by
    by_cases hg : zId ≥ a.zoneCountsInternal.length
    · rw [if_pos hg, List.length_append, List.length_replicate]
      omega
    · rw [if_neg hg]
      omega
  refine ⟨h1, h2, fun hov => ?_⟩
  have hb1 := bump_of_get _ _ _ (List.getElem?_eq_getElem h1)
  have hb2 := bump_of_get _ _ _ (List.getElem?_eq_getElem h2)
  have hov' : ¬ (zId * 24 + hour > 0x7FFFFFFF) := by omega
  simp only [recordEvent, hov', if_false, decide_eq_true_eq]
  rw [hb1, hb2]
  exact ⟨_, rfl⟩

/-- Lockstep of the counters: in every analyzer state reached by processing
lines, `ZoneCount` has one counter per interned zone and `SlotCount` has 24 per interned zone. So the
reads of the reports are in bounds: every `i < size()` is an index of
`ZoneCount` and of the names, every `z * 24 + h` with `z < size()` and `h < 24`
is an index of `SlotCount`, and `topZones(k)` returns. And the increments of
`processRawLine` are in bounds: whatever id `getId` returns on this state, `zId`
and `zId * 24 + hour` are indices of the two vectors after the conditional
extension, and the aggregation block returns unless the `int` index
overflows. -/
theorem counters_in_lockstep (a : TripAnalyzer) (acc : List (List Byte))
    (hp : Processed a acc) :
    a.zoneCountsInternal.length = a.zoneMap.size ∧
    a.slotCountsInternal.length = 24 * a.zoneMap.size ∧
    (∀ i, i < a.zoneMap.size →
      i < a.zoneCountsInternal.length ∧ ∃ n, a.zoneMap.getName i = some n) ∧
    (∀ z h, z < a.zoneMap.size → h < 24 → z * 24 + h < a.slotCountsInternal.length) ∧
    (∀ k, ∃ report, topZones a k = some report) ∧
    (∀ (str : List Byte) (hash : Nat) (zm : FastZoneMap) (zId hour : Nat),
      a.zoneMap.getId str hash = some (zm, zId) → hour < 24 →
      zId < (if zId ≥ a.zoneCountsInternal.length then a.zoneCountsInternal ++ [0]
        else a.zoneCountsInternal).length ∧
      zId * 24 + hour < (if zId ≥ a.zoneCountsInternal.length then
          a.slotCountsInternal ++ List.replicate 24 0
        else a.slotCountsInternal).length ∧
      (zId * 24 + hour ≤ 0x7FFFFFFF → ∃ a', recordEvent a zm zId hour = some a')) := by
  obtain ⟨tr, _, _⟩ := processed_tracks a acc hp
  have hz := tr.zlen
  have hs := tr.slen
  refine ⟨hz, hs, ?_, ?_, ?_, ?_⟩
  · intro i hi
    have hi' : i < a.zoneMap.entries.length := hi
    refine ⟨by omega, (a.zoneMap.entries[i]).name, ?_⟩
    simp only [FastZoneMap.getName, List.getElem?_eq_getElem hi', Option.map_some']
  · intro z h hz' hh
    have hz'' : z < a.zoneMap.entries.length := hz'
    omega
  · intro k
    obtain ⟨report, h0, _⟩ := tracked_zone_report a _ tr
    rw [topZones_truncate, h0]
    exact ⟨_, rfl⟩
  · intro str hash zm zId hour hget hh
    exact recordEvent_in_bounds a zm zId hour hz hs
      (getId_le_size a _ tr str hash zm zId hget) hh

/-- The state after the header `id,zone,time` is reached by processing
lines. -/
theorem processed_header :
    Processed { TripAnalyzer.init with expectedCommas := 2 } [] :=
  Processed.skip TripAnalyzer.init _ [] [105, 100, 44, 122, 111, 110, 101, 44, 116, 105, 109, 101]
    Processed.init (Or.inl rfl)
    (processRawLine_header TripAnalyzer.init _ (by decide) rfl)

/-- The state after the header `id,zone,time` and the line `1,A,d 05:10` is
reached by processing lines, and has accepted that line. -/
theorem processed_example :
    ∃ a, processRawLine { TripAnalyzer.init with expectedCommas := 2 }
        [49, 44, 65, 44, 100, 32, 48, 53, 58, 49, 48] = some a ∧
      Processed a [[49, 44, 65, 44, 100, 32, 48, 53, 58, 49, 48]] :=
  (Option.isSome_iff_exists.1 (by decide :
    (processRawLine { TripAnalyzer.init with expectedCommas := 2 }
      [49, 44, 65, 44, 100, 32, 48, 53, 58, 49, 48]).isSome = true)).elim
    (fun a ha => ⟨a, ha,
      Processed.accept _ a [] _ processed_header (by decide)
        (fun h => absurd ((rejected_iff _ _).1 h) (by decide)) ha⟩)

/-- The lockstep of the counters in the state after the header `id,zone,time`
and the line `1,A,d 05:10`. -/
theorem counters_in_lockstep_example :
    ∃ a, processRawLine { TripAnalyzer.init with expectedCommas := 2 }
        [49, 44, 65, 44, 100, 32, 48, 53, 58, 49, 48] = some a ∧
      Processed a [[49, 44, 65, 44, 100, 32, 48, 53, 58, 49, 48]] ∧
      a.zoneCountsInternal.length = a.zoneMap.size ∧
      a.slotCountsInternal.length = 24 * a.zoneMap.size ∧
      (∀ i, i < a.zoneMap.size →
        i < a.zoneCountsInternal.length ∧ ∃ n, a.zoneMap.getName i = some n) ∧
      (∀ z h, z < a.zoneMap.size → h < 24 → z * 24 + h < a.slotCountsInternal.length) ∧
      (∀ k, ∃ report, topZones a k = some report) ∧
      (∀ (str : List Byte) (hash : Nat) (zm : FastZoneMap) (zId hour : Nat),
        a.zoneMap.getId str hash = some (zm, zId) → hour < 24 →
        zId < (if zId ≥ a.zoneCountsInternal.length then a.zoneCountsInternal ++ [0]
          else a.zoneCountsInternal).length ∧
        zId * 24 + hour < (if zId ≥ a.zoneCountsInternal.length then
            a.slotCountsInternal ++ List.replicate 24 0
          else a.slotCountsInternal).length ∧
        (zId * 24 + hour ≤ 0x7FFFFFFF → ∃ a', recordEvent a zm zId hour = some a')) :=
  processed_example.elim (fun a h =>
    ⟨a, h.1, h.2, counters_in_lockstep a _ h.2⟩)

/-! ## What one increment changes -/

theorem getD_append_zeros (v : List Int) (n j : Nat) :
    (v ++ List.replicate n 0).getD j 0 = v.getD j 0 := by
  rw [List.getD_eq_getElem?_getD, List.getD_eq_getElem?_getD]
  by_cases hj : j < v.length
  · rw [List.getElem?_append_left hj]
  · rw [List.getElem?_append_right (by omega), List.getElem?_eq_none (l := v) (by omega)]
    by_cases hn : j - v.length < n
    · rw [List.getElem?_replicate, if_pos hn]
      rfl
    · rw [List.getElem?_eq_none (by simp; omega)]

/-- The statement `v[i]++` adds one at index `i` and leaves the rest. -/
theorem bump_getD (v v' : List Int) (i : Nat) (h : bump v i = some v') (j : Nat) :
    v'.getD j 0 = v.getD j 0 + (if j = i then 1 else 0) := by
  obtain ⟨c, hc, hv⟩ := bump_some v v' i h
  have hi := getElem?_lt _ _ _ hc
  rw [hv, List.getD_eq_getElem?_getD, List.getD_eq_getElem?_getD, List.getElem?_set]
  by_cases hji : j = i
  · subst hji
    simp [hi, hc]
  · have hij : ¬ i = j := fun h => hji h.symm
    simp [hji, hij]

/-- What the aggregation block changes: the interner is the one `getId` left,
the counter of the zone and the counter of the slot go up by one, and nothing
else changes (a missing counter reads as zero). -/
theorem recordEvent_counts (a a' : TripAnalyzer) (zm : FastZoneMap) (zId hour : Nat)
    (hr : recordEvent a zm zId hour = some a') :
    a'.zoneMap = zm ∧ a'.expectedCommas = a.expectedCommas ∧
    (∀ i, a'.zoneCountsInternal.getD i 0 =
      a.zoneCountsInternal.getD i 0 + (if i = zId then 1 else 0)) ∧
    (∀ j, a'.slotCountsInternal.getD j 0 =
      a.slotCountsInternal.getD j 0 + (if j = zId * 24 + hour then 1 else 0)) := by
  obtain ⟨_, zc1, sc1, hb1, hb2, ha'⟩ := recordEvent_some a a' zm zId hour hr
  rw [ha']
  refine ⟨rfl, rfl, fun i => ?_, fun j => ?_⟩
  · show zc1.getD i 0 = _
    rw [bump_getD _ _ _ hb1 i]
    by_cases hg : zId ≥ a.zoneCountsInternal.length
    · rw [if_pos hg]
      have h0 : ([0] : List Int) = List.replicate 1 0 := rfl
      rw [h0, getD_append_zeros]
    · rw [if_neg hg]
  · show sc1.getD j 0 = _
    rw [bump_getD _ _ _ hb2 j]
    by_cases hg : zId ≥ a.zoneCountsInternal.length
    · rw [if_pos hg, getD_append_zeros]
    · rw [if_neg hg]

/-- The hour of the event of a line is the value of its hour field. -/
theorem lineEvent_hour (line z : List Byte) (hour : Nat)
    (hev : lineEvent line = some (z, hour)) :
    ∃ field, hourField line = some field ∧ hourValue field = some hour := by
  unfold lineEvent at hev
  by_cases h1 : commaCount line < 2 ∨ zoneField line = []
  · rw [if_pos h1] at hev
    exact Option.noConfusion hev
  · rw [if_neg h1] at hev
    cases hf : hourField line with
    | none =>
      rw [hf] at hev
      exact Option.noConfusion hev
    | some field =>
      rw [hf] at hev
      simp only at hev
      cases hv : hourValue field with
      | none =>
        rw [hv] at hev
        exact Option.noConfusion hev
      | some v =>
        rw [hv] at hev
        by_cases h23 : v ≤ 23
        · simp only [h23, if_true, Option.some.injEq, Prod.mk.injEq] at hev
          exact ⟨field, rfl, by rw [hv, hev.2]⟩
        · simp only [h23, if_false] at hev
          exact Option.noConfusion hev

/-! ## One accepted line -/

/-- Below the limit of the `int` slot index, an accepted line counts once:
take a state reached by processing lines in which a header is set and fewer
than 89478485 zones are interned, and a line that no rejection rule
rejects. Then `processRawLine` returns; the hour is the decimal value of the
hour field (the one or two digits between the first space after the 2nd comma
and the first colon after that space); the zone field (the bytes strictly
between the 1st and the 2nd comma) is interned under its FNV-1a hash and
`getName` of the id is the zone field; the counter `ZoneCount[id]` and the
counter `SlotCount[id * 24 + hour]` go up by one and every other counter keeps
its value (a counter that did not exist before reads as zero); the header's
comma count stays; and the vectors stay in lockstep with the interner. -/
theorem accepted_line_counts_once (a : TripAnalyzer) (acc : List (List Byte))
    (line : List Byte) (hp : Processed a acc) (hset : a.expectedCommas ≠ -1)
    (hacc : ¬ Rejected a.expectedCommas line) (hroom : a.zoneMap.size < 89478485) :
    ∃ field hour zm zId a',
      hourField line = some field ∧ hourValue field = some hour ∧ hour ≤ 23 ∧
      a.zoneMap.getId (zoneField line) (fnv1a (zoneField line)) = some (zm, zId) ∧
      processRawLine a line = some a' ∧
      a'.zoneMap = zm ∧ zm.getName zId = some (zoneField line) ∧
      a'.expectedCommas = a.expectedCommas ∧
      (∀ i, a'.zoneCountsInternal.getD i 0 =
        a.zoneCountsInternal.getD i 0 + (if i = zId then 1 else 0)) ∧
      (∀ j, a'.slotCountsInternal.getD j 0 =
        a.slotCountsInternal.getD j 0 + (if j = zId * 24 + hour then 1 else 0)) ∧
      a'.zoneCountsInternal.length = zm.size ∧
      a'.slotCountsInternal.length = 24 * zm.size := by
  obtain ⟨tr, _, _⟩ := processed_tracks a acc hp
  obtain ⟨hc, hour, hev, h23⟩ := accepted_event a.expectedCommas line hacc
  obtain ⟨field, hfield, hvalue⟩ := lineEvent_hour line _ hour hev
  have hsize : a.zoneMap.entries.length < 89478485 := hroom
  obtain ⟨zm, zId, hget, _, hcase⟩ :=
    FastZoneMap.getId_spec a.zoneMap tr.wf (by omega) (zoneField line) (fnv1a (zoneField line))
  have hle := getId_le_size a _ tr _ _ zm zId hget
  obtain ⟨_, _, hrec⟩ := recordEvent_in_bounds a zm zId hour tr.zlen tr.slen hle (by omega)
  obtain ⟨a', ha'⟩ := hrec (by omega)
  have hline : processRawLine a line = some a' := by
    rw [processRawLine_eq a line hset, if_neg (not_not.2 hc), hev]
    simp only [applyEvent, hget]
    exact ha'
  have hname : zm.getName zId = some (zoneField line) := by
    rcases hcase with ⟨⟨e, he, hn, _⟩, hent⟩ | ⟨_, hid, hent⟩
    · simp only [FastZoneMap.getName, hent, he, Option.map_some', hn]
    · simp only [FastZoneMap.getName, hent, hid]
      rw [List.getElem?_append_right (le_refl _)]
      simp
  obtain ⟨hzm, hexp, hzc, hsc⟩ := recordEvent_counts a a' zm zId hour ha'
  obtain ⟨tr', _, _⟩ :=
    processed_tracks a' _ (Processed.accept a a' acc line hp hset hacc hline)
  refine ⟨field, hour, zm, zId, a', hfield, hvalue, h23, hget, hline, hzm, hname, hexp, hzc,
    hsc, ?_, ?_⟩
  · rw [← hzm]
    exact tr'.zlen
  · rw [← hzm]
    exact tr'.slen

/-- An accepted line counted once, in the state after the header `id,zone,time`
and the line `1,A,d 05:10`. -/
theorem accepted_line_counts_once_example :
    Processed { TripAnalyzer.init with expectedCommas := 2 } [] ∧
    ({ TripAnalyzer.init with expectedCommas := 2 } : TripAnalyzer).expectedCommas ≠ -1 ∧
    ¬ Rejected ({ TripAnalyzer.init with expectedCommas := 2 } : TripAnalyzer).expectedCommas
      [49, 44, 65, 44, 100, 32, 48, 53, 58, 49, 48] ∧
    ({ TripAnalyzer.init with expectedCommas := 2 } : TripAnalyzer).zoneMap.size < 89478485 ∧
    ∃ field hour zm zId a',
      hourField [49, 44, 65, 44, 100, 32, 48, 53, 58, 49, 48] = some field ∧
      hourValue field = some hour ∧ hour ≤ 23 ∧
      ({ TripAnalyzer.init with expectedCommas := 2 } : TripAnalyzer).zoneMap.getId
        (zoneField [49, 44, 65, 44, 100, 32, 48, 53, 58, 49, 48])
        (fnv1a (zoneField [49, 44, 65, 44, 100, 32, 48, 53, 58, 49, 48])) = some (zm, zId) ∧
      processRawLine { TripAnalyzer.init with expectedCommas := 2 }
        [49, 44, 65, 44, 100, 32, 48, 53, 58, 49, 48] = some a' ∧
      a'.zoneMap = zm ∧
      zm.getName zId = some (zoneField [49, 44, 65, 44, 100, 32, 48, 53, 58, 49, 48]) ∧
      a'.expectedCommas =
        ({ TripAnalyzer.init with expectedCommas := 2 } : TripAnalyzer).expectedCommas ∧
      (∀ i, a'.zoneCountsInternal.getD i 0 =
        ({ TripAnalyzer.init with expectedCommas := 2 } : TripAnalyzer).zoneCountsInternal.getD
          i 0 + (if i = zId then 1 else 0)) ∧
      (∀ j, a'.slotCountsInternal.getD j 0 =
        ({ TripAnalyzer.init with expectedCommas := 2 } : TripAnalyzer).slotCountsInternal.getD
          j 0 + (if j = zId * 24 + hour then 1 else 0)) ∧
      a'.zoneCountsInternal.length = zm.size ∧
      a'.slotCountsInternal.length = 24 * zm.size :=
  ⟨processed_header, by decide, fun h => absurd ((rejected_iff _ _).1 h) (by decide), by decide,
    accepted_line_counts_once { TripAnalyzer.init with expectedCommas := 2 } []
      [49, 44, 65, 44, 100, 32, 48, 53, 58, 49, 48] processed_header (by decide)
      (fun h => absurd ((rejected_iff _ _).1 h) (by decide)) (by decide)⟩

/-! ## Sums of event counts -/

theorem cast_sum_map {α : Type} (f : α → Nat) (l : List α) :
    (l.map (fun x => ((f x : Nat) : Int))).sum = (((l.map f).sum : Nat) : Int) := by
  induction l with
  | nil => rfl
  | cons x xs ih =>
    simp only [List.map_cons, List.sum_cons, ih]
    push_cast
    rfl

theorem sum_map_add_nat {α : Type} (f g : α → Nat) (l : List α) :
    (l.map (fun x => f x + g x)).sum = (l.map f).sum + (l.map g).sum := by
  induction l with
  | nil => rfl
  | cons x xs ih =>
    simp only [List.map_cons, List.sum_cons, ih]
    omega

/-- Over the hours `0 .. n - 1`, exactly one equals a given hour below `n`. -/
theorem sum_hour_indicator (P : Prop) [Decidable P] (k : Nat) :
    ∀ (n : Nat), ((List.range n).map (fun h => if P ∧ k = h then 1 else 0)).sum =
      if P ∧ k < n then 1 else 0 := by
  intro n
  induction n with
  | zero => simp
  | succ n ih =>
    rw [List.range_succ, List.map_append, List.sum_append, ih]
    simp only [List.map_cons, List.map_nil, List.sum_cons, List.sum_nil, Nat.add_zero]
    by_cases hP : P
    · by_cases h1 : k < n
      · have h2 : ¬ k = n := by omega
        have h3 : k < n + 1 := by omega
        simp [hP, h1, h2, h3]
      · by_cases h2 : k = n
        · simp [hP, h2]
        · have h3 : ¬ k < n + 1 := by omega
          simp [hP, h1, h2, h3]
    · simp [hP]

/-- The events of a zone are those of its 24 slots together, when every event
has an hour below 24. -/
theorem sum_slotEvents (z : List Byte) :
    ∀ (evs : List (List Byte × Nat)), (∀ ev, ev ∈ evs → ev.2 < 24) →
      ((List.range 24).map (fun h => slotEvents evs z h)).sum = zoneEvents evs z := by
  intro evs
  induction evs with
  | nil =>
    intro _
    simp [slotEvents, zoneEvents]
  | cons ev rest ih =>
    intro hh
    have hrest := ih (fun x hx => hh x (List.mem_cons_of_mem _ hx))
    have hev := hh ev (List.mem_cons_self _ _)
    have hslot : ∀ h, slotEvents (ev :: rest) z h =
        slotEvents rest z h + (if ev.1 = z ∧ ev.2 = h then 1 else 0) := by
      intro h
      simp only [slotEvents, List.countP_cons, decide_eq_true_eq]
    have hzone : zoneEvents (ev :: rest) z =
        zoneEvents rest z + (if ev.1 = z then 1 else 0) := by
      simp only [zoneEvents, List.countP_cons, decide_eq_true_eq]
    simp only [hslot]
    rw [sum_map_add_nat, hrest, hzone, sum_hour_indicator (ev.1 = z) ev.2 24]
    simp [hev]

/-- The events are those of their zones together: a list of distinct names
that holds the zone of every event counts every event once. -/
theorem sum_zoneEvents (names : List (List Byte)) (hnd : names.Nodup) :
    ∀ (evs : List (List Byte × Nat)), (∀ ev, ev ∈ evs → ev.1 ∈ names) →
      (names.map (fun z => zoneEvents evs z)).sum = evs.length := by
  have hone : ∀ (x : List Byte), x ∈ names →
      (names.map (fun z => if x = z then 1 else 0)).sum = 1 := by
    intro x
    have hboth : ∀ (l : List (List Byte)), l.Nodup →
        (x ∈ l → (l.map (fun z => if x = z then 1 else 0)).sum = 1) ∧
        (x ∉ l → (l.map (fun z => if x = z then 1 else 0)).sum = 0) := by
      intro l
      induction l with
      | nil =>
        intro _
        exact ⟨fun h => absurd h (List.not_mem_nil _), fun _ => rfl⟩
      | cons y ys ih =>
        intro hl
        obtain ⟨hy, hys⟩ := List.nodup_cons.1 hl
        obtain ⟨ih1, ih0⟩ := ih hys
        simp only [List.map_cons, List.sum_cons]
        by_cases hxy : x = y
        · subst hxy
          refine ⟨fun _ => ?_, fun h => absurd (List.mem_cons_self _ _) h⟩
          rw [if_pos rfl, ih0 hy]
        · refine ⟨fun h => ?_, fun h => ?_⟩
          · rw [if_neg hxy, ih1 ((List.mem_cons.1 h).resolve_left hxy)]
          · rw [if_neg hxy, ih0 (fun hc => h (List.mem_cons_of_mem _ hc))]
    exact (hboth names hnd).1
  intro evs
  induction evs with
  | nil =>
    intro _
    simp [zoneEvents]
  | cons ev rest ih =>
    intro hmem
    have hrest := ih (fun x hx => hmem x (List.mem_cons_of_mem _ hx))
    have hzone : ∀ z, zoneEvents (ev :: rest) z =
        zoneEvents rest z + (if ev.1 = z then 1 else 0) := by
      intro z
      simp only [zoneEvents, List.countP_cons, decide_eq_true_eq]
    simp only [hzone]
    rw [sum_map_add_nat, hrest, hone ev.1 (hmem ev (List.mem_cons_self _ _)),
      List.length_cons]

/-- A function of the index that reads the list is a function of the
elements. -/
theorem map_range_eq {α β : Type} (l : List α) (f : Nat → β) (g : α → β)
    (h : ∀ (i : Nat) (x : α), l[i]? = some x → f i = g x) :
    (List.range l.length).map f = l.map g := by
  apply List.ext_getElem?
  intro i
  by_cases hi : i < l.length
  · rw [List.getElem?_map, List.getElem?_map, List.getElem?_range hi,
      List.getElem?_eq_getElem hi]
    simp only [Option.map_some']
    rw [h i l[i] (List.getElem?_eq_getElem hi)]
  · rw [List.getElem?_eq_none (by simp; omega), List.getElem?_eq_none (by simp; omega)]

/-! ## Rows of the reports of a tracked state -/

theorem filterMap_all_some {α β : Type} (f : α → Option β) (g : α → β) :
    ∀ (l : List α), (∀ x, x ∈ l → f x = some (g x)) → l.filterMap f = l.map g := by
  intro l
  induction l with
  | nil => intro _; rfl
  | cons x xs ih =>
    intro h
    rw [List.filterMap_cons, h x (List.mem_cons_self _ _), List.map_cons,
      ih (fun y hy => h y (List.mem_cons_of_mem _ hy))]

theorem sum_flatMap {α β : Type} (f : α → List β) (g : β → Int) :
    ∀ (l : List α), ((l.flatMap f).map g).sum = (l.map (fun z => ((f z).map g).sum)).sum := by
  intro l
  induction l with
  | nil => rfl
  | cons x xs ih =>
    rw [List.flatMap_cons, List.map_append, List.sum_append, ih, List.map_cons, List.sum_cons]

/-- Rows are collected for the counters above zero only; the counters left
out are zero, so the counts of the rows sum to the sum of all counters. -/
theorem sum_filterMap_rows (f : Nat → Option SlotCount) (c : Nat → Nat) :
    ∀ (l : List Nat),
      (∀ h, h ∈ l → (f h).map SlotCount.count =
        if 0 < c h then some ((c h : Nat) : Int) else none) →
      ((l.filterMap f).map SlotCount.count).sum = (((l.map c).sum : Nat) : Int) := by
  intro l
  induction l with
  | nil => intro _; rfl
  | cons x xs ih =>
    intro h
    have hx := h x (List.mem_cons_self _ _)
    have hrest := ih (fun y hy => h y (List.mem_cons_of_mem _ hy))
    rw [List.filterMap_cons, List.map_cons, List.sum_cons]
    cases hf : f x with
    | none =>
      rw [hf] at hx
      simp only [Option.map_none'] at hx
      have h0 : c x = 0 := by
        by_contra hne
        rw [if_pos (by omega)] at hx
        exact Option.noConfusion hx
      simp only [hrest, h0]
      push_cast
      omega
    | some r =>
      rw [hf] at hx
      simp only [Option.map_some'] at hx
      have hpos : 0 < c x := by
        by_contra hne
        rw [if_neg hne] at hx
        exact Option.noConfusion hx
      rw [if_pos hpos] at hx
      have hr : r.count = ((c x : Nat) : Int) := Option.some.inj hx
      simp only [List.map_cons, List.sum_cons, hrest, hr]
      push_cast
      rfl

/-- In a tracked state every interned zone has a row in the zone report: the
rows are the entries with their event counts. -/
theorem tracked_zone_rows (a : TripAnalyzer) (evs : List (List Byte × Nat))
    (tr : Tracks a evs) :
    zoneRows a (List.range a.zoneMap.size) =
      some (a.zoneMap.entries.map
        (fun e => { zone := e.name, count := (zoneEvents evs e.name : Int) })) := by
  have hrows := zoneRows_eq a evs tr (List.range a.zoneMap.entries.length)
    (fun i hi => List.mem_range.1 hi)
  show zoneRows a (List.range a.zoneMap.entries.length) = _
  rw [hrows]
  congr 1
  rw [filterMap_all_some _ (fun i =>
    match a.zoneMap.entries[i]? with
    | some e => ({ zone := e.name, count := (zoneEvents evs e.name : Int) } : ZoneCount)
    | none => { zone := [], count := 0 })]
  · apply map_range_eq
    intro i x hx
    simp only [hx]
  · intro i hi
    have hi' : i < a.zoneMap.entries.length := List.mem_range.1 hi
    have he : a.zoneMap.entries[i]? = some a.zoneMap.entries[i] := List.getElem?_eq_getElem hi'
    obtain ⟨ev, hev, hname⟩ := tr.sound i _ he
    have hpos : 0 < zoneEvents evs (a.zoneMap.entries[i]).name :=
      List.countP_pos_iff.2 ⟨ev, hev, by simpa using hname⟩
    have hpos' : (0 : Int) < (zoneEvents evs (a.zoneMap.entries[i]).name : Int) := by
      exact_mod_cast hpos
    rw [tr.zcount i _ he, he]
    simp only [gt_iff_lt, hpos', if_true]

/-- In a tracked state the rows of one zone in the slot report have counts
that sum to the number of events of the zone. -/
theorem tracked_slot_sum (a : TripAnalyzer) (evs : List (List Byte × Nat))
    (tr : Tracks a evs) (hh : ∀ ev, ev ∈ evs → ev.2 < 24) (z : Nat) (e : ZoneEntry)
    (he : a.zoneMap.entries[z]? = some e) :
    (((List.range 24).filterMap (slotRow a z)).map SlotCount.count).sum =
      (zoneEvents evs e.name : Int) := by
  rw [sum_filterMap_rows (slotRow a z) (fun h => slotEvents evs e.name h), sum_slotEvents _ _ hh]
  intro h hmem
  have hlt : h < 24 := List.mem_range.1 hmem
  have hc := tr.scount z e h he hlt
  have hn : a.zoneMap.getName z = some e.name := by
    simp only [FastZoneMap.getName, he, Option.map_some']
  simp only [slotRow, hc, hn]
  by_cases hpos : 0 < slotEvents evs e.name h
  · have hpos' : (0 : Int) < (slotEvents evs e.name h : Int) := by exact_mod_cast hpos
    simp only [gt_iff_lt, hpos', if_true, Option.map_some', hpos]
  · have hpos' : ¬ (0 : Int) < (slotEvents evs e.name h : Int) := by
      intro hc'
      exact hpos (by exact_mod_cast hc')
    simp only [gt_iff_lt, hpos', if_false, Option.map_none', hpos]

/-! ## Consistency of the counters -/

/-- The counts of the two reports of a tracked state both sum to the number
of events, and the zone report has one row per interned zone. -/
theorem tracked_report_sums (a : TripAnalyzer) (evs : List (List Byte × Nat))
    (tr : Tracks a evs) (hh : ∀ ev, ev ∈ evs → ev.2 < 24) :
    ∃ report, topZones a 0 = some report ∧ report.length = a.zoneMap.size ∧
      (report.map ZoneCount.count).sum = (evs.length : Int) ∧
      ((topBusySlots a 0).map SlotCount.count).sum = (evs.length : Int) := by
  have hnames : ((a.zoneMap.entries.map ZoneEntry.name).map (fun z => zoneEvents evs z)).sum =
      evs.length := by
    apply sum_zoneEvents _ tr.names_nodup
    intro ev hev
    obtain ⟨i, e, he, hn⟩ := tr.complete ev hev
    rw [← hn]
    exact List.mem_map.2 ⟨e, List.mem_iff_getElem?.2 ⟨i, he⟩, rfl⟩
  have hentries : (a.zoneMap.entries.map (fun e => (zoneEvents evs e.name : Int))).sum =
      (evs.length : Int) := by
    rw [cast_sum_map (fun e : ZoneEntry => zoneEvents evs e.name), ← hnames, List.map_map]
    rfl
  have hrows := tracked_zone_rows a evs tr
  have hperm := stdSort_perm zoneBefore (a.zoneMap.entries.map
    (fun e => ({ zone := e.name, count := (zoneEvents evs e.name : Int) } : ZoneCount)))
  refine ⟨stdSort zoneBefore (a.zoneMap.entries.map
    (fun e => ({ zone := e.name, count := (zoneEvents evs e.name : Int) } : ZoneCount))),
    ?_, ?_, ?_, ?_⟩
  · unfold topZones
    rw [hrows]
    simp only
    rw [truncate_eq, if_neg (by decide)]
  · rw [hperm.length_eq, List.length_map]
    rfl
  · rw [(hperm.map ZoneCount.count).sum_eq, List.map_map]
    exact hentries
  · have hp2 : (topBusySlots a 0).Perm (slotRows a) := by
      unfold topBusySlots
      rw [truncate_eq, if_neg (by decide)]
      exact stdSort_perm slotBefore (slotRows a)
    rw [(hp2.map SlotCount.count).sum_eq]
    unfold slotRows
    rw [sum_flatMap]
    have hmap : (List.range a.zoneMap.size).map (fun z =>
        (((List.range 24).filterMap (slotRow a z)).map SlotCount.count).sum) =
        a.zoneMap.entries.map (fun e => (zoneEvents evs e.name : Int)) :=
      map_range_eq a.zoneMap.entries _ _ (fun i e he => tracked_slot_sum a evs tr hh i e he)
    rw [hmap]
    exact hentries

/-- C19: in every analyzer state reached by processing lines, for every
interned zone `z` the counter `ZoneCount[z]` is at least 1 and equals the sum
of the 24 counters `SlotCount[z * 24 + h]`; `topZones(0)` returns one entry per
interned zone; and the counts of `topZones(0)` and those of `topBusySlots(0)`
both sum to the number of lines accepted so far. -/
theorem C19_counters_consistent (a : TripAnalyzer) (acc : List (List Byte))
    (hp : Processed a acc) :
    (∀ z, z < a.zoneMap.size → ∃ c, a.zoneCountsInternal[z]? = some c ∧ 1 ≤ c ∧
      c = ((List.range 24).map (fun h => a.slotCountsInternal.getD (z * 24 + h) 0)).sum) ∧
    ∃ report, topZones a 0 = some report ∧ report.length = a.zoneMap.size ∧
      (report.map ZoneCount.count).sum = (acc.length : Int) ∧
      ((topBusySlots a 0).map SlotCount.count).sum = (acc.length : Int) := by
  obtain ⟨tr, hall, _⟩ := processed_tracks a acc hp
  obtain ⟨hlen, hh⟩ := accepted_events acc hall
  refine ⟨?_, ?_⟩
  · intro z hz
    have hz' : z < a.zoneMap.entries.length := hz
    have he : a.zoneMap.entries[z]? = some a.zoneMap.entries[z] := List.getElem?_eq_getElem hz'
    refine ⟨_, tr.zcount z _ he, ?_, ?_⟩
    · obtain ⟨ev, hev, hname⟩ := tr.sound z _ he
      have hpos : 0 < zoneEvents (acc.filterMap lineEvent) (a.zoneMap.entries[z]).name :=
        List.countP_pos_iff.2 ⟨ev, hev, by simpa using hname⟩
      exact_mod_cast hpos
    · have hslots : (List.range 24).map
          (fun h => a.slotCountsInternal.getD (z * 24 + h) 0) =
          (List.range 24).map (fun h =>
            ((slotEvents (acc.filterMap lineEvent) (a.zoneMap.entries[z]).name h : Nat) : Int)) := by
        apply List.map_congr_left
        intro h hmem
        rw [List.getD_eq_getElem?_getD, tr.scount z _ h he (List.mem_range.1 hmem)]
        rfl
      rw [hslots, cast_sum_map (fun h =>
        slotEvents (acc.filterMap lineEvent) (a.zoneMap.entries[z]).name h), sum_slotEvents _ _ hh]
  · obtain ⟨report, h0, h1, h2, h3⟩ := tracked_report_sums a _ tr hh
    rw [hlen] at h2 h3
    exact ⟨report, h0, h1, h2, h3⟩

/-- The hypothesis of C19 holds for the state after the header `id,zone,time`
and the line `1,A,d 05:10`, which has accepted one line. -/
theorem C19_counters_consistent_witness :
    ∃ a, processRawLine { TripAnalyzer.init with expectedCommas := 2 }
        [49, 44, 65, 44, 100, 32, 48, 53, 58, 49, 48] = some a ∧
      Processed a [[49, 44, 65, 44, 100, 32, 48, 53, 58, 49, 48]] ∧
      (∀ z, z < a.zoneMap.size → ∃ c, a.zoneCountsInternal[z]? = some c ∧ 1 ≤ c ∧
        c = ((List.range 24).map (fun h => a.slotCountsInternal.getD (z * 24 + h) 0)).sum) ∧
      ∃ report, topZones a 0 = some report ∧ report.length = a.zoneMap.size ∧
        (report.map ZoneCount.count).sum =
          (([[49, 44, 65, 44, 100, 32, 48, 53, 58, 49, 48]] : List (List Byte)).length : Int) ∧
        ((topBusySlots a 0).map SlotCount.count).sum =
          (([[49, 44, 65, 44, 100, 32, 48, 53, 58, 49, 48]] : List (List Byte)).length : Int) :=
  processed_example.elim (fun a h =>
    ⟨a, h.1, h.2, C19_counters_consistent a _ h.2⟩)

/-! ## The reader on a line longer than the buffer -/

theorem bufferLines_plain (l : List Byte) (h : (10 : Byte) ∉ l) :
    bufferLines [] l = ([], l) := by
  have h1 := bufferLines_skip l h [] []
  rw [List.append_nil, List.nil_append] at h1
  rw [h1]
  rfl

/-- One pass of the read loop. -/
theorem loopLines_succ (bufSize fuel : Nat) (carry file : List Byte) :
    loopLines bufSize (fuel + 1) carry file =
      if (file.take (bufSize - carry.length)).length = 0 then some ([], carry)
      else if (file.take (bufSize - carry.length)).length < bufSize - carry.length then
        some (bufferLines [] (carry ++ file.take (bufSize - carry.length)))
      else
        match loopLines bufSize fuel
          (bufferLines [] (carry ++ file.take (bufSize - carry.length))).2
          (file.drop (bufSize - carry.length)) with
        | none => none
        | some (ls, c) =>
          some ((bufferLines [] (carry ++ file.take (bufSize - carry.length))).1 ++ ls, c) :=
  rfl

/-- Once the bytes kept in the buffer and the bytes that follow, up to the
next line feed, are at least a buffer long, the read loop fills the buffer
with them and stops: the following read asks for no byte. -/
theorem loopLines_stuck (bufSize : Nat) (carry L R : List Byte)
    (hc : (10 : Byte) ∉ carry) (hL : (10 : Byte) ∉ L) (hcl : carry.length ≤ bufSize)
    (hlen : bufSize ≤ carry.length + L.length) :
    ∀ fuel, 2 ≤ fuel →
      loopLines bufSize fuel carry (L ++ R) =
        some ([], carry ++ L.take (bufSize - carry.length)) := by
  intro fuel hfuel
  obtain ⟨f, hf⟩ : ∃ f, fuel = f + 1 + 1 := ⟨fuel - 2, by omega⟩
  subst hf
  have htake : (L ++ R).take (bufSize - carry.length) = L.take (bufSize - carry.length) :=
    List.take_append_of_le_length (by omega)
  by_cases hw : bufSize - carry.length = 0
  · rw [loopLines_succ]
    simp only [hw, List.take_zero, List.length_nil, if_true, List.append_nil]
  · have hlenchunk : (L.take (bufSize - carry.length)).length = bufSize - carry.length := by
      rw [List.length_take]
      omega
    have hno : (10 : Byte) ∉ carry ++ L.take (bufSize - carry.length) := by
      intro hmem
      rcases List.mem_append.1 hmem with h | h
      · exact hc h
      · exact hL (List.mem_of_mem_take h)
    have hfull : (carry ++ L.take (bufSize - carry.length)).length = bufSize := by
      rw [List.length_append, hlenchunk]
      omega
    have hnext : loopLines bufSize (f + 1) (carry ++ L.take (bufSize - carry.length))
        ((L ++ R).drop (bufSize - carry.length)) =
        some ([], carry ++ L.take (bufSize - carry.length)) := by
      rw [loopLines_succ]
      simp only [hfull, Nat.sub_self, List.take_zero, List.length_nil, if_true]
    have hne : ¬ (bufSize - carry.length = 0) := hw
    have hnlt : ¬ (bufSize - carry.length < bufSize - carry.length) := Nat.lt_irrefl _
    rw [loopLines_succ]
    simp only [htake, hlenchunk, hne, if_false, hnlt, bufferLines_plain _ hno, hnext,
      List.append_nil]

/-- Scanning a buffer that holds whole lines followed by the start of a line:
the whole lines are handed over and the start of the line is kept. -/
theorem bufferLines_joined_carry (tail : List Byte) (ht : (10 : Byte) ∉ tail) :
    ∀ (pre : List (List Byte)), (∀ l, l ∈ pre → (10 : Byte) ∉ l) →
      bufferLines [] (joinLines [10] pre ++ tail) = (pre.flatMap emitted, tail) := by
  intro pre
  induction pre with
  | nil =>
    intro _
    exact bufferLines_plain tail ht
  | cons l rest ih =>
    intro hpre
    have hl := hpre l (List.mem_cons_self _ _)
    have hrest := ih (fun x hx => hpre x (List.mem_cons_of_mem _ hx))
    have hshape : joinLines [10] (l :: rest) ++ tail =
        l ++ (10 :: (joinLines [10] rest ++ tail)) := by
      simp [joinLines]
    rw [hshape, bufferLines_skip l hl [] _, List.nil_append]
    simp only [bufferLines, if_true, hrest, List.flatMap_cons]

/-! ## Chunking of a file with an over-long line -/

/-- A content made of a few whole lines, then a line at least as long as the
buffer: the whole lines are handed over, then the first `bufSize` bytes of the
long line, and nothing of what follows. -/
theorem chunkLines_overlong (bufSize : Nat) (pre : List (List Byte)) (L R : List Byte)
    (hpre : ∀ l, l ∈ pre → (10 : Byte) ∉ l)
    (hP0 : 0 < (joinLines [10] pre).length) (hP : (joinLines [10] pre).length < bufSize)
    (hL : (10 : Byte) ∉ L) (hlen : bufSize ≤ L.length) :
    chunkLines bufSize (joinLines [10] pre ++ L ++ R) =
      pre.flatMap emitted ++ emitted (L.take bufSize) := by
  obtain ⟨ls, c, hloop, hchunk⟩ := chunkLines_eq bufSize (joinLines [10] pre ++ L ++ R)
  have hw : bufSize - (joinLines [10] pre).length ≤ L.length := by omega
  have htake : (joinLines [10] pre ++ L ++ R).take bufSize =
      joinLines [10] pre ++ L.take (bufSize - (joinLines [10] pre).length) := by
    rw [List.append_assoc, List.take_append_eq_append_take,
      List.take_of_length_le (by omega), List.take_append_of_le_length hw]
  have hdrop : (joinLines [10] pre ++ L ++ R).drop bufSize =
      L.drop (bufSize - (joinLines [10] pre).length) ++ R := by
    rw [List.append_assoc, List.drop_append_eq_append_drop,
      List.drop_of_length_le (by omega), List.nil_append, List.drop_append_of_le_length hw]
  have hL1 : (10 : Byte) ∉ L.take (bufSize - (joinLines [10] pre).length) :=
    fun h => hL (List.mem_of_mem_take h)
  have hL2 : (10 : Byte) ∉ L.drop (bufSize - (joinLines [10] pre).length) :=
    fun h => hL (List.mem_of_mem_drop h)
  have hlen1 : (L.take (bufSize - (joinLines [10] pre).length)).length =
      bufSize - (joinLines [10] pre).length := by
    rw [List.length_take]
    omega
  have hchunklen : (joinLines [10] pre ++
      L.take (bufSize - (joinLines [10] pre).length)).length = bufSize := by
    rw [List.length_append, hlen1]
    omega
  have hstuck := loopLines_stuck bufSize (L.take (bufSize - (joinLines [10] pre).length))
    (L.drop (bufSize - (joinLines [10] pre).length)) R hL1 hL2 (by omega)
    (by rw [hlen1, List.length_drop]; omega)
  have hjoin : L.take (bufSize - (joinLines [10] pre).length) ++
      (L.drop (bufSize - (joinLines [10] pre).length)).take
        (bufSize - (L.take (bufSize - (joinLines [10] pre).length)).length) =
      L.take bufSize := by
    rw [hlen1]
    have hsum : bufSize = (bufSize - (joinLines [10] pre).length) +
        (bufSize - (bufSize - (joinLines [10] pre).length)) := by omega
    conv_rhs => rw [hsum, List.take_add]
  have hfuel : ∃ f, (joinLines [10] pre ++ L ++ R).length + 1 = f + 2 + 1 := by
    refine ⟨(joinLines [10] pre ++ L ++ R).length - 2, ?_⟩
    simp only [List.length_append]
    omega
  obtain ⟨f, hf⟩ := hfuel
  have hvalue : loopLines bufSize ((joinLines [10] pre ++ L ++ R).length + 1) []
      (joinLines [10] pre ++ L ++ R) = some (pre.flatMap emitted, L.take bufSize) := by
    rw [hf, loopLines_succ]
    have hpos : ¬ bufSize = 0 := by omega
    have hnlt : ¬ bufSize < bufSize := Nat.lt_irrefl _
    simp only [List.length_nil, Nat.sub_zero, htake, hchunklen, hpos, if_false, hnlt,
      List.nil_append, bufferLines_joined_carry _ hL1 pre hpre, hdrop,
      hstuck (f + 2) (by omega), hjoin, List.append_nil]
  rw [hvalue] at hloop
  have hls : pre.flatMap emitted = ls := congrArg Prod.fst (Option.some.inj hloop)
  have hc : L.take bufSize = c := congrArg Prod.snd (Option.some.inj hloop)
  have hclen : c.length > 0 := by
    rw [← hc, List.length_take]
    omega
  rw [hchunk, if_pos hclen, ← hls, ← hc]

theorem getLast?_replicate (k : Nat) (b : Byte) (hk : 0 < k) :
    (List.replicate k b).getLast? = some b := by
  cases k with
  | zero => omega
  | succ k =>
    rw [List.replicate_succ', List.getLast?_append]
    rfl

/-- The first `BUFFER_SIZE` bytes of the long line are its trip id, which is
handed over as a line of its own. -/
theorem longLine_take :
    emitted (longLine.take BUFFER_SIZE) = [List.replicate BUFFER_SIZE 49] := by
  have htake : longLine.take BUFFER_SIZE = List.replicate BUFFER_SIZE 49 := by
    unfold longLine
    rw [List.take_append_of_le_length (by rw [List.length_replicate]),
      List.take_of_length_le (by rw [List.length_replicate])]
  rw [htake]
  apply emitted_plain
  · intro h
    have := congrArg List.length h
    rw [List.length_replicate] at this
    exact absurd this (by decide)
  · rw [getLast?_replicate BUFFER_SIZE 49 (by decide)]
    decide

theorem longLine_no_lf : (10 : Byte) ∉ longLine := by
  unfold longLine
  intro h
  rcases List.mem_append.1 h with h1 | h1
  · have := List.eq_of_mem_replicate h1
    exact absurd this (by decide)
  · exact absurd h1 (by decide)

theorem longLine_length : BUFFER_SIZE ≤ longLine.length := by
  unfold longLine
  rw [List.length_append, List.length_replicate]
  omega

theorem pad_commas (rest : List Byte) :
    ∀ (k : Nat), commaCount (List.replicate k 49 ++ rest) = commaCount rest := by
  intro k
  induction k with
  | zero => rfl
  | succ k ih =>
    rw [List.replicate_succ, List.cons_append]
    unfold commaCount at ih ⊢
    rw [List.count_cons, ih]
    simp

theorem pad_afterFirst (rest : List Byte) :
    ∀ (k : Nat), afterFirst 44 (List.replicate k 49 ++ 44 :: rest) = rest := by
  intro k
  induction k with
  | zero => simp [afterFirst]
  | succ k ih =>
    rw [List.replicate_succ, List.cons_append]
    unfold afterFirst at ih ⊢
    rw [List.dropWhile_cons_of_pos (by decide)]
    exact ih

/-- A trip id made of digits `1` does not change the event of a line. -/
theorem lineEvent_pad (k : Nat) (rest : List Byte) :
    lineEvent (List.replicate k 49 ++ 44 :: rest) = lineEvent (44 :: rest) := by
  have h0 : afterFirst 44 (44 :: rest) = rest := by simp [afterFirst]
  have h1 := pad_afterFirst rest k
  have h2 := pad_commas (44 :: rest) k
  unfold lineEvent zoneField hourField afterZone
  rw [h0, h1, h2]

/-- The long line is a well-formed data line: two commas, zone `A`, hour 5. -/
theorem longLine_event : commaCount longLine = 2 ∧ lineEvent longLine = some ([65], 5) := by
  unfold longLine
  constructor
  · rw [pad_commas]
    decide
  · rw [lineEvent_pad]
    decide

theorem processLines_single (a a' : TripAnalyzer) (l : List Byte)
    (h : processRawLine a l = some a') : processLines a [l] = some a' := by
  simp only [processLines, h]

theorem processLines_then (a a1 a2 : TripAnalyzer) (ls1 ls2 : List (List Byte))
    (h1 : processLines a ls1 = some a1) (h2 : processLines a1 ls2 = some a2) :
    processLines a (ls1 ++ ls2) = some a2 := by
  rw [processLines_append, h1]
  exact h2

theorem processLines_stops (a a1 : TripAnalyzer) (ls1 ls2 : List (List Byte))
    (h1 : processLines a ls1 = some a1) (h2 : processLines a1 ls2 = none) :
    processLines a (ls1 ++ ls2) = none := by
  rw [processLines_append, h1]
  exact h2

/-- A run of `1` digits has no comma, so no header with two commas accepts
it. -/
theorem pad_dropped (a : TripAnalyzer) (hexp : a.expectedCommas = 2) (k : Nat) :
    processRawLine a (List.replicate k 49) = some a := by
  have hcount : commaCount (List.replicate k 49) = 0 := by
    have h := pad_commas [] k
    rw [List.append_nil] at h
    exact h
  rw [processRawLine_eq a _ (by rw [hexp]; decide), hcount, hexp, if_pos (by decide)]

/-! ## Files with an over-long line -/

/-- The reports of the state that has seen only the header `id,zone,time`
are empty. -/
theorem header_state_reports (k : Int) :
    topZones { TripAnalyzer.init with expectedCommas := (commaCount headerLine : Int) } k =
      some [] ∧
    topBusySlots { TripAnalyzer.init with expectedCommas := (commaCount headerLine : Int) } k =
      [] := by
  have h0 : topZones
      { TripAnalyzer.init with expectedCommas := (commaCount headerLine : Int) } 0 = some [] := by
    decide
  have h1 : topBusySlots
      { TripAnalyzer.init with expectedCommas := (commaCount headerLine : Int) } 0 = [] := by
    decide
  constructor
  · rw [topZones_truncate, h0]
    by_cases hk : k > 0
    · simp [hk]
    · simp [hk]
  · rw [topBusySlots_truncate, h1]
    by_cases hk : k > 0
    · simp [hk]
    · simp [hk]

/-- A file whose first data line is the long line: only the header and the
start of the long line are handed over, and nothing is counted. -/
theorem long_line_first (R : List Byte) :
    ingestFile TripAnalyzer.init (some (joinLines [10] [headerLine] ++ longLine ++ R)) =
      some { TripAnalyzer.init with expectedCommas := (commaCount headerLine : Int) } := by
  have hchunk := chunkLines_overlong BUFFER_SIZE [headerLine] longLine R (by decide) (by decide)
    (by decide) longLine_no_lf longLine_length
  have hpre : [headerLine].flatMap emitted = [headerLine] := by decide
  rw [hpre, longLine_take] at hchunk
  rw [ingestFile_eq, hchunk]
  have hhdr := processRawLine_header { TripAnalyzer.init with expectedCommas := -1 } headerLine
    (by decide) rfl
  have hpad := pad_dropped
    { TripAnalyzer.init with expectedCommas := (commaCount headerLine : Int) } (by decide)
    BUFFER_SIZE
  exact processLines_then _ _ _ _ _ (processLines_single _ _ _ hhdr)
    (processLines_single _ _ _ hpad)

/-- C8, as stated, fails when a data line does not fit the read buffer: in the
file with the header `id,zone,time`, the long line (zone `A`, hour 5, a trip
id of `BUFFER_SIZE` digits) and the line `2,A,d 6:00` (zone `A`, hour 6), both
data lines are well formed and have the header's comma count, so `N = M = 1`;
yet the reader stops inside the long line and both reports are empty. -/
theorem C8_long_line_counterexample :
    (commaCount longLine = commaCount headerLine ∧ lineEvent longLine = some ([65], 5)) ∧
    (commaCount [50, 44, 65, 44, 100, 32, 54, 58, 48, 48] = commaCount headerLine ∧
      lineEvent [50, 44, 65, 44, 100, 32, 54, 58, 48, 48] = some ([65], 6)) ∧
    ∃ a, ingestFile TripAnalyzer.init (some (joinLines [10]
        [headerLine, longLine, [50, 44, 65, 44, 100, 32, 54, 58, 48, 48]])) = some a ∧
      ∀ k, topZones a k = some [] ∧ topBusySlots a k = [] := by
  refine ⟨⟨longLine_event.1.trans (by decide), longLine_event.2⟩, by decide, ?_⟩
  have hfile : joinLines [10] [headerLine, longLine, [50, 44, 65, 44, 100, 32, 54, 58, 48, 48]] =
      joinLines [10] [headerLine] ++ longLine ++
        (10 :: ([50, 44, 65, 44, 100, 32, 54, 58, 48, 48] ++ [10])) := by
    simp only [joinLines, List.flatMap_cons, List.flatMap_nil, List.append_nil,
      List.append_assoc, List.singleton_append, List.cons_append, List.nil_append]
  rw [hfile, long_line_first]
  exact ⟨_, rfl, header_state_reports⟩

/-- C11, as stated, fails when a data line does not fit the read buffer: with
the header `id,zone,time`, the long line and the line `2,B,d 6:00`, the order
long line first gives empty reports (the reader stops inside the long line),
while the other order counts zone `B` before the reader stops. -/
theorem C11_long_line_counterexample :
    ([longLine, [50, 44, 66, 44, 100, 32, 54, 58, 48, 48]] : List (List Byte)).Perm
      [[50, 44, 66, 44, 100, 32, 54, 58, 48, 48], longLine] ∧
    ∃ a1 a2,
      ingestFile TripAnalyzer.init (some (joinLines [10]
        (headerLine :: [longLine, [50, 44, 66, 44, 100, 32, 54, 58, 48, 48]]))) = some a1 ∧
      ingestFile TripAnalyzer.init (some (joinLines [10]
        (headerLine :: [[50, 44, 66, 44, 100, 32, 54, 58, 48, 48], longLine]))) = some a2 ∧
      topZones a1 10 = some [] ∧ topBusySlots a1 10 = [] ∧
      topZones a2 10 = some [{ zone := [66], count := 1 }] ∧
      topBusySlots a2 10 = [{ zone := [66], hour := 6, count := 1 }] := by
  refine ⟨List.Perm.swap _ _ _, ?_⟩
  have hfile1 : joinLines [10]
      (headerLine :: [longLine, [50, 44, 66, 44, 100, 32, 54, 58, 48, 48]]) =
      joinLines [10] [headerLine] ++ longLine ++
        (10 :: ([50, 44, 66, 44, 100, 32, 54, 58, 48, 48] ++ [10])) := by
    simp only [joinLines, List.flatMap_cons, List.flatMap_nil, List.append_nil,
      List.append_assoc, List.singleton_append, List.cons_append, List.nil_append]
  have hfile2 : joinLines [10]
      (headerLine :: [[50, 44, 66, 44, 100, 32, 54, 58, 48, 48], longLine]) =
      joinLines [10] [headerLine, [50, 44, 66, 44, 100, 32, 54, 58, 48, 48]] ++ longLine ++
        [10] := by
    simp only [joinLines, List.flatMap_cons, List.flatMap_nil, List.append_nil,
      List.append_assoc, List.singleton_append, List.cons_append, List.nil_append]
  have hchunk := chunkLines_overlong BUFFER_SIZE
    [headerLine, [50, 44, 66, 44, 100, 32, 54, 58, 48, 48]] longLine [10] (by decide)
    (by decide) (by decide) longLine_no_lf longLine_length
  have hpre : [headerLine, [50, 44, 66, 44, 100, 32, 54, 58, 48, 48]].flatMap emitted =
      [headerLine, [50, 44, 66, 44, 100, 32, 54, 58, 48, 48]] := by decide
  rw [hpre, longLine_take] at hchunk
  obtain ⟨a2, hrun2, hfacts⟩ := Option.map_eq_some'.1
    (by decide : (processLines { TripAnalyzer.init with expectedCommas := -1 }
      [headerLine, [50, 44, 66, 44, 100, 32, 54, 58, 48, 48]]).map
      (fun a => (a.expectedCommas, topZones a 10, topBusySlots a 10)) =
      some (2, some [{ zone := [66], count := 1 }], [{ zone := [66], hour := 6, count := 1 }]))
  have hexp : a2.expectedCommas = 2 := congrArg Prod.fst hfacts
  have hz : topZones a2 10 = some [{ zone := [66], count := 1 }] :=
    congrArg (fun p => p.2.1) hfacts
  have hs : topBusySlots a2 10 = [{ zone := [66], hour := 6, count := 1 }] :=
    congrArg (fun p => p.2.2) hfacts
  refine ⟨_, a2, by rw [hfile1, long_line_first], ?_, (header_state_reports 10).1,
    (header_state_reports 10).2, hz, hs⟩
  rw [hfile2, ingestFile_eq, hchunk]
  exact processLines_then _ _ _ _ _ hrun2
    (processLines_single _ _ _ (pad_dropped a2 hexp BUFFER_SIZE))

/-! ## Zone names that fill the counters -/

/-- The bytes of a zone name are the letter `Z` and decimal digits. -/
theorem zoneName_bytes (i : Nat) (b : Byte) (hb : b ∈ zoneName i) :
    b = 90 ∨ (48 ≤ b.val ∧ b.val ≤ 57) := by
  unfold zoneName at hb
  rcases List.mem_cons.1 hb with h | h
  · exact Or.inl h
  · obtain ⟨d, hd, hdb⟩ := List.mem_map.1 h
    have hlt : d < 10 := Nat.digits_lt_base (by decide) hd
    right
    rw [← hdb]
    show 48 ≤ (48 + d) % 256 ∧ (48 + d) % 256 ≤ 57
    omega

theorem zoneName_ne_nil (i : Nat) : zoneName i ≠ [] := by
  unfold zoneName
  exact List.cons_ne_nil _ _

theorem zoneName_not_mem (i : Nat) (c : Byte) (hc : c ≠ 90) (hlo : c.val < 48) :
    c ∉ zoneName i := by
  intro h
  rcases zoneName_bytes i c h with h1 | h1
  · exact hc h1
  · omega

/-- Distinct numbers have distinct zone names. -/
theorem zoneName_inj (i j : Nat) (h : zoneName i = zoneName j) : i = j := by
  unfold zoneName at h
  have h1 := (List.cons.inj h).2
  have hback : ∀ (n : Nat), ((Nat.digits 10 n).map
      (fun d => (⟨(48 + d) % 256, Nat.mod_lt _ (by decide)⟩ : Byte))).map
      (fun b => b.val - 48) = Nat.digits 10 n := by
    intro n
    rw [List.map_map]
    have hid : ∀ d, d ∈ Nat.digits 10 n →
        ((fun (b : Byte) => b.val - 48) ∘
          (fun d => (⟨(48 + d) % 256, Nat.mod_lt _ (by decide)⟩ : Byte))) d = id d := by
      intro d hd
      have hlt : d < 10 := Nat.digits_lt_base (by decide) hd
      show (48 + d) % 256 - 48 = d
      omega
    rw [List.map_congr_left hid, List.map_id]
  have h2 := congrArg (List.map (fun (b : Byte) => b.val - 48)) h1
  rw [hback i, hback j] at h2
  exact Nat.digits.injective 10 h2

/-- The zone names of numbers below `10^8` have at most nine bytes. -/
theorem zoneName_length (i : Nat) (hi : i < 100000000) : (zoneName i).length ≤ 9 := by
  have hlen : (Nat.digits 10 i).length ≤ 8 := by
    by_cases h0 : i = 0
    · subst h0
      simp
    · have hpow := Nat.base_pow_length_digits_le 10 i (by decide) h0
      by_contra hcon
      have h9 : 9 ≤ (Nat.digits 10 i).length := by omega
      have hmono : 10 ^ 9 ≤ 10 ^ (Nat.digits 10 i).length :=
        Nat.pow_le_pow_right (by decide) h9
      have h109 : (10 : Nat) ^ 9 = 1000000000 := by norm_num
      omega
  unfold zoneName
  rw [List.length_cons, List.length_map]
  omega

theorem first_split (c : Byte) (rest : List Byte) :
    ∀ (pre : List Byte), c ∉ pre →
      beforeFirst c (pre ++ c :: rest) = pre ∧ afterFirst c (pre ++ c :: rest) = rest := by
  intro pre
  induction pre with
  | nil =>
    intro _
    simp [beforeFirst, afterFirst]
  | cons x xs ih =>
    intro h
    have hx : x ≠ c := fun hxc => h (by rw [hxc]; exact List.mem_cons_self _ _)
    obtain ⟨h1, h2⟩ := ih (fun hc => h (List.mem_cons_of_mem _ hc))
    unfold beforeFirst at h1 ⊢
    unfold afterFirst at h2 ⊢
    rw [List.cons_append, List.takeWhile_cons_of_pos (by simpa using hx),
      List.dropWhile_cons_of_pos (by simpa using hx), h1, h2]
    exact ⟨rfl, rfl⟩

/-- The line `1,<zone>,d 08:00` is a well-formed data line with two commas
that stands for an event of that zone at hour 8. -/
theorem zoneLine_event (z : List Byte) (hne : z ≠ []) (hz : (44 : Byte) ∉ z) :
    commaCount (zoneLine z) = 2 ∧ lineEvent (zoneLine z) = some (z, 8) := by
  obtain ⟨hb, ha⟩ := first_split 44 [100, 32, 48, 56, 58, 48, 48] z hz
  have hshape : zoneLine z = 49 :: 44 :: (z ++ 44 :: [100, 32, 48, 56, 58, 48, 48]) := by
    simp [zoneLine]
  have hafter : afterFirst 44 (zoneLine z) = z ++ 44 :: [100, 32, 48, 56, 58, 48, 48] := by
    rw [hshape]
    simp [afterFirst]
  have hcount : commaCount (zoneLine z) = 2 := by
    rw [hshape]
    unfold commaCount
    rw [List.count_cons, List.count_cons, List.count_append, List.count_cons,
      count_absent 44 z hz]
    simp
  have hzone : zoneField (zoneLine z) = z := by
    unfold zoneField
    rw [hafter, hb]
  have hhour : hourField (zoneLine z) = some [48, 56] := by
    unfold hourField afterZone
    rw [hafter, ha]
    decide
  refine ⟨hcount, ?_⟩
  unfold lineEvent
  rw [hcount, hzone, hhour]
  have hv : hourValue [48, 56] = some 8 := by decide
  simp only [hne, or_false, hv]
  simp

/-! ## The run that reaches the limit of the slot index -/

theorem zoneName_no_comma (i : Nat) : (44 : Byte) ∉ zoneName i :=
  zoneName_not_mem i 44 (by decide) (by decide)

/-- The events of the lines of the first `n` zone names: one event per zone
name, at hour 8. -/
theorem zoneLines_events (n : Nat) :
    dataEvents 2 (zoneLines n) = (List.range n).map (fun i => (zoneName i, 8)) := by
  unfold dataEvents zoneLines
  rw [List.filterMap_map]
  apply filterMap_all_some
  intro i _
  obtain ⟨hc, hev⟩ := zoneLine_event (zoneName i) (zoneName_ne_nil i) (zoneName_no_comma i)
  show (if commaCount (zoneLine (zoneName i)) = 2 then lineEvent (zoneLine (zoneName i))
    else none) = some (zoneName i, 8)
  rw [if_pos hc, hev]

theorem zoneLines_distinct (n : Nat) :
    distinctZones ((List.range n).map (fun i => (zoneName i, 8))) = n := by
  unfold distinctZones
  rw [List.map_map]
  have hnd : ((List.range n).map (Prod.fst ∘ fun i => (zoneName i, 8))).Nodup := by
    refine List.Nodup.map ?_ (List.nodup_range n)
    intro i j hij
    exact zoneName_inj i j hij
  rw [hnd.dedup, List.length_map, List.length_range]

/-- After the header, the lines of the first `n` zone names are all counted,
as long as `n` stays within the range of the `int` index: the state then holds
`n` zones, none of them named `A`. -/
theorem zoneLines_run (n : Nat) (hn : n ≤ 89478485) :
    ∃ a, processLines { TripAnalyzer.init with expectedCommas := 2 } (zoneLines n) = some a ∧
      Tracks a ((List.range n).map (fun i => (zoneName i, 8))) ∧
      a.expectedCommas = 2 ∧ a.zoneMap.entries.length = n ∧
      ∀ ev, ev ∈ (List.range n).map (fun i => (zoneName i, 8)) → ev.1 ≠ [65] := by
  have tr0 : Tracks { TripAnalyzer.init with expectedCommas := 2 } [] :=
    (tracks_expected TripAnalyzer.init [] 2).2 tracks_init
  have hexp : ({ TripAnalyzer.init with expectedCommas := 2 } : TripAnalyzer).expectedCommas =
      ((2 : Nat) : Int) := rfl
  have hroom : distinctZones ([] ++ dataEvents 2 (zoneLines n)) ≤ 89478485 := by
    rw [List.nil_append, zoneLines_events, zoneLines_distinct]
    exact hn
  obtain ⟨a, ha⟩ := processLines_total (zoneLines n) _ [] 2 tr0 hexp hroom
  obtain ⟨tr, hexp'⟩ := processLines_tracks (zoneLines n) _ a [] 2 tr0 hexp ha
  rw [List.nil_append, zoneLines_events] at tr
  refine ⟨a, ha, tr, hexp', ?_, ?_⟩
  · rw [tr.entries_length, zoneLines_distinct]
  · intro ev hev hA
    obtain ⟨i, _, hi⟩ := List.mem_map.1 hev
    have hmem : (90 : Byte) ∈ zoneName i := by
      unfold zoneName
      exact List.mem_cons_self _ _
    rw [← hi] at hA
    have hA' : zoneName i = [65] := hA
    rw [hA'] at hmem
    exact absurd hmem (by decide)

/-- In a state that holds 89478485 zones, the line `1,A,d 08:00` names a new
zone: `getId` mints the id 89478485, and the `int` index `zId * 24 + hour` of
the slot counter is `2^31`, so the aggregation block has no defined result. -/
theorem overflow_step (a : TripAnalyzer) (evs : List (List Byte × Nat)) (tr : Tracks a evs)
    (hlen : a.zoneMap.entries.length = 89478485) (hexp : a.expectedCommas = 2)
    (hnew : ∀ ev, ev ∈ evs → ev.1 ≠ [65]) :
    processRawLine a (zoneLine [65]) = none ∧
    ∃ zm, a.zoneMap.getId [65] (fnv1a [65]) = some (zm, 89478485) ∧
      recordEvent a zm 89478485 8 = none := by
  obtain ⟨zm, zId, hget, _, hcase⟩ :=
    FastZoneMap.getId_spec a.zoneMap tr.wf (by rw [hlen]; decide) [65] (fnv1a [65])
  have hid : zId = 89478485 := by
    rcases hcase with ⟨⟨e, he, hn, _⟩, _⟩ | ⟨_, hid, _⟩
    · obtain ⟨ev, hev, hname⟩ := tr.sound zId e he
      exact absurd (hname.trans hn) (hnew ev hev)
    · rw [hid, hlen]
  rw [hid] at hget
  have hrec : recordEvent a zm 89478485 8 = none := by
    unfold recordEvent
    simp
  have hev : lineEvent (zoneLine [65]) = some ([65], 8) := by decide
  have hc : (commaCount (zoneLine [65]) : Int) = 2 := by decide
  refine ⟨?_, zm, hget, hrec⟩
  rw [processRawLine_eq a _ (by rw [hexp]; decide), hexp, if_neg (not_not.2 hc), hev]
  simp only [applyEvent, hget]
  exact hrec

theorem flatMap_nonempty (ls : List (List Byte)) (h : ∀ l, l ∈ ls → l ≠ []) :
    ls.flatMap (fun l => if l = [] then [] else [l]) = ls := by
  induction ls with
  | nil => rfl
  | cons l rest ih =>
    rw [List.flatMap_cons, if_neg (h l (List.mem_cons_self _ _)),
      ih (fun x hx => h x (List.mem_cons_of_mem _ hx))]
    rfl

/-- The file made of the header and of the lines of the first `n` zone names,
`n` below `10^8`, is read line by line. -/
theorem zoneLines_chunks (n : Nat) (hn : n ≤ 100000000) :
    chunkLines BUFFER_SIZE (joinLines [10] (headerLine :: zoneLines n)) =
      headerLine :: zoneLines n := by
  have hlines : ∀ l, l ∈ headerLine :: zoneLines n →
      (10 : Byte) ∉ l ∧ l.getLast? ≠ some 13 ∧ (l ++ [10]).length ≤ BUFFER_SIZE ∧ l ≠ [] := by
    intro l hl
    rcases List.mem_cons.1 hl with h | h
    · rw [h]
      decide
    · unfold zoneLines at h
      obtain ⟨i, hi, hli⟩ := List.mem_map.1 h
      have hin : i < n := List.mem_range.1 hi
      have hlen := zoneName_length i (by omega)
      rw [← hli]
      refine ⟨?_, ?_, ?_, ?_⟩
      · unfold zoneLine
        intro hmem
        rcases List.mem_append.1 hmem with h1 | h1
        · rcases List.mem_append.1 h1 with h2 | h2
          · exact absurd h2 (by decide)
          · exact zoneName_not_mem i 10 (by decide) (by decide) h2
        · exact absurd h1 (by decide)
      · unfold zoneLine
        rw [List.getLast?_append]
        have hlast : ([44, 100, 32, 48, 56, 58, 48, 48] : List Byte).getLast? = some 48 := by
          decide
        rw [hlast]
        simp
      · unfold zoneLine
        simp only [List.length_append, List.length_cons, List.length_nil, BUFFER_SIZE]
        omega
      · unfold zoneLine
        simp
  rw [chunkLines_joined BUFFER_SIZE [10] (Or.inl rfl) _
    (fun l hl => ⟨(hlines l hl).1, (hlines l hl).2.1, (hlines l hl).2.2.1⟩)]
  exact flatMap_nonempty _ (fun l hl => (hlines l hl).2.2.2)

/-! ## The overflow of the slot index -/

theorem processLines_cons_of (a a1 : TripAnalyzer) (l : List Byte) (rest : List (List Byte))
    (h : processRawLine a l = some a1) : processLines a (l :: rest) = processLines a1 rest := by
  simp only [processLines, h]

theorem header_step (a : TripAnalyzer) :
    processRawLine { a with expectedCommas := -1 } headerLine =
      some { a with expectedCommas := 2 } := by
  rw [processRawLine_header { a with expectedCommas := -1 } headerLine (by decide) rfl]
  rfl

/-- The state after the header `id,zone,time` and the 89478485 lines
`1,<zone>,d 08:00` of the first zone names: it is reached by processing lines,
holds 89478485 zones with the ids `0 .. 89478484`, none named `A`, and has the
header's two commas set. -/
theorem full_state :
    ∃ a evs acc, processLines { TripAnalyzer.init with expectedCommas := -1 }
        (headerLine :: zoneLines 89478485) = some a ∧
      Tracks a evs ∧ Processed a acc ∧ a.expectedCommas = 2 ∧
      a.zoneMap.entries.length = 89478485 ∧ ∀ ev, ev ∈ evs → ev.1 ≠ [65] := by
  obtain ⟨a, hrun, tr, hexp, hlen, hnew⟩ := zoneLines_run 89478485 (le_refl _)
  have hall : processLines { TripAnalyzer.init with expectedCommas := -1 }
      (headerLine :: zoneLines 89478485) = some a := by
    rw [processLines_cons_of _ _ _ _ (header_step TripAnalyzer.init)]
    exact hrun
  obtain ⟨acc, hp⟩ := processLines_processed _ _ a []
    (Processed.reset TripAnalyzer.init [] Processed.init) hall
  exact ⟨a, _, acc, hall, tr, hp, hexp, hlen, hnew⟩

/-- C12, at the failing input: in the state reached by the header
`id,zone,time` and the 89478485 lines `1,<zone>,d 08:00` of distinct zones, the
line `1,A,d 08:00` is accepted by every rule, yet `processRawLine` has no
defined result: the new zone gets the id 89478485 and the `int` index
`zId * 24 + hour` of its slot counter overflows. -/
theorem C12_overflow_at_zone_89478485 :
    ∃ a acc, processLines { TripAnalyzer.init with expectedCommas := -1 }
        (headerLine :: zoneLines 89478485) = some a ∧
      Processed a acc ∧ a.zoneMap.size = 89478485 ∧ a.expectedCommas ≠ -1 ∧
      ¬ Rejected a.expectedCommas (zoneLine [65]) ∧
      processRawLine a (zoneLine [65]) = none := by
  obtain ⟨a, evs, acc, hall, tr, hp, hexp, hlen, hnew⟩ := full_state
  refine ⟨a, acc, hall, hp, hlen, by rw [hexp]; decide, ?_,
    (overflow_step a evs tr hlen hexp hnew).1⟩
  rw [hexp]
  exact fun h => absurd ((rejected_iff _ _).1 h) (by decide)

/-- C18, at the failing input: in the state reached by the header
`id,zone,time` and the 89478485 lines `1,<zone>,d 08:00` of distinct zones,
both vectors are in lockstep with the interner, `getId` on the new zone `A`
returns the id 89478485, and the index `zId * 24 + hour` that the increment of
`processRawLine` computes as an `int` is above `0x7FFFFFFF` for hour 8: the
aggregation block has no defined result. -/
theorem C18_increment_index_overflows :
    ∃ a acc, processLines { TripAnalyzer.init with expectedCommas := -1 }
        (headerLine :: zoneLines 89478485) = some a ∧
      Processed a acc ∧
      a.zoneCountsInternal.length = a.zoneMap.size ∧
      a.slotCountsInternal.length = 24 * a.zoneMap.size ∧
      ∃ zm zId, a.zoneMap.getId [65] (fnv1a [65]) = some (zm, zId) ∧
        0x7FFFFFFF < zId * 24 + 8 ∧ recordEvent a zm zId 8 = none := by
  obtain ⟨a, evs, acc, hall, tr, hp, hexp, hlen, hnew⟩ := full_state
  obtain ⟨_, zm, hget, hrec⟩ := overflow_step a evs tr hlen hexp hnew
  exact ⟨a, acc, hall, hp, tr.zlen, tr.slen, zm, 89478485, hget, by decide, hrec⟩

/-- C10, at the failing input: let `F1` be the file with the header
`id,zone,time` and the 89478485 lines `1,<zone>,d 08:00` of distinct zones,
and `F2` the file with the same header and the line `1,A,d 08:00`. Each file
alone is ingested into a fresh analyzer, but `F2` after `F1` on one analyzer
has no defined result: zone `A` gets the id 89478485 and the `int` index
`zId * 24 + hour` overflows. -/
theorem C10_overflow_in_second_file :
    ∃ a1 a2,
      ingestFile TripAnalyzer.init
        (some (joinLines [10] (headerLine :: zoneLines 89478485))) = some a1 ∧
      ingestFile TripAnalyzer.init (some (joinLines [10] [headerLine, zoneLine [65]])) =
        some a2 ∧
      ingestFile a1 (some (joinLines [10] [headerLine, zoneLine [65]])) = none := by
  obtain ⟨a1, evs, acc, hall, tr, hp, hexp, hlen, hnew⟩ := full_state
  obtain ⟨a2, h2⟩ := Option.isSome_iff_exists.1 (by decide :
    (ingestFile TripAnalyzer.init (some (joinLines [10] [headerLine, zoneLine [65]]))).isSome =
      true)
  refine ⟨a1, a2, ?_, h2, ?_⟩
  · rw [ingestFile_eq, zoneLines_chunks 89478485 (by decide)]
    exact hall
  · have hchunk : chunkLines BUFFER_SIZE (joinLines [10] [headerLine, zoneLine [65]]) =
        [headerLine, zoneLine [65]] := by decide
    rw [ingestFile_eq, hchunk, processLines_cons_of _ _ _ _ (header_step a1)]
    have tr' : Tracks { a1 with expectedCommas := 2 } evs := (tracks_expected a1 evs 2).2 tr
    have hstep := (overflow_step { a1 with expectedCommas := 2 } evs tr' hlen rfl hnew).1
    simp only [processLines, hstep]

/-! ## One string under two hashes -/

namespace FastZoneMap

end FastZoneMap

end TripModel
